import Mathlib

/-!
# Parser-Gombinators: parser combinators and the propositional-logic simplifier

A shallow embedding of `parse/parser_gombinators.go` (the exported combinator
library) and of `prop/main.go` (terms, rendering, simplification and the
grammar built from the combinators), followed by theorems about them.

Conventions of the embedding.

* Go strings are Lean `String`s and runes are `Char`s: texts are taken to be
  valid UTF-8, so that `[]rune (s)` is `s.data` and `string (runes)` is
  `String.mk runes`.  The end-of-input sentinel is the code point 0.
* An interface value that may be `nil` is an `Option`; `none` is `nil`.
* A run-time panic is an `Except.error`.  Loops and recursive grammar rules
  take a `fuel` argument; running out of it is the separate fault
  `Fault.outOfFuel`, which never stands for a behaviour of the program.
* Pointers to immutable records are modelled by the records themselves.
-/

namespace PropLogic

/-! ## Terms (`prop/main.go`) -/

/-- Literal values: `StringValue` and `BoolValue` implement the interface `Value`. -/
inductive Value where
  | StringValue (Value : String)
  | BoolValue (Value : Bool)
  deriving DecidableEq, Repr

/-- Propositional formulas: the six implementations of the interface `Term`. -/
inductive Term where
  | ValueTerm (Value : Value)
  | Identifier (Name : String)
  | Equation (Left Right : Term)
  | Not (Arg : Term)
  | And (Left Right : Term)
  | Or (Left Right : Term)
  deriving DecidableEq, Repr

/-- The environment `map[string] Value`, as an association list read with `List.lookup`. -/
abbrev Env := List (String × Value)

/-- The double quote, code point 34. -/
def quoteChar : Char := Char.ofNat 34

/-- The backslash, code point 92. -/
def backslashChar : Char := Char.ofNat 92

/-- The replacer `strings.NewReplacer ("\"", "\\\"")`: every double quote gets a
backslash in front of it, nothing else changes. -/
def escapeQuotes : List Char → List Char
  | [] => []
  | c :: cs =>
    if c = quoteChar then backslashChar :: quoteChar :: escapeQuotes cs
    else c :: escapeQuotes cs

/-- `StringValue.String` and `BoolValue.String`. -/
def Value.String : Value → String
  | .StringValue s => String.mk (quoteChar :: (escapeQuotes s.data ++ [quoteChar]))
  | .BoolValue b => if b then "TRUE" else "FALSE"

/-- `StringValue.Equals` and `BoolValue.Equals`: same variant and same content. -/
def Value.Equals : Value → Value → Bool
  | .StringValue s, .StringValue o => decide (s = o)
  | .BoolValue b, .BoolValue o => decide (b = o)
  | _, _ => false

/-- The methods `String` of the six term variants. -/
def Term.String : Term → String
  | .ValueTerm v => v.String
  | .Identifier n => n
  | .Equation l r => l.String ++ "=" ++ r.String
  | .Not a => "(NOT " ++ a.String ++ ")"
  | .And l r => "(" ++ l.String ++ " AND " ++ r.String ++ ")"
  | .Or l r => "(" ++ l.String ++ " OR " ++ r.String ++ ")"

/-- The methods `Equals` of the six term variants. -/
def Term.Equals : Term → Term → Bool
  | .ValueTerm v, .ValueTerm o => v.Equals o
  | .Identifier n, .Identifier o => decide (n = o)
  | .Equation l r, .Equation ol or => l.Equals ol && r.Equals or
  | .Not a, .Not oa => a.Equals oa
  | .And l r, .And ol or => l.Equals ol && r.Equals or
  | .Or l r, .Or ol or => l.Equals ol && r.Equals or
  | _, _ => false

/-- The type assertion `t.(*ValueTerm)`, its boolean. -/
def Term.isValueTerm : Term → Bool
  | .ValueTerm _ => true
  | _ => false

/-- The methods `Simplify` of the six term variants.  Where the source returns
the receiver itself because nothing changed, the rebuilt node is the same
term. -/
def Term.Simplify : Term → Env → Term
  | .ValueTerm v, _ => .ValueTerm v
  | .Identifier name, env =>
    match env.lookup name with
    | some value => .ValueTerm value
    | none => .Identifier name
  | .Equation l r, env =>
    let left := l.Simplify env
    let right := r.Simplify env
    if left.Equals right then .ValueTerm (.BoolValue true)
    else if left.isValueTerm && right.isValueTerm then .ValueTerm (.BoolValue false)
    else .Equation left right
  | .Not a, env =>
    match a.Simplify env with
    | .ValueTerm (.BoolValue b) => .ValueTerm (.BoolValue (!b))
    | .Not x => x
    | arg => .Not arg
  | .And l r, env =>
    match l.Simplify env with
    | .ValueTerm (.BoolValue b) => if b then r.Simplify env else .ValueTerm (.BoolValue b)
    | left =>
      match r.Simplify env with
      | .ValueTerm (.BoolValue b) => if !b then .ValueTerm (.BoolValue b) else left
      | right => .And left right
  | .Or l r, env =>
    match l.Simplify env with
    | .ValueTerm (.BoolValue b) => if !b then r.Simplify env else .ValueTerm (.BoolValue b)
    | left =>
      match r.Simplify env with
      | .ValueTerm (.BoolValue b) => if b then .ValueTerm (.BoolValue b) else left
      | right => .Or left right

/-- The number of nodes of a term. -/
def Term.size : Term → Nat
  | .ValueTerm _ => 1
  | .Identifier _ => 1
  | .Equation l r => l.size + r.size + 1
  | .Not a => a.size + 1
  | .And l r => l.size + r.size + 1
  | .Or l r => l.size + r.size + 1

/-- The term with `n` nodes `Not` around `t`. -/
def nestNot : Nat → Term → Term
  | 0, t => t
  | n + 1, t => .Not (nestNot n t)

/-! ### Bounded recursion, reference rendering, normal forms and truth values -/

/-- The methods `Simplify` with the depth of the recursion counted: every call
of `Simplify` takes one unit of `fuel` and hands the rest to the calls it
makes on the fields of its receiver; `none` is returned where the fuel does
not reach. -/
def Term.SimplifyFuel : Nat → Term → Env → Option Term
  | 0, _, _ => none
  | _ + 1, .ValueTerm v, _ => some (.ValueTerm v)
  | _ + 1, .Identifier name, env =>
    match env.lookup name with
    | some value => some (.ValueTerm value)
    | none => some (.Identifier name)
  | fuel + 1, .Equation l r, env =>
    match Term.SimplifyFuel fuel l env with
    | none => none
    | some left =>
      match Term.SimplifyFuel fuel r env with
      | none => none
      | some right =>
        if left.Equals right then some (.ValueTerm (.BoolValue true))
        else if left.isValueTerm && right.isValueTerm then some (.ValueTerm (.BoolValue false))
        else some (.Equation left right)
  | fuel + 1, .Not a, env =>
    match Term.SimplifyFuel fuel a env with
    | none => none
    | some (.ValueTerm (.BoolValue b)) => some (.ValueTerm (.BoolValue (!b)))
    | some (.Not x) => some x
    | some arg => some (.Not arg)
  | fuel + 1, .And l r, env =>
    match Term.SimplifyFuel fuel l env with
    | none => none
    | some (.ValueTerm (.BoolValue b)) =>
      if b then Term.SimplifyFuel fuel r env else some (.ValueTerm (.BoolValue b))
    | some left =>
      match Term.SimplifyFuel fuel r env with
      | none => none
      | some (.ValueTerm (.BoolValue b)) => if !b then some (.ValueTerm (.BoolValue b)) else some left
      | some right => some (.And left right)
  | fuel + 1, .Or l r, env =>
    match Term.SimplifyFuel fuel l env with
    | none => none
    | some (.ValueTerm (.BoolValue b)) =>
      if !b then Term.SimplifyFuel fuel r env else some (.ValueTerm (.BoolValue b))
    | some left =>
      match Term.SimplifyFuel fuel r env with
      | none => none
      | some (.ValueTerm (.BoolValue b)) => if b then some (.ValueTerm (.BoolValue b)) else some left
      | some right => some (.Or left right)

/-- The reference escaping of the rendering: every double quote is replaced by
a backslash and a double quote, every other character stands for itself. -/
def referenceEscape (s : List Char) : List Char :=
  (s.map fun c => if c = quoteChar then [backslashChar, quoteChar] else [c]).flatten

/-- The reference rendering of a term, clause by clause. -/
def referenceRendering : Term → String
  | .ValueTerm (.BoolValue true) => "TRUE"
  | .ValueTerm (.BoolValue false) => "FALSE"
  | .ValueTerm (.StringValue s) =>
    String.mk ([quoteChar] ++ referenceEscape s.data ++ [quoteChar])
  | .Identifier name => name
  | .Equation l r => referenceRendering l ++ "=" ++ referenceRendering r
  | .Not a => "(NOT " ++ referenceRendering a ++ ")"
  | .And l r => "(" ++ referenceRendering l ++ " AND " ++ referenceRendering r ++ ")"
  | .Or l r => "(" ++ referenceRendering l ++ " OR " ++ referenceRendering r ++ ")"

/-- A term that is a `Bool` literal. -/
def Term.isBoolLiteral : Term → Bool
  | .ValueTerm (.BoolValue _) => true
  | _ => false

/-- A term that is a node `Not`. -/
def Term.isNot : Term → Bool
  | .Not _ => true
  | _ => false

/-- Normal forms with respect to an environment: no node is an identifier
bound in the environment, a `Not` of a `Bool` literal or of a `Not`, an `And`
or `Or` with a `Bool` literal as a direct child, or an equation whose sides
are structurally equal or both literals. -/
def Term.isNormalForm (env : Env) : Term → Bool
  | .ValueTerm _ => true
  | .Identifier name => (env.lookup name).isNone
  | .Equation l r =>
    l.isNormalForm env && r.isNormalForm env &&
      !(decide (l = r)) && !(l.isValueTerm && r.isValueTerm)
  | .Not a => a.isNormalForm env && !a.isBoolLiteral && !a.isNot
  | .And l r =>
    l.isNormalForm env && r.isNormalForm env && !l.isBoolLiteral && !r.isBoolLiteral
  | .Or l r =>
    l.isNormalForm env && r.isNormalForm env && !l.isBoolLiteral && !r.isBoolLiteral

/-- A term without string literals. -/
def Term.noStringLiteral : Term → Bool
  | .ValueTerm (.StringValue _) => false
  | .ValueTerm (.BoolValue _) => true
  | .Identifier _ => true
  | .Equation l r => l.noStringLiteral && r.noStringLiteral
  | .Not a => a.noStringLiteral
  | .And l r => l.noStringLiteral && r.noStringLiteral
  | .Or l r => l.noStringLiteral && r.noStringLiteral

/-- A value that is a `Bool`. -/
def Value.isBool : Value → Bool
  | .BoolValue _ => true
  | .StringValue _ => false

/-- An environment all of whose values are `Bool`. -/
def envAllBool (env : Env) : Bool :=
  env.all fun binding => binding.2.isBool

/-- The classical truth value of a term under a valuation of the identifiers:
`Not`, `And` and `Or` are the connectives and an equation holds when its two
sides have the same truth value.  String literals have no truth value and are
read as false; the properties stated with `truthValue` exclude them. -/
def truthValue (rho : String → Bool) : Term → Bool
  | .ValueTerm (.BoolValue b) => b
  | .ValueTerm (.StringValue _) => false
  | .Identifier name => rho name
  | .Equation l r => truthValue rho l == truthValue rho r
  | .Not a => !truthValue rho a
  | .And l r => truthValue rho l && truthValue rho r
  | .Or l r => truthValue rho l || truthValue rho r

/-- The valuation that an environment of `Bool` bindings gives to its keys
(false elsewhere). -/
def envValuation (env : Env) : String → Bool :=
  fun name =>
    match env.lookup name with
    | some (.BoolValue b) => b
    | _ => false

/-- A valuation that agrees with the environment on the keys of the
environment. -/
def agreesWith (rho : String → Bool) (env : Env) : Prop :=
  ∀ name b, env.lookup name = some (.BoolValue b) → rho name = b

/-- Every identifier that occurs in the term is a key of the environment. -/
def Term.closedIn (env : Env) : Term → Bool
  | .ValueTerm _ => true
  | .Identifier name => (env.lookup name).isSome
  | .Equation l r => l.closedIn env && r.closedIn env
  | .Not a => a.closedIn env
  | .And l r => l.closedIn env && r.closedIn env
  | .Or l r => l.closedIn env && r.closedIn env

/-- The environment `env2` contains every binding of `env1`. -/
def envExtends (env2 env1 : Env) : Prop :=
  ∀ name value, env1.lookup name = some value → env2.lookup name = some value

end PropLogic

namespace Parse

/-! ## The combinator library (`parse/parser_gombinators.go`) -/

/-- The ways a run can end without a `ParserResult`: the two run-time panics
the code can raise, and the exhaustion of the fuel of the embedding. -/
inductive Fault where
  | nilDereference
  | typeAssertion
  | outOfFuel
  deriving DecidableEq, Repr

/-- The dynamic values an `interface{}` holds in this repository; `nil` is the
nil interface. -/
inductive Any where
  | nil
  | rune (c : Char)
  | runes (cs : List Char)
  | str (s : String)
  | bool (b : Bool)
  | int (n : Int)
  | pair (First Second : Any)
  | nothing
  | list (xs : List Any)
  | term (t : PropLogic.Term)

/-- The comparison `x == nil` on an `interface{}`. -/
def Any.isNil : Any → Bool
  | .nil => true
  | _ => false

/-- The comparison `x == text` of an `interface{}` with a string. -/
def Any.eqString : Any → String → Bool
  | .str s, text => decide (s = text)
  | _, _ => false

/-- The comparison `x == (Nothing{})`. -/
def Any.isNothing : Any → Bool
  | .nothing => true
  | _ => false

/-- The interface `ParserInput`: the two methods of a non-nil input. -/
class ParserInput (ι : Type) where
  CurrentCodePoint : ι → Char
  RemainingInput : ι → Option ι

/-- The struct `ParserResult`; its `RemainingInput` is an interface value that
may be nil. -/
structure ParserResult (ι : Type) where
  Result : Any
  RemainingInput : Option ι

/-- The type `Parser`: a function from a possibly nil input to a result, or a
fault. -/
abbrev Parser (ι : Type) := Option ι → Except Fault (ParserResult ι)

/-- The end-of-input sentinel, the rune 0. -/
def nul : Char := Char.ofNat 0

section Combinators

variable {ι : Type}

/-- `ExpectCodePoint`: calling `CurrentCodePoint` on a nil input panics. -/
def ExpectCodePoint [ParserInput ι] (expectedCodePoint : Char) : Parser ι :=
  fun input =>
    match input with
    | none => .error .nilDereference
    | some v =>
      if expectedCodePoint = ParserInput.CurrentCodePoint v then
        .ok ⟨.rune expectedCodePoint, ParserInput.RemainingInput v⟩
      else .ok ⟨.nil, input⟩

/-- The loop of `ExpectCodePoints` over the code points still expected;
`expectedCodePoints` is the whole slice, returned on success. -/
def ExpectCodePoints.loop [ParserInput ι] (expectedCodePoints : List Char) :
    List Char → Option ι → Except Fault (ParserResult ι)
  | [], RemainingInput => .ok ⟨.runes expectedCodePoints, RemainingInput⟩
  | expectedCodePoint :: rest, RemainingInput =>
    match RemainingInput with
    | none => .ok ⟨.nil, RemainingInput⟩
    | some _ =>
      match ExpectCodePoint expectedCodePoint RemainingInput with
      | .error e => .error e
      | .ok result =>
        if result.Result.isNil then .ok ⟨.nil, RemainingInput⟩
        else ExpectCodePoints.loop expectedCodePoints rest result.RemainingInput

/-- `ExpectCodePoints`. -/
def ExpectCodePoints [ParserInput ι] (expectedCodePoints : List Char) : Parser ι :=
  fun input => ExpectCodePoints.loop expectedCodePoints expectedCodePoints input

/-- `ExpectString`: a `[]rune` result is turned into the string. -/
def ExpectString [ParserInput ι] (expectedString : String) : Parser ι :=
  fun input =>
    match ExpectCodePoints expectedString.data input with
    | .error e => .error e
    | .ok result =>
      match result.Result with
      | .runes runes => .ok ⟨.str (String.mk runes), result.RemainingInput⟩
      | _ => .ok result

/-- The loop of `Repeated`: `acc` is the list built so far, one unit of fuel
per application of `parser`. -/
def Repeated.loop (parser : Parser ι) :
    Nat → List Any → Option ι → Except Fault (ParserResult ι)
  | _, acc, none => .ok ⟨.list acc, none⟩
  | 0, _, some _ => .error .outOfFuel
  | fuel + 1, acc, some v =>
    match parser (some v) with
    | .error e => .error e
    | .ok oneMoreResult =>
      if oneMoreResult.Result.isNil then .ok ⟨.list acc, some v⟩
      else Repeated.loop parser fuel (acc ++ [oneMoreResult.Result]) oneMoreResult.RemainingInput

/-- `Parser.Repeated`. -/
def Repeated (fuel : Nat) (parser : Parser ι) : Parser ι :=
  fun input => Repeated.loop parser fuel [] input

/-- `Parser.OnceOrMore`. -/
def OnceOrMore (fuel : Nat) (parser : Parser ι) : Parser ι :=
  fun input =>
    match Repeated fuel parser input with
    | .error e => .error e
    | .ok result =>
      match result.Result with
      | .list xs => if xs.length > 0 then .ok result else .ok ⟨.nil, input⟩
      | _ => .error .typeAssertion

/-- The loop of `RepeatAndFoldLeft`, one unit of fuel per application of
`parser`. -/
def RepeatAndFoldLeft.loop (parser : Parser ι) (combine : Any → Any → Except Fault Any) :
    Nat → Any → Option ι → Except Fault (ParserResult ι)
  | _, acc, none => .ok ⟨acc, none⟩
  | 0, _, some _ => .error .outOfFuel
  | fuel + 1, acc, some v =>
    match parser (some v) with
    | .error e => .error e
    | .ok oneMoreResult =>
      if oneMoreResult.Result.isNil then .ok ⟨acc, some v⟩
      else
        match combine acc oneMoreResult.Result with
        | .error e => .error e
        | .ok next =>
          RepeatAndFoldLeft.loop parser combine fuel next oneMoreResult.RemainingInput

/-- `Parser.RepeatAndFoldLeft`. -/
def RepeatAndFoldLeft (fuel : Nat) (parser : Parser ι) (accumulator : Any)
    (combine : Any → Any → Except Fault Any) : Parser ι :=
  fun input => RepeatAndFoldLeft.loop parser combine fuel accumulator input

/-- `Parser.Bind`. -/
def Bind (parser : Parser ι) (constructor : Any → Parser ι) : Parser ι :=
  fun input =>
    match parser input with
    | .error e => .error e
    | .ok firstResult => constructor firstResult.Result firstResult.RemainingInput

/-- `Parser.OrElse`. -/
def OrElse (parser alternativeParser : Parser ι) : Parser ι :=
  fun input =>
    match parser input with
    | .error e => .error e
    | .ok FirstResult =>
      if !FirstResult.Result.isNil then .ok FirstResult
      else alternativeParser input

/-- `GetSecond`. -/
def GetSecond : Any → Any
  | .pair _ second => second
  | argument => argument

/-- `GetFirst`. -/
def GetFirst : Any → Any
  | .pair first _ => first
  | argument => argument

/-- `Parser.AndThen`. -/
def AndThen (firstParser secondParser : Parser ι) : Parser ι :=
  fun input =>
    match firstParser input with
    | .error e => .error e
    | .ok firstResult =>
      if !firstResult.Result.isNil then
        match secondParser firstResult.RemainingInput with
        | .error e => .error e
        | .ok secondResult =>
          if !secondResult.Result.isNil then
            .ok ⟨.pair firstResult.Result secondResult.Result, secondResult.RemainingInput⟩
          else .ok secondResult
      else .ok firstResult

/-- `Parser.Convert`; a converter may panic on a failed type assertion. -/
def Convert (parser : Parser ι) (converter : Any → Except Fault Any) : Parser ι :=
  fun input =>
    match parser input with
    | .error e => .error e
    | .ok result =>
      if !result.Result.isNil then
        match converter result.Result with
        | .error e => .error e
        | .ok converted => .ok ⟨converted, result.RemainingInput⟩
      else .ok result

/-- `Parser.First`. -/
def First (parser : Parser ι) : Parser ι :=
  Convert parser (fun argument => .ok (GetFirst argument))

/-- `Parser.Second`. -/
def Second (parser : Parser ι) : Parser ι :=
  Convert parser (fun argument => .ok (GetSecond argument))

/-- `Parser.Optional`. -/
def Optional (parser : Parser ι) : Parser ι :=
  fun input =>
    match parser input with
    | .error e => .error e
    | .ok result =>
      if result.Result.isNil then .ok ⟨.nothing, input⟩
      else .ok result

end Combinators

/-! ### Array-backed input and the lexical primitives -/

/-- The struct `RuneArrayInput`. -/
structure RuneArrayInput where
  Text : List Char
  CurrentPosition : Nat
  deriving DecidableEq, Repr

/-- `RuneArrayInput.RemainingInput`: nil as soon as the next position is not
inside the text. -/
def RuneArrayInput.RemainingInput (input : RuneArrayInput) : Option RuneArrayInput :=
  if input.CurrentPosition + 1 >= input.Text.length then none
  else some ⟨input.Text, input.CurrentPosition + 1⟩

/-- `RuneArrayInput.CurrentCodePoint`. -/
def RuneArrayInput.CurrentCodePoint (input : RuneArrayInput) : Char :=
  if input.CurrentPosition >= input.Text.length then nul
  else input.Text.getD input.CurrentPosition nul

instance : ParserInput RuneArrayInput where
  CurrentCodePoint := RuneArrayInput.CurrentCodePoint
  RemainingInput := RuneArrayInput.RemainingInput

/-- `StringToInput`: the view of the whole text at position 0. -/
def StringToInput (Text : String) : Option RuneArrayInput :=
  some ⟨Text.data, 0⟩

/-- `isIdentifierStartChar`. -/
def isIdentifierStartChar (FirstCodePoint : Char) : Bool :=
  decide ('a'.toNat ≤ FirstCodePoint.toNat) && decide (FirstCodePoint.toNat ≤ 'z'.toNat) ||
  decide ('A'.toNat ≤ FirstCodePoint.toNat) && decide (FirstCodePoint.toNat ≤ 'Z'.toNat) ||
  decide ('_' = FirstCodePoint)

/-- `isDigit`. -/
def isDigit (codePoint : Char) : Bool :=
  decide ('0'.toNat ≤ codePoint.toNat) && decide (codePoint.toNat ≤ '9'.toNat)

/-- `isIdentifierChar`. -/
def isIdentifierChar (codePoint : Char) : Bool :=
  isIdentifierStartChar codePoint || isDigit codePoint

/-- `isSpaceChar`: space, line feed, carriage return, tab. -/
def isSpaceChar (codePoint : Char) : Bool :=
  decide (codePoint = Char.ofNat 32) || decide (codePoint = Char.ofNat 10) ||
  decide (codePoint = Char.ofNat 13) || decide (codePoint = Char.ofNat 9)

section Lexical

variable {ι : Type} [ParserInput ι]

/-- The loop of `ExpectSeveral`: `builder` is the text written so far,
`codePoint` the code point under test and `RemainingInput` the input it was
read from.  Both method calls in the body panic on a nil receiver. -/
def ExpectSeveral.loop (isLaterChar : Char → Bool) :
    Nat → List Char → Char → Option ι → Except Fault (ParserResult ι)
  | 0, _, _, _ => .error .outOfFuel
  | fuel + 1, builder, codePoint, RemainingInput =>
    if isLaterChar codePoint then
      match RemainingInput with
      | none => .error .nilDereference
      | some v =>
        match ParserInput.RemainingInput v with
        | none => .error .nilDereference
        | some next =>
          ExpectSeveral.loop isLaterChar fuel (builder ++ [codePoint])
            (ParserInput.CurrentCodePoint next) (some next)
    else .ok ⟨.str (String.mk builder), RemainingInput⟩

/-- `ExpectSeveral`. -/
def ExpectSeveral (fuel : Nat) (isFirstChar isLaterChar : Char → Bool) : Parser ι :=
  fun input =>
    match input with
    | none => .error .nilDereference
    | some v =>
      let FirstCodePoint := ParserInput.CurrentCodePoint v
      if !isFirstChar FirstCodePoint then .ok ⟨.nil, input⟩
      else ExpectSeveral.loop isLaterChar fuel [] FirstCodePoint input

/-- `ExpectIdentifier`. -/
def ExpectIdentifier (fuel : Nat) : Parser ι :=
  ExpectSeveral fuel isIdentifierStartChar isIdentifierChar

/-- `ExpectSpaces`. -/
def ExpectSpaces (fuel : Nat) : Parser ι :=
  Optional (ExpectSeveral fuel isSpaceChar isSpaceChar)

/-- `ExpectNumber`. -/
def ExpectNumber (fuel : Nat) : Parser ι :=
  ExpectSeveral fuel isDigit isDigit

/-- `MaybeSpacesBefore`. -/
def MaybeSpacesBefore (fuel : Nat) (parser : Parser ι) : Parser ι :=
  Second (AndThen (ExpectSpaces fuel) parser)

/-- Modelled from the spec: `ExpectNotCodePoint`, which `prop/main.go` calls
and the library file does not define.  The spec has a string literal made of
`any-char-except-'"'`; so the parser consumes one code point and returns it
iff it is none of the forbidden ones, and fails on the input otherwise. -/
def ExpectNotCodePoint (forbidden : List Char) : Parser ι :=
  fun input =>
    match input with
    | none => .error .nilDereference
    | some v =>
      if forbidden.contains (ParserInput.CurrentCodePoint v) then .ok ⟨.nil, input⟩
      else .ok ⟨.rune (ParserInput.CurrentCodePoint v), ParserInput.RemainingInput v⟩

end Lexical

/-- The constructor of `TestBind`: `arg.(string)` panics on another dynamic
type, and the parser built from the string skips spaces and expects it. -/
def testBindConstructor (fuel : Nat) : Any → Parser RuneArrayInput
  | .str s => MaybeSpacesBefore fuel (ExpectString s)
  | _ => fun _ => .error .typeAssertion

/-- Advancing an input `k` times with `RemainingInput`; once the input is nil it
stays nil (there is nothing left to advance). -/
def advance : Nat → Option RuneArrayInput → Option RuneArrayInput
  | 0, input => input
  | k + 1, input =>
    match advance k input with
    | none => none
    | some v => v.RemainingInput

/-! ### Stream-backed input -/

/-- The `io.RuneReader` behind a `FileInput`, as the runes it has not handed
out yet.  It is the one piece of mutable state; the functions that read from
it return its new value. -/
abbrev RuneReader := List Char

/-- The method `ReadRune`: the next rune and the reader after it, or no rune
(`err != nil`) at the end of the stream. -/
def ReadRune : RuneReader → Option Char × RuneReader
  | [] => (none, [])
  | r :: rest => (some r, rest)

/-- The struct `FileInput`.  `File` says whether the field `File` is non-nil
(the reader itself is passed separately); `RestOfInput` is the pointer to the
next view, `none` when it is nil. -/
inductive FileInput where
  | mk (File : Bool) (CurrentRune : Char) (RestOfInput : Option FileInput)

/-- The field `File` of a `FileInput`, as the boolean `File != nil`. -/
def FileInput.File : FileInput → Bool
  | .mk f _ _ => f

/-- The field `CurrentRune`. -/
def FileInput.CurrentRune : FileInput → Char
  | .mk _ c _ => c

/-- The field `RestOfInput`. -/
def FileInput.RestOfInput : FileInput → Option FileInput
  | .mk _ _ r => r

/-- `FileToInput`: one rune is read ahead. -/
def FileToInput (file : RuneReader) : FileInput × RuneReader :=
  match ReadRune file with
  | (none, file) => (.mk true nul none, file)
  | (some r, file) => (.mk true r none, file)

/-- `FileInput.RemainingInput`.  The receiver is passed by value, so the two
assignments of the source, `input.File = nil` and `input.RestOfInput = ...`,
change the copy of the callee only: the caller keeps `input` as it was, and
the function hands back the next view and the reader. -/
def FileInput.RemainingInput (input : FileInput) (file : RuneReader) :
    Option FileInput × RuneReader :=
  match input.RestOfInput with
  | some rest => (some rest, file)
  | none =>
    if !input.File then (none, file)
    else
      match ReadRune file with
      | (none, file) => (none, file)
      | (some r, file) => (some (.mk true r none), file)

/-- `FileInput.CurrentCodePoint`. -/
def FileInput.CurrentCodePoint (input : FileInput) : Char :=
  input.CurrentRune

end Parse

namespace ParserGombinators

/-! ## The tested copy of the library (`parser_gombinators/parser_gombinators.go`)

The copy has the interface, `ExpectSeveral`, the predicates on code points and
`ExpectIdentifier` word for word as the exported package; they are the
definitions above, used at the input type of the copy.  Its array-backed input
differs in `RemainingInput`. -/

/-- The struct `RuneArrayInput` of the copy. -/
structure RuneArrayInput where
  Text : List Char
  CurrentPosition : Nat
  deriving DecidableEq, Repr

/-- `RuneArrayInput.RemainingInput` of the copy: nil only when the position is
not inside the text. -/
def RuneArrayInput.RemainingInput (input : RuneArrayInput) : Option RuneArrayInput :=
  if input.CurrentPosition >= input.Text.length then none
  else some ⟨input.Text, input.CurrentPosition + 1⟩

/-- `RuneArrayInput.CurrentCodePoint` of the copy. -/
def RuneArrayInput.CurrentCodePoint (input : RuneArrayInput) : Char :=
  if input.CurrentPosition >= input.Text.length then Parse.nul
  else input.Text.getD input.CurrentPosition Parse.nul

instance : Parse.ParserInput RuneArrayInput where
  CurrentCodePoint := RuneArrayInput.CurrentCodePoint
  RemainingInput := RuneArrayInput.RemainingInput

/-- `StringToInput` of the copy. -/
def StringToInput (Text : String) : Option RuneArrayInput :=
  some ⟨Text.data, 0⟩

end ParserGombinators

namespace PropLogic

open Parse

/-! ## The grammar (`prop/main.go`) -/

section Grammar

variable {ι : Type} [ParserInput ι]

/-- The converter of `ParseIdent`: keywords are no identifiers (the advice
printed for near-keywords is output only). -/
def identConverter : Any → Except Fault Any
  | .str text =>
    if text = "TRUE" || text = "FALSE" || text = "NOT" || text = "OR" || text = "AND" then
      .ok .nil
    else .ok (.term (.Identifier text))
  | _ => .ok .nil

/-- `ParseIdent`. -/
def ParseIdent (fuel : Nat) : Parser ι :=
  Convert (MaybeSpacesBefore fuel (ExpectIdentifier fuel)) identConverter

/-- The converter of `ParseBool`. -/
def boolConverter : Any → Except Fault Any
  | .str text =>
    if text = "TRUE" then .ok (.bool true)
    else if text = "FALSE" then .ok (.bool false)
    else .ok .nil
  | _ => .ok .nil

/-- `ParseBool`. -/
def ParseBool (fuel : Nat) : Parser ι :=
  Convert (MaybeSpacesBefore fuel (ExpectIdentifier fuel)) boolConverter

/-- The combine function of `ParseString`: `acc.(string) + string (char.(rune))`. -/
def appendRune : Any → Any → Except Fault Any
  | .str acc, .rune char => .ok (.str (String.mk (acc.data ++ [char])))
  | _, _ => .error .typeAssertion

/-- `ParseString`. -/
def ParseString (fuel : Nat) : Parser ι :=
  First (AndThen
    (Second (AndThen (ExpectCodePoint quoteChar)
      (RepeatAndFoldLeft fuel
        (OrElse (Second (AndThen (ExpectCodePoint backslashChar) (ExpectCodePoint quoteChar)))
          (ExpectNotCodePoint [quoteChar]))
        (.str "") appendRune)))
    (ExpectCodePoint quoteChar))

/-- The first converter of `ParseValue`. -/
def boolValueConverter : Any → Except Fault Any
  | .bool argBool => .ok (.term (.ValueTerm (.BoolValue argBool)))
  | _ => .ok .nil

/-- The second converter of `ParseValue`. -/
def stringValueConverter : Any → Except Fault Any
  | .str argString => .ok (.term (.ValueTerm (.StringValue argString)))
  | _ => .ok .nil

/-- `ParseValue`. -/
def ParseValue (fuel : Nat) : Parser ι :=
  MaybeSpacesBefore fuel
    (OrElse (Convert (ParseBool fuel) boolValueConverter)
      (Convert (ParseString fuel) stringValueConverter))

/-- `expectIdent`. -/
def expectIdent (fuel : Nat) (text : String) : Parser ι :=
  MaybeSpacesBefore fuel (fun input =>
    match ExpectIdentifier fuel input with
    | .error e => .error e
    | .ok result =>
      if result.Result.eqString text then .ok result
      else .ok ⟨.nil, input⟩)

/-- `expect`. -/
def expect (fuel : Nat) (text : String) : Parser ι :=
  MaybeSpacesBefore fuel (ExpectString text)

/-- The converter of `ParseEqn`: `arg.(Pair)`, `pair.First.(Term)` and
`pair.Second.(Term)` panic on another dynamic type. -/
def eqnConverter : Any → Except Fault Any
  | .pair (.term lhs) second =>
    if second.isNothing then .ok (.term lhs)
    else
      match second with
      | .term rhs => .ok (.term (.Equation lhs rhs))
      | _ => .error .typeAssertion
  | _ => .error .typeAssertion

/-- The converter of `ParseNot`: `arg.(Pair)` with the comma-ok form gives the
zero pair on another type, and the two assertions after it panic. -/
def notConverter : Any → Except Fault Any
  | .pair (.bool negate) (.term term) =>
    if negate then .ok (.term (.Not term)) else .ok (.term term)
  | _ => .error .typeAssertion

/-- The converter of `ParseAnd` (`mk` is `And`) and of `ParseOr` (`mk` is `Or`). -/
def binaryConverter (mk : Term → Term → Term) : Any → Except Fault Any
  | .pair first second =>
    if second.isNothing then
      match first with
      | .term t => .ok (.term t)
      | _ => .error .typeAssertion
    else
      match first, second with
      | .term l, .term r => .ok (.term (mk l r))
      | _, _ => .error .typeAssertion
  | _ => .error .typeAssertion

/-- The toggle of `ParseNot`: `!negate.(bool)`. -/
def toggle : Any → Any → Except Fault Any
  | .bool negate, _ => .ok (.bool (!negate))
  | _, _ => .error .typeAssertion

mutual

/-- `ParseAtom`. -/
def ParseAtom : Nat → Parser ι
  | 0 => fun _ => .error .outOfFuel
  | fuel + 1 =>
    OrElse (OrElse (ParseValue fuel) (ParseIdent fuel))
      (Second (First (AndThen (AndThen (expect fuel "(") (ParseOr fuel)) (expect fuel ")"))))

/-- `ParseEqn`. -/
def ParseEqn : Nat → Parser ι
  | 0 => fun _ => .error .outOfFuel
  | fuel + 1 =>
    Convert
      (AndThen (ParseAtom fuel)
        (Optional (Second (AndThen (expect fuel "=") (ParseAtom fuel)))))
      eqnConverter

/-- `ParseNot`. -/
def ParseNot : Nat → Parser ι
  | 0 => fun _ => .error .outOfFuel
  | fuel + 1 =>
    Convert
      (AndThen (RepeatAndFoldLeft fuel (expectIdent fuel "NOT") (.bool false) toggle)
        (ParseEqn fuel))
      notConverter

/-- `ParseAnd`. -/
def ParseAnd : Nat → Parser ι
  | 0 => fun _ => .error .outOfFuel
  | fuel + 1 =>
    Convert
      (AndThen (ParseNot fuel)
        (Optional (Second (AndThen (expectIdent fuel "AND") (ParseAnd fuel)))))
      (binaryConverter Term.And)

/-- `ParseOr`. -/
def ParseOr : Nat → Parser ι
  | 0 => fun _ => .error .outOfFuel
  | fuel + 1 =>
    Convert
      (AndThen (ParseAnd fuel)
        (Optional (Second (AndThen (expectIdent fuel "OR") (ParseOr fuel)))))
      (binaryConverter Term.Or)

end

end Grammar

/-- The text of a run of `NOT` tokens, each with the separator that stands in
front of it. -/
def notTokens : List (List Char) → List Char
  | [] => []
  | ws :: rest => ws ++ ('N' :: 'O' :: 'T' :: notTokens rest)

end PropLogic

/-! # Theorems -/

namespace PropLogic

/-! ## Structural equality and simplification -/

theorem Value_Equals_iff (v o : Value) : v.Equals o = true ↔ v = o := by
  cases v <;> cases o <;> simp [Value.Equals]

theorem Term_Equals_iff (t u : Term) : t.Equals u = true ↔ t = u := by
  induction t generalizing u with
  | ValueTerm v => cases u <;> simp [Term.Equals, Value_Equals_iff]
  | Identifier n => cases u <;> simp [Term.Equals]
  | Equation l r ihl ihr => cases u <;> simp [Term.Equals, ihl, ihr]
  | Not a iha => cases u <;> simp [Term.Equals, iha]
  | And l r ihl ihr => cases u <;> simp [Term.Equals, ihl, ihr]
  | Or l r ihl ihr => cases u <;> simp [Term.Equals, ihl, ihr]

theorem Term_size_Simplify_le (t : Term) (env : Env) : (t.Simplify env).size ≤ t.size := by
  induction t with
  | ValueTerm v => simp [Term.Simplify]
  | Identifier n =>
    simp only [Term.Simplify]
    split <;> simp [Term.size]
  | Equation l r ihl ihr =>
    simp only [Term.Simplify]
    split
    · simp [Term.size]
    · split
      · simp [Term.size]
      · simp only [Term.size]; omega
  | Not a iha =>
    simp only [Term.Simplify]
    split
    · simp [Term.size]
    · rename_i x h
      rw [h] at iha; simp only [Term.size] at iha ⊢; omega
    · simp only [Term.size]; omega
  | And l r ihl ihr =>
    simp only [Term.Simplify]
    split
    · split
      · simp only [Term.size]; omega
      · simp [Term.size]
    · split
      · split
        · simp [Term.size]
        · simp only [Term.size]; omega
      · simp only [Term.size]; omega
  | Or l r ihl ihr =>
    simp only [Term.Simplify]
    split
    · split
      · simp only [Term.size]; omega
      · simp [Term.size]
    · split
      · split
        · simp [Term.size]
        · simp only [Term.size]; omega
      · simp only [Term.size]; omega

theorem Term_Simplify_Not_fix (x : Term) (env : Env)
    (h : (Term.Not x).Simplify env = .Not x) : x.Simplify env = x := by
  have hs := Term_size_Simplify_le x env
  simp only [Term.Simplify] at h
  split at h
  · cases h
  · rename_i y hy
    subst h
    rw [hy] at hs
    simp only [Term.size] at hs
    omega
  · simpa using h

theorem Term_Simplify_Simplify (t : Term) (env : Env) :
    (t.Simplify env).Simplify env = t.Simplify env := by
  induction t with
  | ValueTerm v => simp [Term.Simplify]
  | Identifier n =>
    simp only [Term.Simplify]
    split
    · simp [Term.Simplify]
    · rename_i h
      simp [Term.Simplify, h]
  | Equation l r ihl ihr =>
    simp only [Term.Simplify]
    split
    · simp [Term.Simplify]
    · split
      · simp [Term.Simplify]
      · rename_i h1 h2
        simp only [Term.Simplify, ihl, ihr, h1, h2]
        simp
  | Not a iha =>
    simp only [Term.Simplify]
    split
    · simp [Term.Simplify]
    · rename_i x h
      rw [h] at iha
      exact Term_Simplify_Not_fix x env iha
    · rename_i arg h1 h2
      simp only [Term.Simplify, iha]
  | And l r ihl ihr =>
    simp only [Term.Simplify]
    split
    · split
      · exact ihr
      · simp [Term.Simplify]
    · rename_i left h1
      split
      · split
        · simp [Term.Simplify]
        · exact ihl
      · rename_i right h2
        simp only [Term.Simplify, ihl, ihr]
  | Or l r ihl ihr =>
    simp only [Term.Simplify]
    split
    · split
      · exact ihr
      · simp [Term.Simplify]
    · rename_i left h1
      split
      · split
        · simp [Term.Simplify]
        · exact ihl
      · rename_i right h2
        simp only [Term.Simplify, ihl, ihr]

/-- C1: `Simplify` is idempotent: simplifying a simplified term again, in the
same environment, gives a term that `Equals` reports equal to it. -/
theorem Simplify_idempotent (t : Term) (env : Env) :
    ((t.Simplify env).Simplify env).Equals (t.Simplify env) = true := by
  rw [Term_Equals_iff]
  exact Term_Simplify_Simplify t env

end PropLogic

namespace Parse

/-! ## Combinators -/

section CombinatorTheorems

variable {ι : Type}

/-- C4: `OrElse` is committed choice.  When `P` succeeds on `i` the result of
`OrElse P Q` on `i` is the result of `P`, whatever `Q` is; when `P` fails on
`i` it is the outcome of `Q` on the same input `i`, whatever remaining input
the failure of `P` reported. -/
theorem OrElse_committed_choice (P Q : Parser ι) (i : Option ι) (r : ParserResult ι)
    (hP : P i = .ok r) :
    (r.Result ≠ .nil → OrElse P Q i = .ok r) ∧
    (r.Result = .nil → OrElse P Q i = Q i) := by
  constructor
  · intro h
    have hn : r.Result.isNil = false := by
      cases hr : r.Result <;> simp_all [Any.isNil]
    simp [OrElse, hP, hn]
  · intro h
    simp [OrElse, hP, h, Any.isNil]

/-- C5: `AndThen` sequences.  `AndThen P Q` succeeds on `i` with the result
`res` exactly when `P` succeeds on `i` with some `a` and remaining input `r1`,
`Q` succeeds on `r1` with some `b` and remaining input `r2`, and `res` is the
pair of `a` and `b` with the remaining input `r2`. -/
theorem AndThen_sequences (P Q : Parser ι) (i : Option ι) (res : ParserResult ι) :
    (AndThen P Q i = .ok res ∧ res.Result ≠ .nil) ↔
    ∃ a r1 b r2, P i = .ok ⟨a, r1⟩ ∧ a ≠ .nil ∧ Q r1 = .ok ⟨b, r2⟩ ∧ b ≠ .nil ∧
      res = ⟨.pair a b, r2⟩ := by
  have nil_iff : ∀ x : Any, x.isNil = true ↔ x = .nil := by
    intro x; cases x <;> simp [Any.isNil]
  constructor
  · rintro ⟨h, hres⟩
    unfold AndThen at h
    cases hP : P i with
    | error e => simp [hP] at h
    | ok first =>
      obtain ⟨a, r1⟩ := first
      simp only [hP] at h
      by_cases ha : a.isNil = true
      · simp only [ha, Bool.not_true, Bool.false_eq_true, if_false] at h
        cases h
        exact absurd ((nil_iff a).1 ha) hres
      · simp only [ha, Bool.not_false, if_true] at h
        cases hQ : Q r1 with
        | error e => simp [hQ] at h
        | ok second =>
          obtain ⟨b, r2⟩ := second
          simp only [hQ] at h
          by_cases hb : b.isNil = true
          · simp only [hb, Bool.not_true, Bool.false_eq_true, if_false] at h
            cases h
            exact absurd ((nil_iff b).1 hb) hres
          · simp only [hb, Bool.not_false, if_true] at h
            cases h
            exact ⟨a, r1, b, r2, rfl, fun e => ha ((nil_iff a).2 e), hQ,
              fun e => hb ((nil_iff b).2 e), rfl⟩
  · rintro ⟨a, r1, b, r2, hP, ha, hQ, hb, rfl⟩
    have ha2 : a.isNil = false := by
      cases a <;> simp_all [Any.isNil]
    have hb2 : b.isNil = false := by
      cases b <;> simp_all [Any.isNil]
    simp [AndThen, hP, hQ, ha2, hb2]

end CombinatorTheorems

/-- C4, at the input of `TestOrElse`: on the text AC the choice between the
strings A and B returns A and leaves the input at C, and on BC it returns
what the second parser returns. -/
theorem OrElse_committed_choice_witness :
    (ExpectString "A" (StringToInput "AC") = .ok ⟨.str "A", some ⟨['A', 'C'], 1⟩⟩ ∧
      Any.str "A" ≠ .nil ∧
      OrElse (ExpectString "A") (ExpectString "B") (StringToInput "AC") =
        .ok ⟨.str "A", some ⟨['A', 'C'], 1⟩⟩) ∧
    (ExpectString "A" (StringToInput "BC") = .ok ⟨.nil, some ⟨['B', 'C'], 0⟩⟩ ∧
      OrElse (ExpectString "A") (ExpectString "B") (StringToInput "BC") =
        ExpectString "B" (StringToInput "BC")) :=
  ⟨⟨rfl, by simp,
    (OrElse_committed_choice (ExpectString "A") (ExpectString "B") (StringToInput "AC")
      ⟨.str "A", some ⟨['A', 'C'], 1⟩⟩ rfl).1 (by simp)⟩,
   ⟨rfl,
    (OrElse_committed_choice (ExpectString "A") (ExpectString "B") (StringToInput "BC")
      ⟨.nil, some ⟨['B', 'C'], 0⟩⟩ rfl).2 rfl⟩⟩

/-- C5, at the inputs of `TestAndThen`: on the text ABC the sequence of the
strings A and B returns the pair of them and leaves the input at C. -/
theorem AndThen_sequences_witness :
    AndThen (ExpectString "A") (ExpectString "B") (StringToInput "ABC") =
      .ok ⟨.pair (.str "A") (.str "B"), some ⟨['A', 'B', 'C'], 2⟩⟩ ∧
    Any.pair (.str "A") (.str "B") ≠ .nil :=
  (AndThen_sequences (ExpectString "A") (ExpectString "B") (StringToInput "ABC")
    ⟨.pair (.str "A") (.str "B"), some ⟨['A', 'B', 'C'], 2⟩⟩).2
    ⟨.str "A", some ⟨['A', 'B', 'C'], 1⟩, .str "B", some ⟨['A', 'B', 'C'], 2⟩,
      rfl, by simp, rfl, by simp, rfl⟩

/-- C6: a failed sequence reports the input its second parser failed on.  On
the text AC the code point A is accepted, the code point B is not, and the
failure of the sequence carries the view at position 1, not the input of the
sequence, which is the view at position 0. -/
theorem AndThen_failure_keeps_consumed_input :
    AndThen (ExpectCodePoint 'A') (ExpectCodePoint 'B') (StringToInput "AC") =
      .ok ⟨.nil, some ⟨['A', 'C'], 1⟩⟩ ∧
    StringToInput "AC" = some ⟨['A', 'C'], 0⟩ ∧
    ExpectCodePoint 'B' (some (⟨['A', 'C'], 1⟩ : RuneArrayInput)) =
      .ok ⟨.nil, some ⟨['A', 'C'], 1⟩⟩ :=
  ⟨rfl, rfl, rfl⟩

/-- C8: a failing `ExpectCodePoints` reports the input it stopped at.  After
the prefix A of AB has matched the text AC, the failure carries the view at
position 1; and when the text A runs out before AB is complete, the failure
carries the nil input.  `ExpectString` passes both on. -/
theorem ExpectCodePoints_failure_keeps_consumed_input :
    ExpectCodePoints ['A', 'B'] (StringToInput "AC") = .ok ⟨.nil, some ⟨['A', 'C'], 1⟩⟩ ∧
    ExpectString "AB" (StringToInput "AC") = .ok ⟨.nil, some ⟨['A', 'C'], 1⟩⟩ ∧
    ExpectCodePoints ['A', 'B'] (StringToInput "A") = .ok ⟨.nil, none⟩ ∧
    ExpectString "AB" (StringToInput "A") = .ok ⟨.nil, none⟩ ∧
    StringToInput "AC" = some ⟨['A', 'C'], 0⟩ ∧ StringToInput "A" = some ⟨['A'], 0⟩ :=
  ⟨rfl, rfl, rfl, rfl, rfl, rfl⟩

/-- C10: `ExpectSeveral` on the inputs where it leaves its description.  On
the text a, whose only code point satisfies both predicates of
`ExpectIdentifier`, the loop asks the nil remaining input for its code point
and panics, with any fuel; and on the text a1 followed by a space, with a
letter wanted first and digits later, the first code point passes `isFirstChar`
but is not consumed: the result is the empty string and the input is
untouched. -/
theorem ExpectSeveral_panics_or_skips_first :
    (∀ fuel, ExpectSeveral (fuel + 1) isIdentifierStartChar isIdentifierChar
        (StringToInput "a") = .error .nilDereference) ∧
    (∀ fuel, ExpectSeveral (fuel + 1) isIdentifierStartChar isDigit (StringToInput "a1 ") =
        .ok ⟨.str "", StringToInput "a1 "⟩) ∧
    isIdentifierStartChar 'a' = true ∧ isDigit '1' = true :=
  ⟨fun _ => rfl, fun _ => rfl, rfl, rfl⟩

end Parse

namespace Parse

/-! ## `ExpectCodePoints` on array-backed input -/

theorem ExpectCodePoints_loop_none (all rest : List Char) :
    ExpectCodePoints.loop all rest (none : Option RuneArrayInput) =
      if rest = [] then .ok ⟨.runes all, none⟩ else .ok ⟨.nil, none⟩ := by
  cases rest <;> simp [ExpectCodePoints.loop]

theorem ExpectCodePoints_loop_array (all text : List Char) :
    ∀ (rest : List Char) (q : Nat), (∀ c ∈ rest, c ≠ nul) →
      ((∀ j, j < rest.length → text[q + j]? = rest[j]?) →
        ExpectCodePoints.loop all rest (some (⟨text, q⟩ : RuneArrayInput)) =
          .ok ⟨.runes all,
            if rest = [] then some ⟨text, q⟩
            else if q + rest.length ≥ text.length then none
            else some ⟨text, q + rest.length⟩⟩) ∧
      (¬ (∀ j, j < rest.length → text[q + j]? = rest[j]?) →
        ∃ r, ExpectCodePoints.loop all rest (some (⟨text, q⟩ : RuneArrayInput)) =
          .ok ⟨.nil, r⟩) := by
  intro rest
  induction rest with
  | nil =>
    intro q _
    constructor
    · intro _; simp [ExpectCodePoints.loop]
    · intro h; exact absurd (fun j hj => absurd hj (by simp)) h
  | cons c cs ih =>
    intro q hnul
    have hc : c ≠ nul := hnul c (by simp)
    have hcs : ∀ d ∈ cs, d ≠ nul := fun d hd => hnul d (by simp [hd])
    -- the condition on `c :: cs` at `q` splits into the head and the tail at `q + 1`
    have hsplit : (∀ j, j < (c :: cs).length → text[q + j]? = (c :: cs)[j]?) ↔
        (text[q]? = some c ∧ ∀ j, j < cs.length → text[q + 1 + j]? = cs[j]?) := by
      constructor
      · intro h
        refine ⟨by simpa using h 0 (by simp), fun j hj => ?_⟩
        have := h (j + 1) (by simpa using hj)
        simpa [Nat.add_assoc, Nat.add_comm 1 j] using this
      · rintro ⟨h0, h1⟩ j hj
        cases j with
        | zero => simpa using h0
        | succ k =>
          have := h1 k (by simpa using hj)
          simpa [Nat.add_assoc, Nat.add_comm 1 k] using this
    rw [hsplit]
    by_cases hq : q ≥ text.length
    · -- past the end: the sentinel is read, which is not `c`
      have hcur : RuneArrayInput.CurrentCodePoint ⟨text, q⟩ = nul := by
        simp [RuneArrayInput.CurrentCodePoint, hq]
      have hget : text[q]? = none := by simp [hq]
      constructor
      · rintro ⟨h0, _⟩; rw [hget] at h0; cases h0
      · intro _
        refine ⟨some ⟨text, q⟩, ?_⟩
        simp [ExpectCodePoints.loop, ExpectCodePoint, ParserInput.CurrentCodePoint, hcur, hc,
          Any.isNil]
    · have hq2 : q < text.length := Nat.lt_of_not_ge hq
      have hget : text[q]? = some text[q] := by simp [hq2]
      have hcur : RuneArrayInput.CurrentCodePoint ⟨text, q⟩ = text[q] := by
        simp [RuneArrayInput.CurrentCodePoint, hq, List.getD, hget]
      by_cases hm : c = text[q]
      · -- the head matches
        have hrem : RuneArrayInput.RemainingInput ⟨text, q⟩ =
            if q + 1 ≥ text.length then none else some ⟨text, q + 1⟩ := by
          simp [RuneArrayInput.RemainingInput]
        have hstep : ExpectCodePoints.loop all (c :: cs) (some (⟨text, q⟩ : RuneArrayInput)) =
            ExpectCodePoints.loop all cs
              (if q + 1 ≥ text.length then none else some ⟨text, q + 1⟩) := by
          simp [ExpectCodePoints.loop, ExpectCodePoint, ParserInput.CurrentCodePoint,
            ParserInput.RemainingInput, hcur, hm, hrem, Any.isNil]
        rw [hstep]
        by_cases hq1 : q + 1 ≥ text.length
        · -- the text ends here
          simp only [hq1, if_true, ExpectCodePoints_loop_none]
          cases cs with
          | nil =>
            constructor
            · intro _; simp [hq1]
            · intro h; exact absurd ⟨by rw [hget, hm], fun j hj => absurd hj (by simp)⟩ h
          | cons d ds =>
            constructor
            · rintro ⟨_, h1⟩
              have := h1 0 (by simp)
              have hnone : text[q + 1 + 0]? = none := by
                rw [List.getElem?_eq_none_iff]; omega
              rw [hnone] at this
              simp at this
            · intro _; exact ⟨none, by simp⟩
        · simp only [hq1, if_false]
          obtain ⟨ihs, ihf⟩ := ih (q + 1) hcs
          constructor
          · rintro ⟨_, h1⟩
            rw [ihs h1]
            have hq1' : q + 1 < text.length := Nat.lt_of_not_ge hq1
            cases cs with
            | nil => simp; omega
            | cons d ds =>
              simp only [List.length_cons, reduceCtorEq, if_false]
              have e : q + 1 + (ds.length + 1) = q + (ds.length + 1 + 1) := by omega
              rw [e]
          · intro h
            apply ihf
            intro h1
            exact h ⟨by rw [hget, hm], h1⟩
      · -- the head differs
        constructor
        · rintro ⟨h0, _⟩
          rw [hget] at h0
          exact absurd (Option.some.inj h0).symm hm
        · intro _
          refine ⟨some ⟨text, q⟩, ?_⟩
          simp [ExpectCodePoints.loop, ExpectCodePoint, ParserInput.CurrentCodePoint, hcur, hm,
            Any.isNil]

end Parse

namespace Parse

/-- C7, the claim at the empty sequence: on the empty text the view at
position 0 is at the end of the text, `ExpectCodePoints` of the empty
sequence succeeds there, and the remaining input is that view, not nil. -/
theorem ExpectCodePoints_empty_sequence_keeps_view :
    ExpectCodePoints [] (some (⟨[], 0⟩ : RuneArrayInput)) = .ok ⟨.runes [], some ⟨[], 0⟩⟩ ∧
    ¬ (ExpectCodePoints [] (some (⟨[], 0⟩ : RuneArrayInput)) = .ok ⟨.runes [], none⟩) ∧
    0 + ([] : List Char).length ≥ ([] : List Char).length := by
  refine ⟨rfl, ?_, by simp⟩
  simp [ExpectCodePoints, ExpectCodePoints.loop]

/-- C7, amended: for a sequence of code points other than the sentinel and a
view of a text at position `p`, `ExpectCodePoints` succeeds exactly when the
code points of the text at the positions `p + j`, for `j` below the length of
the sequence, exist and are those of the sequence.  On success the result is
the sequence; the remaining input is the view itself when the sequence is
empty, and else nil when `p` plus the length reaches the end of the text and
the view at `p` plus the length when it does not. -/
theorem ExpectCodePoints_on_array (seq text : List Char) (p : Nat)
    (hnul : ∀ c ∈ seq, c ≠ nul) :
    ((∃ r, ExpectCodePoints seq (some (⟨text, p⟩ : RuneArrayInput)) = .ok r ∧
        r.Result ≠ .nil) ↔
      ∀ j, j < seq.length → text[p + j]? = seq[j]?) ∧
    ((∀ j, j < seq.length → text[p + j]? = seq[j]?) →
      ExpectCodePoints seq (some (⟨text, p⟩ : RuneArrayInput)) =
        .ok ⟨.runes seq,
          if seq = [] then some ⟨text, p⟩
          else if p + seq.length ≥ text.length then none
          else some ⟨text, p + seq.length⟩⟩) := by
  obtain ⟨hs, hf⟩ := ExpectCodePoints_loop_array seq text seq p hnul
  refine ⟨⟨?_, ?_⟩, hs⟩
  · rintro ⟨r, hr, hres⟩
    by_contra hM
    obtain ⟨rest, hrest⟩ := hf hM
    unfold ExpectCodePoints at hr
    rw [hrest] at hr
    cases hr
    exact hres rfl
  · intro hM
    exact ⟨_, hs hM, by simp⟩

/-- C7, amended, at the input of `TestExpectCodePoints` in ASCII: the sequence
AB is found at position 0 of the text ABC and leaves the view at position 2;
at position 1 of the same text the sequence BC reaches the end of the text and
leaves nil. -/
theorem ExpectCodePoints_on_array_witness :
    (∀ c ∈ ['A', 'B'], c ≠ nul) ∧
    (∀ j, j < ['A', 'B'].length → ['A', 'B', 'C'][0 + j]? = ['A', 'B'][j]?) ∧
    ExpectCodePoints ['A', 'B'] (some (⟨['A', 'B', 'C'], 0⟩ : RuneArrayInput)) =
      .ok ⟨.runes ['A', 'B'], some ⟨['A', 'B', 'C'], 2⟩⟩ ∧
    ExpectCodePoints ['B', 'C'] (some (⟨['A', 'B', 'C'], 1⟩ : RuneArrayInput)) =
      .ok ⟨.runes ['B', 'C'], none⟩ :=
  ⟨by decide, by decide,
   (ExpectCodePoints_on_array ['A', 'B'] ['A', 'B', 'C'] 0 (by decide)).2 (by decide),
   (ExpectCodePoints_on_array ['B', 'C'] ['A', 'B', 'C'] 1 (by decide)).2 (by decide)⟩

/-- C9, the claim at the empty string: `ExpectString` of the empty string on
the empty text succeeds with the empty string, and the remaining input is the
input itself, not nil. -/
theorem ExpectString_empty_keeps_input :
    ExpectString "" (StringToInput "") = .ok ⟨.str "", StringToInput ""⟩ ∧
    StringToInput "" ≠ none ∧ (∀ c ∈ "".data, c ≠ nul) :=
  ⟨rfl, by simp [StringToInput], by simp⟩

/-- C9, amended: for every non-empty string `s` without the sentinel,
`ExpectString s` on the input that is exactly `s` succeeds with the result
`s` and the nil remaining input. -/
theorem ExpectString_whole_text (s : String) (hne : s ≠ "") (hnul : ∀ c ∈ s.data, c ≠ nul) :
    ExpectString s (StringToInput s) = .ok ⟨.str s, none⟩ := by
  have hdata : s.data ≠ [] := by
    intro h
    apply hne
    cases s
    simp_all
  have h := (ExpectCodePoints_loop_array s.data s.data s.data 0 hnul).1
    (fun j _ => by simp)
  simp only [hdata, if_false, Nat.zero_add, ge_iff_le, Nat.le_refl, if_true] at h
  simp only [ExpectString, ExpectCodePoints, StringToInput, h]

/-- C9, amended, at the string AB. -/
theorem ExpectString_whole_text_witness :
    "AB" ≠ "" ∧ (∀ c ∈ "AB".data, c ≠ nul) ∧
    ExpectString "AB" (StringToInput "AB") = .ok ⟨.str "AB", none⟩ :=
  ⟨by decide, by decide, ExpectString_whole_text "AB" (by decide) (by decide)⟩

end Parse

namespace PropLogic

open Parse

/-! ## The grammar at the end of the text -/

/-- C2: the rendering of a parsed term is not parsed back.  The text x;
parses to the identifier x, whose rendering is the text x; on it `ParseOr`
panics, because the identifier runs to the last code point and the next code
point is asked of the nil remaining input.  Apart from the panic, the text
(a=b)=c; parses to an equation whose left side is an equation, its rendering
is a=b=c, and that text, even when a semicolon follows it, parses to the
equation of a and b only. -/
theorem ParseOr_of_rendering_panics :
    (∀ n, ParseOr (n + 7) (StringToInput "x;") =
      .ok ⟨.term (.Identifier "x"), some ⟨['x', ';'], 1⟩⟩) ∧
    (Term.Identifier "x").String = "x" ∧
    (∀ n, ParseOr (n + 4) (StringToInput (Term.Identifier "x").String) =
      (.error .nilDereference : Except Fault (ParserResult RuneArrayInput))) ∧
    (∀ n, ParseOr (n + 12) (StringToInput "(a=b)=c;") =
      .ok ⟨.term (.Equation (.Equation (.Identifier "a") (.Identifier "b")) (.Identifier "c")),
        some ⟨"(a=b)=c;".data, 7⟩⟩) ∧
    (Term.Equation (.Equation (.Identifier "a") (.Identifier "b")) (.Identifier "c")).String =
      "a=b=c" ∧
    (∀ n, ParseOr (n + 7) (StringToInput "a=b=c;") =
      .ok ⟨.term (.Equation (.Identifier "a") (.Identifier "b")), some ⟨"a=b=c;".data, 3⟩⟩) := by
  set_option maxRecDepth 100000 in
  set_option smartUnfolding false in
  exact ⟨fun _ => rfl, rfl, fun _ => rfl, fun _ => rfl, rfl, fun _ => rfl⟩

/-- C3: on the text of `TestParser` the parser panics.  The text ends with the
closing parenthesis, so the input that remains after the last atom is nil, and
the whitespace parser in front of the next token asks it for its code point.
When one more code point follows the text, the parse returns the tree of
the test and stops in front of that code point. -/
theorem ParseOr_TestParser_panics :
    (∀ n, ParseOr (n + 18) (StringToInput "NOT x=\"y\" OR TRUE AND (FALSE OR z)") =
      (.error .nilDereference : Except Fault (ParserResult RuneArrayInput))) ∧
    (∀ n, ParseOr (n + 18) (StringToInput "NOT x=\"y\" OR TRUE AND (FALSE OR z);") =
      .ok ⟨.term (.Or (.Not (.Equation (.Identifier "x") (.ValueTerm (.StringValue "y"))))
          (.And (.ValueTerm (.BoolValue true))
            (.Or (.ValueTerm (.BoolValue false)) (.Identifier "z")))),
        some ⟨"NOT x=\"y\" OR TRUE AND (FALSE OR z);".data, 34⟩⟩) := by
  set_option maxRecDepth 100000 in
  set_option smartUnfolding false in
  exact ⟨fun _ => rfl, fun _ => rfl⟩

end PropLogic

namespace Parse

/-! ## `Optional`, the repetitions and `Bind` -/

section RepetitionTheorems

variable {ι : Type}

theorem Any_isNil_iff (x : Any) : x.isNil = true ↔ x = .nil := by
  cases x <;> simp [Any.isNil]

theorem Any_isNil_false_iff (x : Any) : x.isNil = false ↔ x ≠ .nil := by
  cases x <;> simp [Any.isNil]

/-- C11: `Optional` in the exported package.  When `P` fails on `i`, whatever
remaining input its failure reports, `Optional P` succeeds on `i` with the
marker `Nothing` and the remaining input `i`; when `P` succeeds on `i`,
`Optional P` returns what `P` returns. -/
theorem Optional_restores_or_passes (P : Parser ι) (i : Option ι) (r : ParserResult ι)
    (hP : P i = .ok r) :
    (r.Result = .nil → Optional P i = .ok ⟨.nothing, i⟩) ∧
    (r.Result ≠ .nil → Optional P i = P i) := by
  constructor
  · intro h
    simp [Optional, hP, h, Any.isNil]
  · intro h
    have hn : r.Result.isNil = false := (Any_isNil_false_iff _).2 h
    simp [Optional, hP, hn]

/-- The list that the loop of `Repeated` returns starts with the list it was
given. -/
theorem Repeated_loop_list (P : Parser ι) :
    ∀ (fuel : Nat) (acc : List Any) (i : Option ι) (r : ParserResult ι),
      Repeated.loop P fuel acc i = .ok r → ∃ xs, r.Result = .list (acc ++ xs) := by
  intro fuel
  induction fuel with
  | zero =>
    intro acc i r h
    cases i with
    | none => simp [Repeated.loop] at h; exact ⟨[], by simp [← h]⟩
    | some v => simp [Repeated.loop] at h
  | succ n ih =>
    intro acc i r h
    cases i with
    | none => simp [Repeated.loop] at h; exact ⟨[], by simp [← h]⟩
    | some v =>
      simp only [Repeated.loop] at h
      cases hP : P (some v) with
      | error e => simp [hP] at h
      | ok one =>
        simp only [hP] at h
        by_cases hn : one.Result.isNil = true
        · simp only [hn, if_true] at h
          cases h
          exact ⟨[], by simp⟩
        · simp only [hn, Bool.false_eq_true, if_false] at h
          obtain ⟨xs, hxs⟩ := ih _ _ _ h
          exact ⟨one.Result :: xs, by simp [hxs]⟩

/-- C13: `OnceOrMore` after `Repeated`.  Where `Repeated P` returns on `i`, its
result is a list; when the list is not empty `OnceOrMore P` returns on `i`
what `Repeated P` returns, and when it is empty `OnceOrMore P` fails and
reports the input `i`. -/
theorem OnceOrMore_of_Repeated (fuel : Nat) (P : Parser ι) (i : Option ι)
    (r : ParserResult ι) (h : Repeated fuel P i = .ok r) :
    ∃ xs, r.Result = .list xs ∧
      (xs.length > 0 → OnceOrMore fuel P i = Repeated fuel P i) ∧
      (xs.length = 0 → OnceOrMore fuel P i = .ok ⟨.nil, i⟩) := by
  obtain ⟨xs, hxs⟩ := Repeated_loop_list P fuel [] i r h
  simp only [List.nil_append] at hxs
  refine ⟨xs, hxs, ?_, ?_⟩
  · intro hlen
    simp [OnceOrMore, h, hxs, hlen]
  · intro hlen
    simp [OnceOrMore, h, hxs, hlen]

/-- The loop of `RepeatAndFoldLeft` returns a non-nil value when it starts from
one and `combine` never returns nil. -/
theorem RepeatAndFoldLeft_loop_ne_nil (P : Parser ι) (combine : Any → Any → Except Fault Any)
    (hc : ∀ a b c, combine a b = .ok c → c ≠ .nil) :
    ∀ (fuel : Nat) (acc : Any) (i : Option ι) (r : ParserResult ι), acc ≠ .nil →
      RepeatAndFoldLeft.loop P combine fuel acc i = .ok r → r.Result ≠ .nil := by
  intro fuel
  induction fuel with
  | zero =>
    intro acc i r hacc h
    cases i with
    | none => simp [RepeatAndFoldLeft.loop] at h; rw [← h]; exact hacc
    | some v => simp [RepeatAndFoldLeft.loop] at h
  | succ n ih =>
    intro acc i r hacc h
    cases i with
    | none => simp [RepeatAndFoldLeft.loop] at h; rw [← h]; exact hacc
    | some v =>
      simp only [RepeatAndFoldLeft.loop] at h
      cases hP : P (some v) with
      | error e => simp [hP] at h
      | ok one =>
        simp only [hP] at h
        by_cases hn : one.Result.isNil = true
        · simp only [hn, if_true] at h
          cases h
          exact hacc
        · simp only [hn, Bool.false_eq_true, if_false] at h
          cases hcomb : combine acc one.Result with
          | error e => simp [hcomb] at h
          | ok next =>
            simp only [hcomb] at h
            exact ih next _ r (hc _ _ _ hcomb) h

/-- C14, the claim at the nil seed: where `P` never matches, the fold returns
its seed, and the nil seed is a failure. -/
theorem RepeatAndFoldLeft_nil_seed_fails :
    RepeatAndFoldLeft 1 (ExpectCodePoint 'A') .nil (fun a _ => .ok a) (StringToInput "B") =
      .ok ⟨.nil, StringToInput "B"⟩ ∧
    (⟨.nil, StringToInput "B"⟩ : ParserResult RuneArrayInput).Result.isNil = true :=
  ⟨rfl, rfl⟩

/-- C14, amended: `RepeatAndFoldLeft` makes no failure of its own.  Where it
returns, its result is not nil provided the seed is not nil and `combine`
never returns nil; on the nil input it returns the seed without running `P`;
and when `P` fails on the first attempt it returns exactly the seed (a failure
when the seed is nil) with the input it was given. -/
theorem RepeatAndFoldLeft_returns_seed_or_fold (fuel : Nat) (P : Parser ι) (seed : Any)
    (combine : Any → Any → Except Fault Any) (i : Option ι) :
    (∀ r, seed ≠ .nil → (∀ a b c, combine a b = .ok c → c ≠ .nil) →
      RepeatAndFoldLeft fuel P seed combine i = .ok r → r.Result ≠ .nil) ∧
    (i = none → RepeatAndFoldLeft fuel P seed combine i = .ok ⟨seed, none⟩) ∧
    (∀ rest, P i = .ok ⟨.nil, rest⟩ →
      RepeatAndFoldLeft (fuel + 1) P seed combine i = .ok ⟨seed, i⟩) := by
  refine ⟨?_, ?_, ?_⟩
  · intro r hseed hc h
    exact RepeatAndFoldLeft_loop_ne_nil P combine hc fuel seed i r hseed h
  · intro hi
    subst hi
    cases fuel <;> simp [RepeatAndFoldLeft, RepeatAndFoldLeft.loop]
  · intro rest hP
    cases i with
    | none => simp [RepeatAndFoldLeft, RepeatAndFoldLeft.loop]
    | some v => simp [RepeatAndFoldLeft, RepeatAndFoldLeft.loop, hP, Any.isNil]

/-- The loop of `RepeatAndFoldLeft` with a total `combine` folds, from its
accumulator, the results that the loop of `Repeated` appends to its list. -/
theorem RepeatAndFoldLeft_loop_eq_foldl (P : Parser ι) (combine : Any → Any → Any) :
    ∀ (fuel : Nat) (acc : List Any) (a : Any) (i : Option ι) (out : List Any)
      (rest : Option ι),
      Repeated.loop P fuel acc i = .ok ⟨.list out, rest⟩ →
      ∃ rs, out = acc ++ rs ∧
        RepeatAndFoldLeft.loop P (fun x y => .ok (combine x y)) fuel a i =
          .ok ⟨rs.foldl combine a, rest⟩ := by
  intro fuel
  induction fuel with
  | zero =>
    intro acc a i out rest h
    cases i with
    | none =>
      simp [Repeated.loop] at h
      exact ⟨[], by simp [h.1], by simp [RepeatAndFoldLeft.loop, h.2]⟩
    | some v => simp [Repeated.loop] at h
  | succ n ih =>
    intro acc a i out rest h
    cases i with
    | none =>
      simp [Repeated.loop] at h
      exact ⟨[], by simp [h.1], by simp [RepeatAndFoldLeft.loop, h.2]⟩
    | some v =>
      simp only [Repeated.loop] at h
      cases hP : P (some v) with
      | error e => simp [hP] at h
      | ok one =>
        simp only [hP] at h
        by_cases hn : one.Result.isNil = true
        · simp only [hn, if_true] at h
          simp at h
          obtain ⟨h1, h2⟩ := h
          subst h2
          exact ⟨[], by simp [h1], by simp [RepeatAndFoldLeft.loop, hP, hn]⟩
        · simp only [hn, Bool.false_eq_true, if_false] at h
          obtain ⟨rs, hrs, hfold⟩ := ih _ (combine a one.Result) _ _ _ h
          refine ⟨one.Result :: rs, by simp [hrs], ?_⟩
          simp [RepeatAndFoldLeft.loop, hP, hn, hfold]

/-- C15: `RepeatAndFoldLeft` is the left fold of `Repeated`.  Where `Repeated P`
returns on `i` the results `rs` and the remaining input `rest`,
`RepeatAndFoldLeft P seed combine` returns on `i` the left fold of `combine`
over `rs` from `seed`, with the same remaining input. -/
theorem RepeatAndFoldLeft_is_foldl_of_Repeated (fuel : Nat) (P : Parser ι) (seed : Any)
    (combine : Any → Any → Any) (i : Option ι) (rs : List Any) (rest : Option ι)
    (h : Repeated fuel P i = .ok ⟨.list rs, rest⟩) :
    RepeatAndFoldLeft fuel P seed (fun x y => .ok (combine x y)) i =
      .ok ⟨rs.foldl combine seed, rest⟩ := by
  obtain ⟨rs2, hrs, hfold⟩ := RepeatAndFoldLeft_loop_eq_foldl P combine fuel [] seed i rs rest h
  simp only [List.nil_append] at hrs
  subst hrs
  exact hfold

/-- C16: `Bind` is monadic sequencing.  Where `P` returns on `i` the result `r`
and the remaining input `rest`, `Bind P k` on `i` is the parser `k r` run on
`rest`. -/
theorem Bind_is_sequencing (P : Parser ι) (k : Any → Parser ι) (i : Option ι)
    (r : Any) (rest : Option ι) (hP : P i = .ok ⟨r, rest⟩) :
    Bind P k i = k r rest := by
  simp [Bind, hP]

end RepetitionTheorems

end Parse

namespace Parse

/-! ## Array-backed input: views, repetition of one code point, whitespace -/

theorem RuneArrayInput_CurrentCodePoint_lt (text : List Char) (p : Nat) (h : p < text.length) :
    (⟨text, p⟩ : RuneArrayInput).CurrentCodePoint = text[p] := by
  have hget : text[p]? = some text[p] := by simp [h]
  simp [RuneArrayInput.CurrentCodePoint, Nat.not_le.2 h, List.getD, hget]

theorem RuneArrayInput_CurrentCodePoint_ge (text : List Char) (p : Nat) (h : p ≥ text.length) :
    (⟨text, p⟩ : RuneArrayInput).CurrentCodePoint = nul := by
  simp [RuneArrayInput.CurrentCodePoint, h]

theorem List_drop_eq_cons {α : Type} (l : List α) (p : Nat) (x : α) (r : List α)
    (h : l.drop p = x :: r) :
    ∃ hlt : p < l.length, l[p] = x ∧ l.drop (p + 1) = r := by
  have hlt : p < l.length := by
    by_contra hge
    rw [List.drop_eq_nil_of_le (Nat.le_of_not_lt hge)] at h
    cases h
  refine ⟨hlt, ?_⟩
  rw [List.drop_eq_getElem_cons hlt] at h
  injection h with h1 h2
  exact ⟨h1, h2⟩

theorem List_takeWhile_length_stop {α : Type} (q : α → Bool) :
    ∀ (l : List α) (h : (l.takeWhile q).length < l.length),
      q (l[(l.takeWhile q).length]) = false := by
  intro l
  induction l with
  | nil => intro h; simp at h
  | cons x xs ih =>
    intro h
    by_cases hx : q x = true
    · simp only [List.takeWhile_cons, hx, if_true, List.length_cons] at h ⊢
      simpa using ih (by omega)
    · simp [List.takeWhile_cons, hx]

/-- The loop of `Repeated` for `ExpectCodePoint c` on a view of a text. -/
theorem Repeated_loop_ExpectCodePoint_array (c : Char) (hc : c ≠ nul) (text : List Char) :
    ∀ (fuel p : Nat) (acc : List Any),
      fuel > ((text.drop p).takeWhile (fun x => decide (x = c))).length →
      Repeated.loop (ExpectCodePoint c) fuel acc (some (⟨text, p⟩ : RuneArrayInput)) =
        .ok ⟨.list (acc ++ List.replicate
            ((text.drop p).takeWhile (fun x => decide (x = c))).length (.rune c)),
          if p + ((text.drop p).takeWhile (fun x => decide (x = c))).length ≥ text.length ∧
              0 < ((text.drop p).takeWhile (fun x => decide (x = c))).length then none
          else some ⟨text, p + ((text.drop p).takeWhile (fun x => decide (x = c))).length⟩⟩ := by
  intro fuel
  induction fuel with
  | zero => intro p acc h; omega
  | succ n ih =>
    intro p acc hfuel
    by_cases hp : p ≥ text.length
    · have hcur := RuneArrayInput_CurrentCodePoint_ge text p hp
      have hdrop : text.drop p = [] := List.drop_eq_nil_of_le hp
      simp [Repeated.loop, ExpectCodePoint, ParserInput.CurrentCodePoint, hcur, hc, Any.isNil,
        hdrop]
    · have hlt : p < text.length := Nat.lt_of_not_ge hp
      have hcur := RuneArrayInput_CurrentCodePoint_lt text p hlt
      have hdrop : text.drop p = text[p] :: text.drop (p + 1) := List.drop_eq_getElem_cons hlt
      by_cases hm : text[p] = c
      · have hrem : RuneArrayInput.RemainingInput ⟨text, p⟩ =
            if p + 1 ≥ text.length then none else some ⟨text, p + 1⟩ := by
          simp [RuneArrayInput.RemainingInput]
        have htw : (text.drop p).takeWhile (fun x => decide (x = c)) =
            c :: (text.drop (p + 1)).takeWhile (fun x => decide (x = c)) := by
          rw [hdrop]; simp [List.takeWhile_cons, hm]
        rw [htw] at hfuel ⊢
        simp only [List.length_cons] at hfuel ⊢
        have hstep : Repeated.loop (ExpectCodePoint c) (n + 1) acc
            (some (⟨text, p⟩ : RuneArrayInput)) =
            Repeated.loop (ExpectCodePoint c) n (acc ++ [.rune c])
              (if p + 1 ≥ text.length then none else some ⟨text, p + 1⟩) := by
          simp [Repeated.loop, ExpectCodePoint, ParserInput.CurrentCodePoint,
            ParserInput.RemainingInput, hcur, hm, hrem, Any.isNil]
        rw [hstep]
        by_cases hp1 : p + 1 ≥ text.length
        · have hdrop1 : text.drop (p + 1) = [] := List.drop_eq_nil_of_le hp1
          simp only [hp1, if_true, hdrop1, List.takeWhile_nil, List.length_nil]
          cases n <;> simp [Repeated.loop, List.replicate]
        · simp only [hp1, if_false]
          rw [ih (p + 1) (acc ++ [Any.rune c]) (by omega)]
          have e : p + 1 + ((text.drop (p + 1)).takeWhile (fun x => decide (x = c))).length =
              p + (((text.drop (p + 1)).takeWhile (fun x => decide (x = c))).length + 1) := by
            omega
          rw [e]
          simp only [List.replicate_succ, List.append_assoc, List.singleton_append]
          congr 2
          by_cases hk : 0 < ((text.drop (p + 1)).takeWhile (fun x => decide (x = c))).length
          · simp [hk]
          · have hk0 : ((text.drop (p + 1)).takeWhile (fun x => decide (x = c))).length = 0 := by
              omega
            simp [hk0]
            omega
      · have htw : (text.drop p).takeWhile (fun x => decide (x = c)) = [] := by
          rw [hdrop]; simp [List.takeWhile_cons, hm]
        have hm2 : ¬ c = text[p] := fun e => hm e.symm
        simp [Repeated.loop, ExpectCodePoint, ParserInput.CurrentCodePoint, hcur, hm2,
          Any.isNil, htw]

/-- The loop of `ExpectSeveral` on a view of a text whose run of later code
points is stopped by a code point of the text. -/
theorem ExpectSeveral_loop_array (isLaterChar : Char → Bool) (text : List Char) :
    ∀ (run : List Char) (p : Nat) (c : Char) (tail builder : List Char) (fuel : Nat),
      text.drop p = run ++ c :: tail →
      (∀ x ∈ run, isLaterChar x = true) → isLaterChar c = false → fuel > run.length →
      ExpectSeveral.loop isLaterChar fuel builder
          (⟨text, p⟩ : RuneArrayInput).CurrentCodePoint (some (⟨text, p⟩ : RuneArrayInput)) =
        .ok ⟨.str (String.mk (builder ++ run)), some ⟨text, p + run.length⟩⟩ := by
  intro run
  induction run with
  | nil =>
    intro p c tail builder fuel hdrop _ hc hfuel
    obtain ⟨hlt, hget, _⟩ := List_drop_eq_cons text p c tail (by simpa using hdrop)
    have hcur := RuneArrayInput_CurrentCodePoint_lt text p hlt
    cases fuel with
    | zero => simp at hfuel
    | succ n => simp [ExpectSeveral.loop, hcur, hget, hc]
  | cons x xs ih =>
    intro p c tail builder fuel hdrop hrun hc hfuel
    obtain ⟨hlt, hget, hdrop1⟩ := List_drop_eq_cons text p x (xs ++ c :: tail)
      (by simpa using hdrop)
    have hcur := RuneArrayInput_CurrentCodePoint_lt text p hlt
    have hx : isLaterChar x = true := hrun x (by simp)
    obtain ⟨hlt1, _, _⟩ : ∃ hlt : p + 1 < text.length, True ∧ True := by
      cases xs with
      | nil =>
        obtain ⟨h, _, _⟩ := List_drop_eq_cons text (p + 1) c tail (by simpa using hdrop1)
        exact ⟨h, trivial, trivial⟩
      | cons y ys =>
        obtain ⟨h, _, _⟩ := List_drop_eq_cons text (p + 1) y (ys ++ c :: tail)
          (by simpa using hdrop1)
        exact ⟨h, trivial, trivial⟩
    have hrem : RuneArrayInput.RemainingInput ⟨text, p⟩ = some ⟨text, p + 1⟩ := by
      simp [RuneArrayInput.RemainingInput, hlt1]
    cases fuel with
    | zero => simp at hfuel
    | succ n =>
      have hih := ih (p + 1) c tail (builder ++ [x]) n hdrop1
        (fun y hy => hrun y (by simp [hy])) hc (by simp at hfuel; omega)
      simp only [ExpectSeveral.loop, hcur, hget, hx, if_true, ParserInput.RemainingInput, hrem,
        ParserInput.CurrentCodePoint]
      rw [hih]
      simp [Nat.add_assoc, Nat.add_comm 1 xs.length]

theorem advance_StringToInput_lt (text : List Char) :
    ∀ k, k < text.length → advance k (some (⟨text, 0⟩ : RuneArrayInput)) = some ⟨text, k⟩ := by
  intro k
  induction k with
  | zero => intro _; rfl
  | succ n ih =>
    intro h
    simp only [advance, ih (by omega)]
    simp [RuneArrayInput.RemainingInput, h]

end Parse

namespace Parse

/-! ## The claims on concrete inputs and on array-backed input -/

/-- C11, at the text AC: the sequence AB fails there and reports the view at
position 1, and `Optional` of it succeeds with `Nothing` and the view at
position 0; the sequence A succeeds there and `Optional` changes nothing. -/
theorem Optional_restores_or_passes_witness :
    (ExpectCodePoints ['A', 'B'] (StringToInput "AC") = .ok ⟨.nil, some ⟨['A', 'C'], 1⟩⟩ ∧
      Optional (ExpectCodePoints ['A', 'B']) (StringToInput "AC") =
        .ok ⟨.nothing, StringToInput "AC"⟩) ∧
    (ExpectCodePoints ['A'] (StringToInput "AC") = .ok ⟨.runes ['A'], some ⟨['A', 'C'], 1⟩⟩ ∧
      Any.runes ['A'] ≠ .nil ∧
      Optional (ExpectCodePoints ['A']) (StringToInput "AC") =
        ExpectCodePoints ['A'] (StringToInput "AC")) :=
  ⟨⟨rfl, (Optional_restores_or_passes (ExpectCodePoints ['A', 'B']) (StringToInput "AC")
      ⟨.nil, some ⟨['A', 'C'], 1⟩⟩ rfl).1 rfl⟩,
   ⟨rfl, by simp, (Optional_restores_or_passes (ExpectCodePoints ['A']) (StringToInput "AC")
      ⟨.runes ['A'], some ⟨['A', 'C'], 1⟩⟩ rfl).2 (by simp)⟩⟩

/-- C12, the claim at the text A: the run of A is the whole text, the one
result is collected, and the remaining input is nil; it does not start at a
code point. -/
theorem Repeated_ExpectCodePoint_whole_text_leaves_nil :
    (∀ fuel, Repeated (fuel + 1) (ExpectCodePoint 'A') (StringToInput "A") =
      .ok ⟨.list [.rune 'A'], none⟩) ∧
    (∀ fuel, Repeated (fuel + 3) (ExpectCodePoint 'A') (StringToInput "AAA") =
      .ok ⟨.list [.rune 'A', .rune 'A', .rune 'A'], none⟩) :=
  ⟨fun fuel => by cases fuel <;> rfl, fun fuel => by cases fuel <;> rfl⟩

/-- C12, amended: for a code point `c` other than the sentinel and a text
whose maximal run of `c` at the start has length `k`, `Repeated` of
`ExpectCodePoint c` on the text returns, with more than `k` units of fuel, the
list of `k` results `c`; the remaining input is the view at position `k`,
whose code point is not `c`, when the run ends inside the text or the text is
empty, and it is nil when the run is the whole of a non-empty text. -/
theorem Repeated_ExpectCodePoint_on_text (c : Char) (hc : c ≠ nul) (text : String)
    (fuel : Nat) (hfuel : fuel > (text.data.takeWhile (fun x => decide (x = c))).length) :
    Repeated fuel (ExpectCodePoint c) (StringToInput text) =
      .ok ⟨.list (List.replicate (text.data.takeWhile (fun x => decide (x = c))).length
          (.rune c)),
        if (text.data.takeWhile (fun x => decide (x = c))).length ≥ text.data.length ∧
            0 < (text.data.takeWhile (fun x => decide (x = c))).length then none
        else some ⟨text.data, (text.data.takeWhile (fun x => decide (x = c))).length⟩⟩ ∧
    ((text.data.takeWhile (fun x => decide (x = c))).length < text.data.length →
      (⟨text.data, (text.data.takeWhile (fun x => decide (x = c))).length⟩ :
        RuneArrayInput).CurrentCodePoint ≠ c) := by
  constructor
  · have h := Repeated_loop_ExpectCodePoint_array c hc text.data fuel 0 []
      (by simpa using hfuel)
    simpa [Repeated, StringToInput] using h
  · intro h
    rw [RuneArrayInput_CurrentCodePoint_lt _ _ h]
    have := List_takeWhile_length_stop (fun x => decide (x = c)) text.data h
    simpa using this

/-- C12, amended, at the texts of `TestRepeated`: three results and the view
at B on AAABCD, no result and the input itself on B and on the empty text. -/
theorem Repeated_ExpectCodePoint_on_text_witness :
    'A' ≠ nul ∧
    Repeated 4 (ExpectCodePoint 'A') (StringToInput "AAABCD") =
      .ok ⟨.list [.rune 'A', .rune 'A', .rune 'A'], some ⟨"AAABCD".data, 3⟩⟩ ∧
    Repeated 1 (ExpectCodePoint 'A') (StringToInput "B") =
      .ok ⟨.list [], StringToInput "B"⟩ ∧
    Repeated 1 (ExpectCodePoint 'A') (StringToInput "") =
      .ok ⟨.list [], StringToInput ""⟩ :=
  ⟨by decide,
   (Repeated_ExpectCodePoint_on_text 'A' (by decide) "AAABCD" 4 (by decide)).1,
   (Repeated_ExpectCodePoint_on_text 'A' (by decide) "B" 1 (by decide)).1,
   (Repeated_ExpectCodePoint_on_text 'A' (by decide) "" 1 (by decide)).1⟩

/-- C13, at the texts of `TestOnceOrMore`: on AAABCD both parsers return the
three results, on B `Repeated` returns the empty list and `OnceOrMore` fails
with the input it was given. -/
theorem OnceOrMore_of_Repeated_witness :
    (Repeated 4 (ExpectCodePoint 'A') (StringToInput "AAABCD") =
        .ok ⟨.list [.rune 'A', .rune 'A', .rune 'A'], some ⟨"AAABCD".data, 3⟩⟩ ∧
      OnceOrMore 4 (ExpectCodePoint 'A') (StringToInput "AAABCD") =
        .ok ⟨.list [.rune 'A', .rune 'A', .rune 'A'], some ⟨"AAABCD".data, 3⟩⟩) ∧
    (Repeated 4 (ExpectCodePoint 'A') (StringToInput "B") = .ok ⟨.list [], StringToInput "B"⟩ ∧
      OnceOrMore 4 (ExpectCodePoint 'A') (StringToInput "B") = .ok ⟨.nil, StringToInput "B"⟩) := by
  have h1 : Repeated 4 (ExpectCodePoint 'A') (StringToInput "AAABCD") =
      .ok ⟨.list [.rune 'A', .rune 'A', .rune 'A'], some ⟨"AAABCD".data, 3⟩⟩ := rfl
  have h2 : Repeated 4 (ExpectCodePoint 'A') (StringToInput "B") =
      .ok ⟨.list [], StringToInput "B"⟩ := rfl
  obtain ⟨xs, hxs, hpos, _⟩ := OnceOrMore_of_Repeated 4 (ExpectCodePoint 'A')
    (StringToInput "AAABCD") _ h1
  obtain ⟨ys, hys, _, hzero⟩ := OnceOrMore_of_Repeated 4 (ExpectCodePoint 'A')
    (StringToInput "B") _ h2
  simp only [Any.list.injEq] at hxs hys
  subst hxs
  subst hys
  exact ⟨⟨h1, (hpos (by decide)).trans h1⟩, ⟨h2, hzero rfl⟩⟩

/-- C14, amended, at the texts of `TestRepeatAndFoldLeft`: with the seed a and
the pairing as combine function, the fold over the text bcde, where the
string a never matches, returns the seed and the input; over aab it returns
a value that is not nil. -/
theorem RepeatAndFoldLeft_returns_seed_or_fold_witness :
    (ExpectString "a" (StringToInput "bcde") = .ok ⟨.nil, StringToInput "bcde"⟩ ∧
      RepeatAndFoldLeft 1 (ExpectString "a") (.str "a") (fun x y => .ok (.pair x y))
        (StringToInput "bcde") = .ok ⟨.str "a", StringToInput "bcde"⟩) ∧
    (RepeatAndFoldLeft 3 (ExpectString "a") (.str "a") (fun x y => .ok (.pair x y))
        (StringToInput "aab") =
        .ok ⟨.pair (.pair (.str "a") (.str "a")) (.str "a"), some ⟨['a', 'a', 'b'], 2⟩⟩ ∧
      Any.pair (.pair (.str "a") (.str "a")) (.str "a") ≠ .nil) :=
  ⟨⟨rfl, (RepeatAndFoldLeft_returns_seed_or_fold 0 (ExpectString "a") (.str "a")
      (fun x y => .ok (.pair x y)) (StringToInput "bcde")).2.2 _ rfl⟩,
   ⟨rfl, (RepeatAndFoldLeft_returns_seed_or_fold 3 (ExpectString "a") (.str "a")
      (fun x y => .ok (.pair x y)) (StringToInput "aab")).1 _ (by simp)
      (by intro a b c h; cases h; simp) rfl⟩⟩

/-- C15, at the text aaabcde of `TestRepeatAndFoldLeft`, with the pairing as
combine function: the three results are paired from the left, and the
remaining input is the view at b. -/
theorem RepeatAndFoldLeft_is_foldl_of_Repeated_witness :
    Repeated 4 (ExpectString "a") (StringToInput "aaabcde") =
      .ok ⟨.list [.str "a", .str "a", .str "a"], some ⟨"aaabcde".data, 3⟩⟩ ∧
    RepeatAndFoldLeft 4 (ExpectString "a") (.str "a") (fun x y => .ok (Any.pair x y))
        (StringToInput "aaabcde") =
      .ok ⟨.pair (.pair (.pair (.str "a") (.str "a")) (.str "a")) (.str "a"),
        some ⟨"aaabcde".data, 3⟩⟩ :=
  ⟨rfl, RepeatAndFoldLeft_is_foldl_of_Repeated 4 (ExpectString "a") (.str "a") Any.pair
    (StringToInput "aaabcde") [.str "a", .str "a", .str "a"] (some ⟨"aaabcde".data, 3⟩) rfl⟩

/-- C16, at the text of `TestBind`: the identifier ning, a space and ning
again are accepted, and the result is the identifier. -/
theorem Bind_is_sequencing_witness :
    ExpectIdentifier 5 (StringToInput "ning ning") =
      .ok ⟨.str "ning", some ⟨"ning ning".data, 4⟩⟩ ∧
    Bind (ExpectIdentifier 5) (testBindConstructor 5) (StringToInput "ning ning") =
      .ok ⟨.str "ning", none⟩ :=
  ⟨rfl, (Bind_is_sequencing (ExpectIdentifier 5) (testBindConstructor 5)
    (StringToInput "ning ning") (.str "ning") (some ⟨"ning ning".data, 4⟩) rfl).trans rfl⟩

/-- C17: `Bind` does not stop at a failure of its first parser.  On the text
BC the code point A is not found, the constructor is called all the same (with
the nil result) and the parser it returns succeeds; and with the constructor
of `TestBind`, on a text that starts with no identifier, the call of the
constructor panics on its type assertion. -/
theorem Bind_runs_after_failure :
    ExpectCodePoint 'A' (StringToInput "BC") = .ok ⟨.nil, StringToInput "BC"⟩ ∧
    Bind (ExpectCodePoint 'A') (fun _ => ExpectCodePoint 'B') (StringToInput "BC") =
      .ok ⟨.rune 'B', some ⟨['B', 'C'], 1⟩⟩ ∧
    ExpectIdentifier 5 (StringToInput "1 1") = .ok ⟨.nil, StringToInput "1 1"⟩ ∧
    Bind (ExpectIdentifier 5) (testBindConstructor 5) (StringToInput "1 1") =
      .error .typeAssertion :=
  ⟨rfl, rfl, rfl, rfl⟩

/-- C18, the claim at the text A: advancing once, as often as the text has
code points, yields nil and no view at the sentinel; `RemainingInput` returns
nil at position 0, which has not passed the end of the text. -/
theorem advance_to_end_is_nil :
    advance 1 (StringToInput "A") = none ∧
    "A".data.length = 1 ∧
    (⟨"A".data, 0⟩ : RuneArrayInput).RemainingInput = none ∧ ¬ (0 ≥ "A".data.length) :=
  ⟨rfl, rfl, rfl, by decide⟩

/-- C18, amended: for a text of `n` code points, advancing the input of the
text `k` times, with `k` below `n`, yields the view at position `k`, whose
code point is the code point `k` of the text; advancing `n` times, for a
positive `n`, yields nil; `RemainingInput` of the view at position `p` is nil
exactly when `p + 1` reaches `n`; and the input of the empty text is a view
whose code point is the sentinel. -/
theorem advance_StringToInput (text : String) :
    (∀ k (h : k < text.data.length),
      advance k (StringToInput text) = some ⟨text.data, k⟩ ∧
      (⟨text.data, k⟩ : RuneArrayInput).CurrentCodePoint = text.data[k]) ∧
    (0 < text.data.length → advance text.data.length (StringToInput text) = none) ∧
    (∀ p, (⟨text.data, p⟩ : RuneArrayInput).RemainingInput = none ↔
      p + 1 ≥ text.data.length) ∧
    (text.data.length = 0 → ∃ v, StringToInput text = some v ∧ v.CurrentCodePoint = nul) := by
  refine ⟨?_, ?_, ?_, ?_⟩
  · intro k h
    exact ⟨advance_StringToInput_lt text.data k h, RuneArrayInput_CurrentCodePoint_lt _ _ h⟩
  · intro h
    obtain ⟨m, hm⟩ : ∃ m, text.data.length = m + 1 := ⟨text.data.length - 1, by omega⟩
    rw [hm]
    simp only [advance, StringToInput, advance_StringToInput_lt text.data m (by omega)]
    simp [RuneArrayInput.RemainingInput, hm]
  · intro p
    simp [RuneArrayInput.RemainingInput]
  · intro h
    exact ⟨⟨text.data, 0⟩, rfl, RuneArrayInput_CurrentCodePoint_ge _ _ (by omega)⟩

/-- C18, amended, at the text ABC: the views at the positions 0, 1 and 2 show A,
B and C, and the third advance yields nil. -/
theorem advance_StringToInput_witness :
    (2 < "ABC".data.length ∧ advance 2 (StringToInput "ABC") = some ⟨['A', 'B', 'C'], 2⟩ ∧
      (⟨['A', 'B', 'C'], 2⟩ : RuneArrayInput).CurrentCodePoint = 'C') ∧
    (0 < "ABC".data.length ∧ advance 3 (StringToInput "ABC") = none) :=
  ⟨⟨by decide, ((advance_StringToInput "ABC").1 2 (by decide)).1,
      ((advance_StringToInput "ABC").1 2 (by decide)).2⟩,
   ⟨by decide, (advance_StringToInput "ABC").2.1 (by decide)⟩⟩

/-- C19: `FileInput.RemainingInput` does not keep the view it made.  For a view
that has no next view yet, over a reader with the runes `r1`, `r2` and more to
come, the first call reads `r1` and returns the view of it, and the second
call on the same view reads again and returns the view of `r2`. -/
theorem FileInput_RemainingInput_reads_again (c r1 r2 : Char) (rest : RuneReader) :
    FileInput.RemainingInput (.mk true c none) (r1 :: r2 :: rest) =
      (some (.mk true r1 none), r2 :: rest) ∧
    FileInput.RemainingInput (.mk true c none) (r2 :: rest) =
      (some (.mk true r2 none), rest) ∧
    FileToInput (c :: r1 :: r2 :: rest) = (.mk true c none, r1 :: r2 :: rest) :=
  ⟨rfl, rfl, rfl⟩

/-- C20, the claim at the text ABC of `TestExpectSpaces`: without whitespace at
the start the result of `ExpectSpaces` is the marker `Nothing`, which is not
the empty string. -/
theorem ExpectSpaces_without_spaces_is_Nothing :
    (∀ fuel, ExpectSpaces fuel (StringToInput "ABC") = .ok ⟨.nothing, StringToInput "ABC"⟩) ∧
    Any.nothing ≠ Any.str "" :=
  ⟨fun _ => rfl, by simp⟩

/-- C20, amended: on a view of a text, `ExpectSpaces` returns the marker
`Nothing` and the view itself when the code point of the view is no
whitespace; and when the view starts with a non-empty run of whitespace that a
code point of the text ends, it returns, with more fuel than the run is long,
the run as a string and the view at the code point that ends it. -/
theorem ExpectSpaces_on_array (text : List Char) (p fuel : Nat) :
    (isSpaceChar (⟨text, p⟩ : RuneArrayInput).CurrentCodePoint = false →
      ExpectSpaces fuel (some (⟨text, p⟩ : RuneArrayInput)) =
        .ok ⟨.nothing, some ⟨text, p⟩⟩) ∧
    (∀ (run : List Char) (c : Char) (tail : List Char), run ≠ [] →
      text.drop p = run ++ c :: tail → (∀ x ∈ run, isSpaceChar x = true) →
      isSpaceChar c = false → fuel > run.length →
      ExpectSpaces fuel (some (⟨text, p⟩ : RuneArrayInput)) =
        .ok ⟨.str (String.mk run), some ⟨text, p + run.length⟩⟩) := by
  constructor
  · intro h
    simp [ExpectSpaces, Optional, ExpectSeveral, ParserInput.CurrentCodePoint, h, Any.isNil]
  · intro run c tail hne hdrop hrun hc hfuel
    have hloop := ExpectSeveral_loop_array isSpaceChar text run p c tail [] fuel hdrop hrun hc
      hfuel
    cases run with
    | nil => exact absurd rfl hne
    | cons x xs =>
      obtain ⟨hlt, hget, _⟩ := List_drop_eq_cons text p x (xs ++ c :: tail)
        (by simpa using hdrop)
      have hcur := RuneArrayInput_CurrentCodePoint_lt text p hlt
      have hx : isSpaceChar x = true := hrun x (by simp)
      have hfirst : isSpaceChar (⟨text, p⟩ : RuneArrayInput).CurrentCodePoint = true := by
        rw [hcur, hget]; exact hx
      simp only [List.nil_append] at hloop
      simp [ExpectSpaces, Optional, ExpectSeveral, ParserInput.CurrentCodePoint, hfirst, hloop,
        Any.isNil]

/-- C20, amended, at the texts of `TestExpectSpaces`: two spaces and a line feed
in front of ABC are returned as a string, with the view at A; and on ABC the
result is `Nothing`. -/
theorem ExpectSpaces_on_array_witness :
    (isSpaceChar (⟨['A', 'B', 'C'], 0⟩ : RuneArrayInput).CurrentCodePoint = false ∧
      ExpectSpaces 1 (some (⟨['A', 'B', 'C'], 0⟩ : RuneArrayInput)) =
        .ok ⟨.nothing, some ⟨['A', 'B', 'C'], 0⟩⟩) ∧
    ExpectSpaces 4 (some (⟨"  \nABC".data, 0⟩ : RuneArrayInput)) =
      .ok ⟨.str "  \n", some ⟨"  \nABC".data, 3⟩⟩ :=
  ⟨⟨rfl, (ExpectSpaces_on_array ['A', 'B', 'C'] 0 1).1 rfl⟩,
   (ExpectSpaces_on_array "  \nABC".data 0 4).2 "  \n".data 'A' ['B', 'C'] (by decide) rfl
     (by decide) rfl (by decide)⟩

end Parse

namespace PropLogic

/-! ## The rules of `Simplify` -/

/-- C26: the rule for equations.  With the simplified sides `l'` and `r'`,
an equation simplifies to the literal true when `l'` and `r'` are the same
term, else to the literal false when both are literals, else to the equation
of `l'` and `r'`; and an equation of two literals simplifies to the literal
true when the literals are the same and to the literal false when not. -/
theorem Simplify_Equation_rule (l r : Term) (env : Env) :
    (l.Simplify env = r.Simplify env →
      (Term.Equation l r).Simplify env = .ValueTerm (.BoolValue true)) ∧
    (l.Simplify env ≠ r.Simplify env →
      (∃ v w, l.Simplify env = .ValueTerm v ∧ r.Simplify env = .ValueTerm w) →
      (Term.Equation l r).Simplify env = .ValueTerm (.BoolValue false)) ∧
    (l.Simplify env ≠ r.Simplify env →
      (¬ ∃ v w, l.Simplify env = .ValueTerm v ∧ r.Simplify env = .ValueTerm w) →
      (Term.Equation l r).Simplify env = .Equation (l.Simplify env) (r.Simplify env)) ∧
    (∀ v w : Value, (Term.Equation (.ValueTerm v) (.ValueTerm w)).Simplify env =
      .ValueTerm (.BoolValue (decide (v = w)))) := by
  have hval : ∀ t u : Term, (t.isValueTerm && u.isValueTerm) = true ↔
      ∃ v w, t = .ValueTerm v ∧ u = .ValueTerm w := by
    intro t u
    cases t <;> cases u <;> simp [Term.isValueTerm]
  have heq : ∀ t u : Term, t ≠ u → t.Equals u = false := by
    intro t u h
    cases hE : t.Equals u
    · rfl
    · exact absurd ((Term_Equals_iff _ _).1 hE) h
  refine ⟨?_, ?_, ?_, ?_⟩
  · intro h
    have h' : (l.Simplify env).Equals (r.Simplify env) = true := (Term_Equals_iff _ _).2 h
    simp only [Term.Simplify, h', if_true]
  · intro h1 h2
    have h2' := (hval _ _).2 h2
    simp only [Term.Simplify, heq _ _ h1, h2', if_true, Bool.false_eq_true, if_false]
  · intro h1 h2
    have h2' : ¬ ((l.Simplify env).isValueTerm && (r.Simplify env).isValueTerm) = true :=
      fun h => h2 ((hval _ _).1 h)
    simp only [Term.Simplify, heq _ _ h1, h2', Bool.false_eq_true, if_false]
  · intro v w
    by_cases h : v = w
    · subst h
      have h' : (Term.ValueTerm v).Equals (.ValueTerm v) = true :=
        (Term_Equals_iff _ _).2 rfl
      simp only [Term.Simplify, h', if_true, decide_True]
    · have h' : (Term.ValueTerm v).Equals (.ValueTerm w) = false :=
        heq _ _ (fun e => h (by injection e))
      simp only [Term.Simplify, h', Term.isValueTerm, Bool.and_self, if_true,
        Bool.false_eq_true, if_false, h, decide_False]

/-- C27: the rule for conjunctions.  With the simplified sides `l'` and `r'`,
a conjunction simplifies to the literal false when `l'` is the literal false,
to `r'` when `l'` is the literal true, and when `l'` is no boolean literal, to
the literal false when `r'` is the literal false, to `l'` when `r'` is the
literal true, and to the conjunction of `l'` and `r'` when `r'` is no boolean
literal either.  So with `x` bound to true the conjunction of `x` and `y`
simplifies to what `y` simplifies to, and with `x` bound to false it
simplifies to the literal false. -/
theorem Simplify_And_rule (l r : Term) (env : Env) :
    (l.Simplify env = .ValueTerm (.BoolValue false) →
      (Term.And l r).Simplify env = .ValueTerm (.BoolValue false)) ∧
    (l.Simplify env = .ValueTerm (.BoolValue true) →
      (Term.And l r).Simplify env = r.Simplify env) ∧
    ((∀ b, l.Simplify env ≠ .ValueTerm (.BoolValue b)) →
      (r.Simplify env = .ValueTerm (.BoolValue false) →
        (Term.And l r).Simplify env = .ValueTerm (.BoolValue false)) ∧
      (r.Simplify env = .ValueTerm (.BoolValue true) →
        (Term.And l r).Simplify env = l.Simplify env) ∧
      ((∀ b, r.Simplify env ≠ .ValueTerm (.BoolValue b)) →
        (Term.And l r).Simplify env = .And (l.Simplify env) (r.Simplify env))) ∧
    (∀ x y : String, env.lookup x = some (.BoolValue true) →
      (Term.And (.Identifier x) (.Identifier y)).Simplify env =
        (Term.Identifier y).Simplify env) ∧
    (∀ (x : String) (t : Term), env.lookup x = some (.BoolValue false) →
      (Term.And (.Identifier x) t).Simplify env = .ValueTerm (.BoolValue false)) := by
  refine ⟨?_, ?_, ?_, ?_, ?_⟩
  · intro h; simp [Term.Simplify, h]
  · intro h; simp [Term.Simplify, h]
  · intro hl
    refine ⟨?_, ?_, ?_⟩
    · intro hr
      cases hL : l.Simplify env with
      | ValueTerm v =>
        cases v with
        | BoolValue b => exact absurd hL (hl b)
        | StringValue s => simp [Term.Simplify, hL, hr]
      | _ => simp [Term.Simplify, hL, hr]
    · intro hr
      cases hL : l.Simplify env with
      | ValueTerm v =>
        cases v with
        | BoolValue b => exact absurd hL (hl b)
        | StringValue s => simp [Term.Simplify, hL, hr]
      | _ => simp [Term.Simplify, hL, hr]
    · intro hr
      cases hL : l.Simplify env with
      | ValueTerm v =>
        cases v with
        | BoolValue b => exact absurd hL (hl b)
        | StringValue s =>
          cases hR : r.Simplify env with
          | ValueTerm w =>
            cases w with
            | BoolValue b => exact absurd hR (hr b)
            | StringValue s2 => simp [Term.Simplify, hL, hR]
          | _ => simp [Term.Simplify, hL, hR]
      | _ =>
        cases hR : r.Simplify env with
        | ValueTerm w =>
          cases w with
          | BoolValue b => exact absurd hR (hr b)
          | StringValue s2 => simp [Term.Simplify, hL, hR]
        | _ => simp [Term.Simplify, hL, hR]
  · intro x y h; simp [Term.Simplify, h]
  · intro x t h; simp [Term.Simplify, h]

/-- C28: the rule for disjunctions, the dual of the rule for conjunctions.
With the simplified sides `l'` and `r'`, a disjunction simplifies to the
literal true when `l'` is the literal true, to `r'` when `l'` is the literal
false, and when `l'` is no boolean literal, to the literal true when `r'` is
the literal true, to `l'` when `r'` is the literal false, and to the
disjunction of `l'` and `r'` when `r'` is no boolean literal either. -/
theorem Simplify_Or_rule (l r : Term) (env : Env) :
    (l.Simplify env = .ValueTerm (.BoolValue true) →
      (Term.Or l r).Simplify env = .ValueTerm (.BoolValue true)) ∧
    (l.Simplify env = .ValueTerm (.BoolValue false) →
      (Term.Or l r).Simplify env = r.Simplify env) ∧
    ((∀ b, l.Simplify env ≠ .ValueTerm (.BoolValue b)) →
      (r.Simplify env = .ValueTerm (.BoolValue true) →
        (Term.Or l r).Simplify env = .ValueTerm (.BoolValue true)) ∧
      (r.Simplify env = .ValueTerm (.BoolValue false) →
        (Term.Or l r).Simplify env = l.Simplify env) ∧
      ((∀ b, r.Simplify env ≠ .ValueTerm (.BoolValue b)) →
        (Term.Or l r).Simplify env = .Or (l.Simplify env) (r.Simplify env))) := by
  refine ⟨?_, ?_, ?_⟩
  · intro h; simp [Term.Simplify, h]
  · intro h; simp [Term.Simplify, h]
  · intro hl
    refine ⟨?_, ?_, ?_⟩
    · intro hr
      cases hL : l.Simplify env with
      | ValueTerm v =>
        cases v with
        | BoolValue b => exact absurd hL (hl b)
        | StringValue s => simp [Term.Simplify, hL, hr]
      | _ => simp [Term.Simplify, hL, hr]
    · intro hr
      cases hL : l.Simplify env with
      | ValueTerm v =>
        cases v with
        | BoolValue b => exact absurd hL (hl b)
        | StringValue s => simp [Term.Simplify, hL, hr]
      | _ => simp [Term.Simplify, hL, hr]
    · intro hr
      cases hL : l.Simplify env with
      | ValueTerm v =>
        cases v with
        | BoolValue b => exact absurd hL (hl b)
        | StringValue s =>
          cases hR : r.Simplify env with
          | ValueTerm w =>
            cases w with
            | BoolValue b => exact absurd hR (hr b)
            | StringValue s2 => simp [Term.Simplify, hL, hR]
          | _ => simp [Term.Simplify, hL, hR]
      | _ =>
        cases hR : r.Simplify env with
        | ValueTerm w =>
          cases w with
          | BoolValue b => exact absurd hR (hr b)
          | StringValue s2 => simp [Term.Simplify, hL, hR]
        | _ => simp [Term.Simplify, hL, hR]

/-- C29: the rule for negations.  With the simplified argument `a'`, a
negation simplifies to the literal of the negated boolean when `a'` is a
boolean literal, to `x` when `a'` is the negation of `x`, and to the negation
of `a'` otherwise; so the negation of a string literal stays a negation. -/
theorem Simplify_Not_rule (a : Term) (env : Env) :
    (∀ b, a.Simplify env = .ValueTerm (.BoolValue b) →
      (Term.Not a).Simplify env = .ValueTerm (.BoolValue (!b))) ∧
    (∀ x, a.Simplify env = .Not x → (Term.Not a).Simplify env = x) ∧
    ((∀ b, a.Simplify env ≠ .ValueTerm (.BoolValue b)) → (∀ x, a.Simplify env ≠ .Not x) →
      (Term.Not a).Simplify env = .Not (a.Simplify env)) ∧
    (∀ s : String, (Term.Not (.ValueTerm (.StringValue s))).Simplify env =
      .Not (.ValueTerm (.StringValue s))) := by
  refine ⟨?_, ?_, ?_, ?_⟩
  · intro b h; simp [Term.Simplify, h]
  · intro x h; simp [Term.Simplify, h]
  · intro hb hx
    cases hA : a.Simplify env with
    | ValueTerm v =>
      cases v with
      | BoolValue b => exact absurd hA (hb b)
      | StringValue s => simp [Term.Simplify, hA]
    | Not x => exact absurd hA (hx x)
    | _ => simp [Term.Simplify, hA]
  · intro s; simp [Term.Simplify]

theorem Simplify_nestNot_unbound (x : String) (env : Env) (h : env.lookup x = none) :
    ∀ n, (nestNot n (.Identifier x)).Simplify env =
      if n % 2 = 0 then .Identifier x else .Not (.Identifier x) := by
  intro n
  induction n with
  | zero => simp [nestNot, Term.Simplify, h]
  | succ k ih =>
    simp only [nestNot, Term.Simplify, ih]
    by_cases hk : k % 2 = 0
    · have : (k + 1) % 2 ≠ 0 := by omega
      simp [hk, this]
    · have : (k + 1) % 2 = 0 := by omega
      simp [hk, this]

theorem Simplify_nestNot_bound (x : String) (env : Env) (b : Bool)
    (h : env.lookup x = some (.BoolValue b)) :
    ∀ n, (nestNot n (.Identifier x)).Simplify env =
      .ValueTerm (.BoolValue (xor b (decide (n % 2 = 1)))) := by
  intro n
  induction n with
  | zero => simp [nestNot, Term.Simplify, h]
  | succ k ih =>
    simp only [nestNot, Term.Simplify, ih]
    by_cases hk : k % 2 = 1
    · have : (k + 1) % 2 ≠ 1 := by omega
      simp [hk, this]
    · have : (k + 1) % 2 = 1 := by omega
      simp [hk, this]

/-- C30: the parity of negations.  Simplifying `n` negations around the
identifier `x` gives `x` itself when `x` is unbound and `n` is even, the
negation of `x`, rendered `(NOT x)`, when `x` is unbound and `n` is odd, and
when `x` is bound to the boolean `b` the literal of `b` for an even `n` and of
its negation for an odd `n`. -/
theorem Simplify_nestNot_parity (n : Nat) (x : String) (env : Env) :
    (env.lookup x = none → n % 2 = 0 →
      (nestNot n (.Identifier x)).Simplify env = .Identifier x) ∧
    (env.lookup x = none → n % 2 = 1 →
      (nestNot n (.Identifier x)).Simplify env = .Not (.Identifier x) ∧
      ((nestNot n (.Identifier x)).Simplify env).String = "(NOT " ++ x ++ ")") ∧
    (∀ b, env.lookup x = some (.BoolValue b) →
      (nestNot n (.Identifier x)).Simplify env =
        .ValueTerm (.BoolValue (xor b (decide (n % 2 = 1))))) := by
  refine ⟨?_, ?_, fun b h => Simplify_nestNot_bound x env b h n⟩
  · intro h hn; rw [Simplify_nestNot_unbound x env h]; simp [hn]
  · intro h hn
    have hne : n % 2 ≠ 0 := by omega
    rw [Simplify_nestNot_unbound x env h]
    simp [hne, Term.String]

end PropLogic

namespace PropLogic

/-- C26, at the terms of `TestEquation`: the equation of a string literal with
itself simplifies to true, the equation of two different string literals to
false, and the equation of two unbound identifiers stays an equation. -/
theorem Simplify_Equation_rule_witness :
    (Term.ValueTerm (.StringValue "fu")).Simplify [] =
        (Term.ValueTerm (.StringValue "fu")).Simplify [] ∧
    (Term.Equation (.ValueTerm (.StringValue "fu")) (.ValueTerm (.StringValue "fu"))).Simplify [] =
        .ValueTerm (.BoolValue true) ∧
    (Term.ValueTerm (.StringValue "fu")).Simplify [] ≠
        (Term.ValueTerm (.StringValue "bar")).Simplify [] ∧
    (Term.Equation (.ValueTerm (.StringValue "fu")) (.ValueTerm (.StringValue "bar"))).Simplify [] =
        .ValueTerm (.BoolValue false) ∧
    (Term.Equation (.Identifier "x") (.Identifier "y")).Simplify [] =
        .Equation (.Identifier "x") (.Identifier "y") :=
  ⟨rfl,
   (Simplify_Equation_rule (.ValueTerm (.StringValue "fu")) (.ValueTerm (.StringValue "fu"))
      []).1 rfl,
   by decide,
   (Simplify_Equation_rule (.ValueTerm (.StringValue "fu")) (.ValueTerm (.StringValue "bar"))
      []).2.1 (by decide) ⟨_, _, rfl, rfl⟩,
   (Simplify_Equation_rule (.Identifier "x") (.Identifier "y") []).2.2.1 (by decide)
      (by simp [Term.Simplify])⟩

/-- C27, at the term of `TestAnd`, the conjunction of `x` and `y`: with `x`
true it simplifies to `y`, with `x` false to false, with only `y` true to `x`,
with only `y` false to false, and with nothing bound it stays. -/
theorem Simplify_And_rule_witness :
    (Term.And (.Identifier "x") (.Identifier "y")).Simplify [("x", .BoolValue true)] =
        .Identifier "y" ∧
    (Term.And (.Identifier "x") (.Identifier "y")).Simplify [("x", .BoolValue false)] =
        .ValueTerm (.BoolValue false) ∧
    (Term.And (.Identifier "x") (.Identifier "y")).Simplify [("y", .BoolValue true)] =
        .Identifier "x" ∧
    (Term.And (.Identifier "x") (.Identifier "y")).Simplify [("y", .BoolValue false)] =
        .ValueTerm (.BoolValue false) ∧
    (Term.And (.Identifier "x") (.Identifier "y")).Simplify [] =
        .And (.Identifier "x") (.Identifier "y") :=
  ⟨(Simplify_And_rule (.Identifier "x") (.Identifier "y") [("x", .BoolValue true)]).2.1 rfl,
   (Simplify_And_rule (.Identifier "x") (.Identifier "y") [("x", .BoolValue false)]).1 rfl,
   ((Simplify_And_rule (.Identifier "x") (.Identifier "y") [("y", .BoolValue true)]).2.2.1
      (by decide)).2.1 rfl,
   ((Simplify_And_rule (.Identifier "x") (.Identifier "y") [("y", .BoolValue false)]).2.2.1
      (by decide)).1 rfl,
   ((Simplify_And_rule (.Identifier "x") (.Identifier "y") []).2.2.1 (by decide)).2.2
      (by decide)⟩

/-- C28, at the term of `TestOr`, the disjunction of `x` and `y`: with `x` true
it simplifies to true, with `x` false to `y`, with only `y` true to true, with
only `y` false to `x`, and with nothing bound it stays. -/
theorem Simplify_Or_rule_witness :
    (Term.Or (.Identifier "x") (.Identifier "y")).Simplify [("x", .BoolValue true)] =
        .ValueTerm (.BoolValue true) ∧
    (Term.Or (.Identifier "x") (.Identifier "y")).Simplify [("x", .BoolValue false)] =
        .Identifier "y" ∧
    (Term.Or (.Identifier "x") (.Identifier "y")).Simplify [("y", .BoolValue true)] =
        .ValueTerm (.BoolValue true) ∧
    (Term.Or (.Identifier "x") (.Identifier "y")).Simplify [("y", .BoolValue false)] =
        .Identifier "x" ∧
    (Term.Or (.Identifier "x") (.Identifier "y")).Simplify [] =
        .Or (.Identifier "x") (.Identifier "y") :=
  ⟨(Simplify_Or_rule (.Identifier "x") (.Identifier "y") [("x", .BoolValue true)]).1 rfl,
   (Simplify_Or_rule (.Identifier "x") (.Identifier "y") [("x", .BoolValue false)]).2.1 rfl,
   ((Simplify_Or_rule (.Identifier "x") (.Identifier "y") [("y", .BoolValue true)]).2.2
      (by decide)).1 rfl,
   ((Simplify_Or_rule (.Identifier "x") (.Identifier "y") [("y", .BoolValue false)]).2.2
      (by decide)).2.1 rfl,
   ((Simplify_Or_rule (.Identifier "x") (.Identifier "y") []).2.2 (by decide)).2.2
      (by decide)⟩

/-- C29, at small terms: the negation of a bound identifier becomes the
negated literal, the negation of the negation of `x` becomes `x`, and the
negation of an unbound identifier stays. -/
theorem Simplify_Not_rule_witness :
    (Term.Not (.Identifier "x")).Simplify [("x", .BoolValue true)] =
        .ValueTerm (.BoolValue false) ∧
    (Term.Not (.Not (.Identifier "x"))).Simplify [] = .Identifier "x" ∧
    (Term.Not (.Identifier "x")).Simplify [] = .Not (.Identifier "x") :=
  ⟨(Simplify_Not_rule (.Identifier "x") [("x", .BoolValue true)]).1 true rfl,
   (Simplify_Not_rule (.Not (.Identifier "x")) []).2.1 (.Identifier "x") rfl,
   (Simplify_Not_rule (.Identifier "x") []).2.2.1 (by decide)
      (by intro x h; simp [Term.Simplify] at h)⟩

/-- C30, at the term of `TestNot`, three negations around `x`: unbound it
simplifies to the negation of `x`, rendered `(NOT x)`; with `x` true to false
and with `x` false to true. -/
theorem Simplify_nestNot_parity_witness :
    nestNot 3 (.Identifier "x") = .Not (.Not (.Not (.Identifier "x"))) ∧
    ((nestNot 3 (.Identifier "x")).Simplify [] = .Not (.Identifier "x") ∧
      ((nestNot 3 (.Identifier "x")).Simplify []).String = "(NOT x)") ∧
    (nestNot 3 (.Identifier "x")).Simplify [("x", .BoolValue true)] =
      .ValueTerm (.BoolValue false) ∧
    (nestNot 3 (.Identifier "x")).Simplify [("x", .BoolValue false)] =
      .ValueTerm (.BoolValue true) ∧
    (nestNot 2 (.Identifier "x")).Simplify [] = .Identifier "x" :=
  ⟨rfl,
   (Simplify_nestNot_parity 3 "x" []).2.1 rfl rfl,
   (Simplify_nestNot_parity 3 "x" [("x", .BoolValue true)]).2.2 true rfl,
   (Simplify_nestNot_parity 3 "x" [("x", .BoolValue false)]).2.2 false rfl,
   (Simplify_nestNot_parity 2 "x" []).1 rfl rfl⟩

end PropLogic

namespace ParserGombinators

open Parse

/-! ## `ExpectIdentifier` in the tested copy -/

theorem copy_CurrentCodePoint_lt (text : List Char) (p : Nat) (h : p < text.length) :
    (⟨text, p⟩ : RuneArrayInput).CurrentCodePoint = text[p] := by
  have hget : text[p]? = some text[p] := by simp [h]
  simp [RuneArrayInput.CurrentCodePoint, Nat.not_le.2 h, List.getD, hget]

theorem copy_CurrentCodePoint_ge (text : List Char) (p : Nat) (h : p ≥ text.length) :
    (⟨text, p⟩ : RuneArrayInput).CurrentCodePoint = nul := by
  simp [RuneArrayInput.CurrentCodePoint, h]

/-- The loop of `ExpectSeveral` on a view of the copy: the sentinel ends the
run at the latest. -/
theorem copy_ExpectSeveral_loop (isLaterChar : Char → Bool) (hnul : isLaterChar nul = false)
    (text : List Char) :
    ∀ (fuel p : Nat) (builder : List Char),
      fuel > ((text.drop p).takeWhile isLaterChar).length →
      ExpectSeveral.loop isLaterChar fuel builder
          (⟨text, p⟩ : RuneArrayInput).CurrentCodePoint (some (⟨text, p⟩ : RuneArrayInput)) =
        .ok ⟨.str (String.mk (builder ++ (text.drop p).takeWhile isLaterChar)),
          some ⟨text, p + ((text.drop p).takeWhile isLaterChar).length⟩⟩ := by
  intro fuel
  induction fuel with
  | zero => intro p builder h; omega
  | succ n ih =>
    intro p builder hfuel
    by_cases hp : p ≥ text.length
    · have hcur := copy_CurrentCodePoint_ge text p hp
      have hdrop : text.drop p = [] := List.drop_eq_nil_of_le hp
      simp [ExpectSeveral.loop, hcur, hnul, hdrop]
    · have hlt : p < text.length := Nat.lt_of_not_ge hp
      have hcur := copy_CurrentCodePoint_lt text p hlt
      have hdrop : text.drop p = text[p] :: text.drop (p + 1) := List.drop_eq_getElem_cons hlt
      by_cases hl : isLaterChar text[p] = true
      · have htw : (text.drop p).takeWhile isLaterChar =
            text[p] :: (text.drop (p + 1)).takeWhile isLaterChar := by
          rw [hdrop, List.takeWhile_cons, if_pos hl]
        rw [htw] at hfuel ⊢
        simp only [List.length_cons] at hfuel ⊢
        have hrem : RuneArrayInput.RemainingInput ⟨text, p⟩ = some ⟨text, p + 1⟩ := by
          simp [RuneArrayInput.RemainingInput, hlt]
        have hih := ih (p + 1) (builder ++ [text[p]]) (by omega)
        simp only [ExpectSeveral.loop, hcur, hl, if_true, ParserInput.RemainingInput, hrem,
          ParserInput.CurrentCodePoint]
        rw [hih]
        simp [Nat.add_assoc, Nat.add_comm 1]
      · have htw : (text.drop p).takeWhile isLaterChar = [] := by
          rw [hdrop, List.takeWhile_cons, if_neg hl]
        simp [ExpectSeveral.loop, hcur, hl, htw]

/-- C21: `ExpectIdentifier` in the tested copy.  On the input of a text it
succeeds exactly when the text has a first code point and that one is a
letter or the underscore; with more fuel than the prefix is long, the result
of a success is the longest prefix of letters, digits and underscores, and the
remaining input is the view right after the prefix; a failure reports the
input. -/
theorem copy_ExpectIdentifier_on_text (text : String) (fuel : Nat)
    (hfuel : fuel > (text.data.takeWhile isIdentifierChar).length) :
    ((∃ c rest, text.data = c :: rest ∧ isIdentifierStartChar c = true) →
      ExpectIdentifier fuel (StringToInput text) =
        .ok ⟨.str (String.mk (text.data.takeWhile isIdentifierChar)),
          some ⟨text.data, (text.data.takeWhile isIdentifierChar).length⟩⟩) ∧
    ((¬ ∃ c rest, text.data = c :: rest ∧ isIdentifierStartChar c = true) →
      ExpectIdentifier fuel (StringToInput text) = .ok ⟨.nil, StringToInput text⟩) ∧
    ((∃ r, ExpectIdentifier fuel (StringToInput text) = .ok r ∧ r.Result ≠ .nil) ↔
      ∃ c rest, text.data = c :: rest ∧ isIdentifierStartChar c = true) := by
  have hnul : isIdentifierChar nul = false := by decide
  have hnul2 : isIdentifierStartChar nul = false := by decide
  have hyes : (∃ c rest, text.data = c :: rest ∧ isIdentifierStartChar c = true) →
      ExpectIdentifier fuel (StringToInput text) =
        .ok ⟨.str (String.mk (text.data.takeWhile isIdentifierChar)),
          some ⟨text.data, (text.data.takeWhile isIdentifierChar).length⟩⟩ := by
    rintro ⟨c, rest, htext, hc⟩
    have hlt : 0 < text.data.length := by rw [htext]; simp
    have hcur := copy_CurrentCodePoint_lt text.data 0 hlt
    have hc0 : text.data[0] = c := by simp [htext]
    have hloop := copy_ExpectSeveral_loop isIdentifierChar hnul text.data fuel 0 []
      (by simpa using hfuel)
    simp only [List.drop_zero, List.nil_append, Nat.zero_add] at hloop
    simp only [ExpectIdentifier, ExpectSeveral, StringToInput, ParserInput.CurrentCodePoint,
      hcur, hc0, hc, Bool.not_true, Bool.false_eq_true, if_false]
    rw [← hc0, ← hcur]
    exact hloop
  have hno : (¬ ∃ c rest, text.data = c :: rest ∧ isIdentifierStartChar c = true) →
      ExpectIdentifier fuel (StringToInput text) = .ok ⟨.nil, StringToInput text⟩ := by
    intro h
    have hfirst : isIdentifierStartChar (⟨text.data, 0⟩ : RuneArrayInput).CurrentCodePoint =
        false := by
      cases hd : text.data with
      | nil =>
        rw [copy_CurrentCodePoint_ge [] 0 (by simp)]
        exact hnul2
      | cons c rest =>
        rw [copy_CurrentCodePoint_lt (c :: rest) 0 (by simp)]
        cases hc : isIdentifierStartChar c
        · simpa using hc
        · exact absurd ⟨c, rest, hd, hc⟩ h
    simp [ExpectIdentifier, ExpectSeveral, StringToInput, ParserInput.CurrentCodePoint, hfirst]
  refine ⟨hyes, hno, ⟨?_, ?_⟩⟩
  · rintro ⟨r, hr, hres⟩
    by_contra h
    rw [hno h] at hr
    cases hr
    exact hres rfl
  · intro h
    exact ⟨_, hyes h, by simp⟩

/-- C21, at the texts of `TestExpectIdentifier`: the identifier b1_la is read
from the first text and the input is left at the space; the second text
starts with a digit and the failure reports the input. -/
theorem copy_ExpectIdentifier_on_text_witness :
    ExpectIdentifier 6 (StringToInput "b1_la blub") =
      .ok ⟨.str "b1_la", some ⟨"b1_la blub".data, 5⟩⟩ ∧
    ExpectIdentifier 6 (StringToInput "1b_la blub") = .ok ⟨.nil, StringToInput "1b_la blub"⟩ ∧
    ExpectIdentifier 4 (StringToInput "abc") = .ok ⟨.str "abc", some ⟨"abc".data, 3⟩⟩ :=
  ⟨(copy_ExpectIdentifier_on_text "b1_la blub" 6 (by decide)).1 ⟨'b', _, rfl, rfl⟩,
   (copy_ExpectIdentifier_on_text "1b_la blub" 6 (by decide)).2.1
     (by rintro ⟨c, rest, h1, h2⟩; cases h1; revert h2; decide),
   (copy_ExpectIdentifier_on_text "abc" 4 (by decide)).1 ⟨'a', _, rfl, rfl⟩⟩

end ParserGombinators

namespace Parse

/-! ## Whitespace and identifiers on any input -/

section InversionTheorems

variable {ι : Type}

theorem Convert_ok (P : Parser ι) (c : Any → Except Fault Any) (i : Option ι)
    (r : ParserResult ι) (h : Convert P c i = .ok r) : ∃ r0, P i = .ok r0 := by
  cases hP : P i with
  | error e => simp [Convert, hP] at h
  | ok r0 => exact ⟨r0, rfl⟩

theorem Convert_nil (P : Parser ι) (c : Any → Except Fault Any) (i x : Option ι)
    (h : P i = .ok ⟨.nil, x⟩) : Convert P c i = .ok ⟨.nil, x⟩ := by
  simp [Convert, h, Any.isNil]

theorem AndThen_ok (P Q : Parser ι) (i : Option ι) (r : ParserResult ι)
    (h : AndThen P Q i = .ok r) : ∃ r0, P i = .ok r0 := by
  cases hP : P i with
  | error e => simp [AndThen, hP] at h
  | ok r0 => exact ⟨r0, rfl⟩

theorem AndThen_nil (P Q : Parser ι) (i x : Option ι) (h : P i = .ok ⟨.nil, x⟩) :
    AndThen P Q i = .ok ⟨.nil, x⟩ := by
  simp [AndThen, h, Any.isNil]

theorem OrElse_ok (P Q : Parser ι) (i : Option ι) (r : ParserResult ι)
    (h : OrElse P Q i = .ok r) : ∃ r0, P i = .ok r0 := by
  cases hP : P i with
  | error e => simp [OrElse, hP] at h
  | ok r0 => exact ⟨r0, rfl⟩

theorem OrElse_nil (P Q : Parser ι) (i x : Option ι) (h : P i = .ok ⟨.nil, x⟩) :
    OrElse P Q i = Q i := by
  simp [OrElse, h, Any.isNil]

end InversionTheorems

section LexicalTheorems

variable {ι : Type} [ParserInput ι]

/-- More fuel does not change a result of the loop of `ExpectSeveral`. -/
theorem ExpectSeveral_loop_mono (isLaterChar : Char → Bool) :
    ∀ (f g : Nat) (builder : List Char) (c : Char) (i : Option ι) (r : ParserResult ι),
      f ≤ g → ExpectSeveral.loop isLaterChar f builder c i = .ok r →
      ExpectSeveral.loop isLaterChar g builder c i = .ok r := by
  intro f
  induction f with
  | zero => intro g builder c i r _ h; simp [ExpectSeveral.loop] at h
  | succ n ih =>
    intro g builder c i r hfg h
    obtain ⟨m, rfl⟩ : ∃ m, g = m + 1 := ⟨g - 1, by omega⟩
    simp only [ExpectSeveral.loop] at h ⊢
    by_cases hl : isLaterChar c = true
    · simp only [hl, if_true] at h ⊢
      cases i with
      | none => simp at h
      | some v =>
        simp only at h ⊢
        cases hrem : ParserInput.RemainingInput v with
        | none => simp [hrem] at h
        | some next =>
          simp only [hrem] at h ⊢
          exact ih m _ _ _ r (by omega) h
    · simp only [hl, Bool.false_eq_true, if_false] at h ⊢
      exact h

theorem ExpectSeveral_mono (isFirstChar isLaterChar : Char → Bool) (f g : Nat)
    (i : Option ι) (r : ParserResult ι) (hfg : f ≤ g)
    (h : ExpectSeveral f isFirstChar isLaterChar i = .ok r) :
    ExpectSeveral g isFirstChar isLaterChar i = .ok r := by
  cases i with
  | none => simp [ExpectSeveral] at h
  | some v =>
    simp only [ExpectSeveral] at h ⊢
    by_cases hfirst : isFirstChar (ParserInput.CurrentCodePoint v) = true
    · simp only [hfirst, Bool.not_true, Bool.false_eq_true, if_false] at h ⊢
      exact ExpectSeveral_loop_mono isLaterChar f g _ _ _ r hfg h
    · simp only [hfirst, Bool.not_false, if_true] at h ⊢
      simpa using h

theorem ExpectSpaces_mono (f g : Nat) (i : Option ι) (r : ParserResult ι) (hfg : f ≤ g)
    (h : ExpectSpaces f i = .ok r) : ExpectSpaces g i = .ok r := by
  simp only [ExpectSpaces, Optional] at h ⊢
  cases hS : ExpectSeveral f isSpaceChar isSpaceChar i with
  | error e => simp [hS] at h
  | ok r0 =>
    rw [ExpectSeveral_mono isSpaceChar isSpaceChar f g i r0 hfg hS]
    simpa [hS] using h

/-- A result of the loop of `ExpectSeveral` is a string, and the input it
leaves is not nil and starts with a code point that does not continue the
run. -/
theorem ExpectSeveral_loop_stop (isLaterChar : Char → Bool) :
    ∀ (f : Nat) (builder : List Char) (v : ι) (r : ParserResult ι),
      ExpectSeveral.loop isLaterChar f builder (ParserInput.CurrentCodePoint v) (some v) =
        .ok r →
      ∃ s v', r = ⟨.str s, some v'⟩ ∧ isLaterChar (ParserInput.CurrentCodePoint v') = false := by
  intro f
  induction f with
  | zero => intro builder v r h; simp [ExpectSeveral.loop] at h
  | succ n ih =>
    intro builder v r h
    simp only [ExpectSeveral.loop] at h
    by_cases hl : isLaterChar (ParserInput.CurrentCodePoint v) = true
    · simp only [hl, if_true] at h
      cases hrem : ParserInput.RemainingInput v with
      | none => simp [hrem] at h
      | some next =>
        simp only [hrem] at h
        exact ih _ next r h
    · simp only [hl, Bool.false_eq_true, if_false] at h
      cases h
      exact ⟨_, v, rfl, by simpa using hl⟩

/-- Where `ExpectSpaces` returns, its result is not nil, and the input it
leaves is not nil and does not start with whitespace. -/
theorem ExpectSpaces_stop (f : Nat) (i : Option ι) (r : ParserResult ι)
    (h : ExpectSpaces f i = .ok r) :
    r.Result ≠ .nil ∧
      ∃ v', r.RemainingInput = some v' ∧ isSpaceChar (ParserInput.CurrentCodePoint v') = false := by
  cases i with
  | none => simp [ExpectSpaces, Optional, ExpectSeveral] at h
  | some v =>
    simp only [ExpectSpaces, Optional, ExpectSeveral] at h
    by_cases hfirst : isSpaceChar (ParserInput.CurrentCodePoint v) = true
    · simp only [hfirst, Bool.not_true, Bool.false_eq_true, if_false] at h
      cases hL : ExpectSeveral.loop isSpaceChar f [] (ParserInput.CurrentCodePoint v) (some v) with
      | error e => simp [hL] at h
      | ok r0 =>
        obtain ⟨s, v', hr0, hv'⟩ := ExpectSeveral_loop_stop isSpaceChar f [] v r0 hL
        subst hr0
        simp only [hL, Any.isNil, Bool.false_eq_true, if_false] at h
        cases h
        exact ⟨by simp, v', rfl, hv'⟩
    · simp only [hfirst, Bool.not_false, if_true, Any.isNil] at h
      cases h
      exact ⟨by simp, v, rfl, by simpa using hfirst⟩

/-- On an input that does not start with whitespace `ExpectSpaces` returns the
marker `Nothing` and the input. -/
theorem ExpectSpaces_no_space (f : Nat) (v : ι)
    (h : isSpaceChar (ParserInput.CurrentCodePoint v) = false) :
    ExpectSpaces f (some v) = .ok ⟨.nothing, some v⟩ := by
  simp [ExpectSpaces, Optional, ExpectSeveral, h, Any.isNil]

/-- After the whitespace, `MaybeSpacesBefore` is the parser it wraps, run on
the input that `ExpectSpaces` leaves. -/
theorem MaybeSpacesBefore_eq (f : Nat) (P : Parser ι) (i : Option ι) (s : Any) (i' : Option ι)
    (h : ExpectSpaces f i = .ok ⟨s, i'⟩) : MaybeSpacesBefore f P i = P i' := by
  have hs : s.isNil = false := by
    have := (ExpectSpaces_stop f i _ h).1
    cases s <;> simp_all [Any.isNil]
  simp only [MaybeSpacesBefore, Second, Convert, AndThen, h, hs, Bool.not_false, if_true]
  cases hP : P i' with
  | error e => rfl
  | ok r =>
    obtain ⟨a, x⟩ := r
    cases a <;> simp [Any.isNil, GetSecond]

/-- Where `MaybeSpacesBefore` returns, `ExpectSpaces` has returned. -/
theorem MaybeSpacesBefore_ok (f : Nat) (P : Parser ι) (i : Option ι) (r : ParserResult ι)
    (h : MaybeSpacesBefore f P i = .ok r) : ∃ s i', ExpectSpaces f i = .ok ⟨s, i'⟩ := by
  cases hS : ExpectSpaces f i with
  | error e => simp [MaybeSpacesBefore, Second, Convert, AndThen, hS] at h
  | ok r0 => exact ⟨r0.Result, r0.RemainingInput, rfl⟩

end LexicalTheorems

end Parse

namespace PropLogic

open Parse

/-! ## The folding of `NOT` tokens -/

section NotFolding

variable {ι : Type} [ParserInput ι]

/-- The input that `ParseEqn` parses a term from does not start with the token
`NOT`: on it `expectIdent` fails for `NOT`, and it returns, because the
whitespace and the identifier that it reads are read by `ParseEqn` too. -/
theorem expectIdent_NOT_fails_where_ParseEqn_succeeds (F : Nat) (i : Option ι) (e : Term)
    (rest : Option ι) (h : ParseEqn F i = .ok ⟨.term e, rest⟩) :
    ∃ r, expectIdent F "NOT" i = .ok ⟨.nil, r⟩ := by
  cases F with
  | zero => simp [ParseEqn] at h
  | succ f =>
    cases f with
    | zero =>
      simp only [ParseEqn] at h
      obtain ⟨r0, h0⟩ := Convert_ok _ _ _ _ h
      obtain ⟨r1, h1⟩ := AndThen_ok _ _ _ _ h0
      simp [ParseAtom] at h1
    | succ f' =>
      have hEqn := h
      simp only [ParseEqn] at h
      obtain ⟨r0, h0⟩ := Convert_ok _ _ _ _ h
      obtain ⟨rA, hA⟩ := AndThen_ok _ _ _ _ h0
      have hA' := hA
      simp only [ParseAtom] at hA
      obtain ⟨r2, h2⟩ := OrElse_ok _ _ _ _ hA
      obtain ⟨rv, hPV⟩ := OrElse_ok _ _ _ _ h2
      simp only [ParseValue] at hPV
      obtain ⟨s, i', hS⟩ := MaybeSpacesBefore_ok _ _ _ _ hPV
      rw [MaybeSpacesBefore_eq _ _ _ _ _ hS] at hPV
      obtain ⟨_, v', hv', hnosp⟩ := ExpectSpaces_stop _ _ _ hS
      simp only at hv'
      subst hv'
      have hS' := ExpectSpaces_no_space f' v' hnosp
      obtain ⟨r3, h3⟩ := OrElse_ok _ _ _ _ hPV
      obtain ⟨rb, hPB⟩ := Convert_ok _ _ _ _ h3
      simp only [ParseBool] at hPB
      obtain ⟨rid, hI⟩ := Convert_ok _ _ _ _ hPB
      rw [MaybeSpacesBefore_eq _ _ _ _ _ hS'] at hI
      -- the same two reads, with the fuel of `expectIdent`
      have hS2 := ExpectSpaces_mono f' (f' + 1 + 1) _ _ (by omega) hS
      have hI2 : ExpectIdentifier (f' + 1 + 1) (some v') = .ok rid :=
        ExpectSeveral_mono _ _ f' (f' + 1 + 1) _ _ (by omega) hI
      have hexp : expectIdent (f' + 1 + 1) "NOT" i =
          if rid.Result.eqString "NOT" then .ok rid else .ok ⟨.nil, some v'⟩ := by
        simp only [expectIdent]
        rw [MaybeSpacesBefore_eq _ _ _ _ _ hS2]
        simp only [hI2]
      by_cases hkw : rid.Result.eqString "NOT" = true
      · -- the token is `NOT`: then `ParseEqn` fails, against the hypothesis
        exfalso
        obtain ⟨res, rem⟩ := rid
        have hres : res = .str "NOT" := by
          cases res <;> simp_all [Any.eqString]
        subst hres
        have hfirst : isIdentifierStartChar (ParserInput.CurrentCodePoint v') = true := by
          simp only [ExpectIdentifier, ExpectSeveral] at hI
          by_cases hf : isIdentifierStartChar (ParserInput.CurrentCodePoint v') = true
          · exact hf
          · simp [hf] at hI
        have hq : ¬ quoteChar = ParserInput.CurrentCodePoint v' := by
          intro hc
          rw [← hc] at hfirst
          revert hfirst
          decide
        have hp : ¬ '(' = ParserInput.CurrentCodePoint v' := by
          intro hc
          rw [← hc] at hfirst
          revert hfirst
          decide
        have hM1 : MaybeSpacesBefore f' (ExpectIdentifier f') (some v') =
            .ok ⟨.str "NOT", rem⟩ := by
          rw [MaybeSpacesBefore_eq _ _ _ _ _ hS']; exact hI
        have hM2 : MaybeSpacesBefore f' (ExpectIdentifier f') i = .ok ⟨.str "NOT", rem⟩ := by
          rw [MaybeSpacesBefore_eq _ _ _ _ _ hS]; exact hI
        have hPB2 : ParseBool f' (some v') = .ok ⟨.nil, rem⟩ := by
          simp [ParseBool, Convert, hM1, boolConverter, Any.isNil]
        have hPS : ParseString f' (some v') = .ok ⟨.nil, some v'⟩ := by
          simp [ParseString, First, Second, Convert, Parse.AndThen, ExpectCodePoint, hq, Any.isNil]
        have hPV2 : ParseValue f' i = .ok ⟨.nil, some v'⟩ := by
          simp only [ParseValue]
          rw [MaybeSpacesBefore_eq _ _ _ _ _ hS]
          simp [Parse.OrElse, Convert, hPB2, hPS, Any.isNil]
        have hPI : ParseIdent f' i = .ok ⟨.nil, rem⟩ := by
          simp [ParseIdent, Convert, hM2, identConverter, Any.isNil]
        have hparen : expect f' "(" i = .ok ⟨.nil, some v'⟩ := by
          simp only [expect]
          rw [MaybeSpacesBefore_eq _ _ _ _ _ hS]
          have hd : ("(" : String).data = ['('] := rfl
          simp [ExpectString, ExpectCodePoints, hd, ExpectCodePoints.loop, ExpectCodePoint, hp,
            Any.isNil]
        have hPA : ParseAtom (f' + 1) i = .ok ⟨.nil, some v'⟩ := by
          simp [ParseAtom, Parse.OrElse, First, Second, Convert, Parse.AndThen, hPV2, hPI, hparen, Any.isNil]
        have hfail : ParseEqn (f' + 1 + 1) i = .ok ⟨.nil, some v'⟩ := by
          simp [ParseEqn, Convert, Parse.AndThen, hPA, Any.isNil]
        rw [hfail] at hEqn
        cases hEqn
      · refine ⟨some v', ?_⟩
        rw [hexp]
        simp [hkw]

end NotFolding

end PropLogic

namespace PropLogic

open Parse

theorem isIdentifierChar_of_isSpaceChar (x : Char) (h : isSpaceChar x = true) :
    isIdentifierChar x = false := by
  simp only [isSpaceChar, Bool.or_eq_true, decide_eq_true_eq] at h
  rcases h with ((h | h) | h) | h <;> subst h <;> decide

/-- `ExpectSpaces` on a view of a text skips the whitespace in front of a code
point that is none. -/
theorem ExpectSpaces_array_run (text : List Char) (p : Nat) (ws : List Char) (c : Char)
    (tail : List Char) (fuel : Nat) (hdrop : text.drop p = ws ++ c :: tail)
    (hws : ∀ x ∈ ws, isSpaceChar x = true) (hc : isSpaceChar c = false)
    (hfuel : ws.length < fuel) :
    ∃ s, ExpectSpaces fuel (some (⟨text, p⟩ : RuneArrayInput)) =
      .ok ⟨s, some ⟨text, p + ws.length⟩⟩ := by
  cases ws with
  | nil =>
    obtain ⟨hlt, hget, _⟩ := List_drop_eq_cons text p c tail (by simpa using hdrop)
    have hcur := RuneArrayInput_CurrentCodePoint_lt text p hlt
    refine ⟨.nothing, ?_⟩
    have := ExpectSpaces_no_space fuel (⟨text, p⟩ : RuneArrayInput)
      (by simp only [ParserInput.CurrentCodePoint]; rw [hcur, hget]; exact hc)
    simpa using this
  | cons x xs =>
    obtain ⟨hlt, hget, _⟩ := List_drop_eq_cons text p x (xs ++ c :: tail)
      (by simpa using hdrop)
    have hcur := RuneArrayInput_CurrentCodePoint_lt text p hlt
    have hx : isSpaceChar x = true := hws x (by simp)
    have hfirst : isSpaceChar (⟨text, p⟩ : RuneArrayInput).CurrentCodePoint = true := by
      rw [hcur, hget]; exact hx
    have hloop := ExpectSeveral_loop_array isSpaceChar text (x :: xs) p c tail [] fuel hdrop hws
      hc hfuel
    refine ⟨.str (String.mk (x :: xs)), ?_⟩
    simp only [List.nil_append] at hloop
    simp [ExpectSpaces, Optional, ExpectSeveral, ParserInput.CurrentCodePoint, hfirst, hloop,
      Any.isNil]

/-- On a view of a text that shows whitespace, the token `NOT` and a code point
that ends the token, `expectIdent` for `NOT` returns the token and the view
after it. -/
theorem expectIdent_NOT_token (text : List Char) (p : Nat) (ws : List Char) (c : Char)
    (tail : List Char) (fuel : Nat)
    (hdrop : text.drop p = ws ++ ('N' :: 'O' :: 'T' :: c :: tail))
    (hws : ∀ x ∈ ws, isSpaceChar x = true) (hc : isIdentifierChar c = false)
    (hf1 : ws.length < fuel) (hf2 : 3 < fuel) :
    expectIdent fuel "NOT" (some (⟨text, p⟩ : RuneArrayInput)) =
      .ok ⟨.str "NOT", some ⟨text, p + ws.length + 3⟩⟩ := by
  obtain ⟨s, hS⟩ := ExpectSpaces_array_run text p ws 'N' ('O' :: 'T' :: c :: tail) fuel hdrop hws
    (by decide) hf1
  have hdrop2 : text.drop (p + ws.length) = 'N' :: 'O' :: 'T' :: c :: tail := by
    rw [← List.drop_drop, hdrop]
    simp
  obtain ⟨hlt, hget, _⟩ := List_drop_eq_cons text (p + ws.length) 'N' _ hdrop2
  have hcur := RuneArrayInput_CurrentCodePoint_lt text (p + ws.length) hlt
  have hloop := ExpectSeveral_loop_array isIdentifierChar text ['N', 'O', 'T'] (p + ws.length) c
    tail [] fuel (by simpa using hdrop2) (by decide) hc (by simpa using hf2)
  have hI : ExpectIdentifier fuel (some (⟨text, p + ws.length⟩ : RuneArrayInput)) =
      .ok ⟨.str "NOT", some ⟨text, p + ws.length + 3⟩⟩ := by
    have hfirst : isIdentifierStartChar
        (⟨text, p + ws.length⟩ : RuneArrayInput).CurrentCodePoint = true := by
      rw [hcur, hget]; decide
    simp only [ExpectIdentifier, ExpectSeveral, ParserInput.CurrentCodePoint, hfirst,
      Bool.not_true, Bool.false_eq_true, if_false]
    rw [hloop]
    rfl
  simp only [expectIdent]
  rw [MaybeSpacesBefore_eq _ _ _ _ _ hS]
  simp only [hI]
  rfl

theorem notTokens_length_cons (ws : List Char) (rest : List (List Char)) :
    (notTokens (ws :: rest)).length = ws.length + 3 + (notTokens rest).length := by
  simp [notTokens]
  omega

/-- The loop of the fold of `ParseNot` over a run of `NOT` tokens. -/
theorem fold_NOT_tokens (text operand : List Char) (fuel : Nat) (hf3 : 3 < fuel) :
    ∀ (seps : List (List Char)) (p : Nat) (acc : Bool) (g : Nat),
      text.drop p = notTokens seps ++ operand →
      (seps ≠ [] → ∃ c tail, operand = c :: tail ∧ isIdentifierChar c = false) →
      (∀ ws ∈ seps, ∀ x ∈ ws, isSpaceChar x = true) →
      (∀ ws ∈ seps.tail, ws ≠ []) →
      (∀ ws ∈ seps, ws.length < fuel) →
      seps.length < g →
      (∃ r, expectIdent fuel "NOT"
        (some (⟨text, p + (notTokens seps).length⟩ : RuneArrayInput)) = .ok ⟨.nil, r⟩) →
      RepeatAndFoldLeft.loop (expectIdent fuel "NOT") toggle g (.bool acc)
          (some (⟨text, p⟩ : RuneArrayInput)) =
        .ok ⟨.bool (xor acc (decide (seps.length % 2 = 1))),
          some ⟨text, p + (notTokens seps).length⟩⟩ := by
  intro seps
  induction seps with
  | nil =>
    intro p acc g _ _ _ _ _ hg hfail
    obtain ⟨r, hr⟩ := hfail
    obtain ⟨m, rfl⟩ : ∃ m, g = m + 1 := ⟨g - 1, by simp at hg; omega⟩
    simp only [notTokens, List.length_nil, Nat.add_zero] at hr ⊢
    simp [RepeatAndFoldLeft.loop, hr, Any.isNil]
  | cons ws rest ih =>
    intro p acc g hdrop hop hws hsep hfuel hg hfail
    obtain ⟨m, rfl⟩ : ∃ m, g = m + 1 := ⟨g - 1, by simp at hg; omega⟩
    obtain ⟨c, tail, hoperand, hc⟩ := hop (by simp)
    -- the code point after the token ends it
    obtain ⟨c', tail', hnext, hc'⟩ : ∃ c' tail', notTokens rest ++ operand = c' :: tail' ∧
        isIdentifierChar c' = false := by
      cases rest with
      | nil => exact ⟨c, tail, by simp [notTokens, hoperand], hc⟩
      | cons ws2 rest' =>
        have hne : ws2 ≠ [] := hsep ws2 (by simp)
        cases ws2 with
        | nil => exact absurd rfl hne
        | cons x xs =>
          refine ⟨x, _, by simp [notTokens]; rfl, ?_⟩
          exact isIdentifierChar_of_isSpaceChar x (hws (x :: xs) (by simp) x (by simp))
    have hdrop' : text.drop p = ws ++ ('N' :: 'O' :: 'T' :: c' :: tail') := by
      rw [hdrop, ← hnext]; simp [notTokens]
    have htok := expectIdent_NOT_token text p ws c' tail' fuel hdrop' (hws ws (by simp)) hc'
      (hfuel ws (by simp)) hf3
    have hdrop2 : text.drop (p + ws.length + 3) = notTokens rest ++ operand := by
      rw [Nat.add_assoc, ← List.drop_drop, hdrop]
      simp [notTokens]
    have hpos : p + ws.length + 3 + (notTokens rest).length =
        p + (notTokens (ws :: rest)).length := by
      rw [notTokens_length_cons]; omega
    have hih := ih (p + ws.length + 3) (!acc) m hdrop2
      (fun _ => ⟨c, tail, hoperand, hc⟩)
      (fun w hw => hws w (by simp [hw]))
      (fun w hw => hsep w (by simp [List.mem_of_mem_tail hw]))
      (fun w hw => hfuel w (by simp [hw]))
      (by simp at hg; omega)
      (by rw [hpos]; exact hfail)
    simp only [RepeatAndFoldLeft.loop, htok, Any.isNil, Bool.false_eq_true, if_false, toggle]
    rw [hih, hpos]
    congr 2
    by_cases hr : rest.length % 2 = 1
    · have : (rest.length + 1) % 2 ≠ 1 := by omega
      cases acc <;> simp [hr, this]
    · have : (rest.length + 1) % 2 = 1 := by omega
      cases acc <;> simp [hr, this]

/-- The folding of `NOT` tokens where the operand does not end the text.  For
a text made of `n` tokens `NOT`, separated by whitespace, and an operand after
them (which, when there is a token, starts with a code point that ends the
last token: whitespace, for one): where `ParseEqn` returns the term `e` for
the operand, which it only does when a code point follows the operand,
`ParseNot` parses the text to the negation of `e` when `n` is odd and to `e`
itself when `n` is even, with the remaining input of `ParseEqn`; no negation
is nested. -/
theorem ParseNot_folds_NOT_tokens (seps : List (List Char)) (operand : List Char)
    (fuel : Nat) (e : Term) (rest : Option RuneArrayInput)
    (hws : ∀ ws ∈ seps, ∀ x ∈ ws, isSpaceChar x = true)
    (hsep : ∀ ws ∈ seps.tail, ws ≠ [])
    (hop : seps ≠ [] → ∃ c tail, operand = c :: tail ∧ isIdentifierChar c = false)
    (hfuel : seps.length < fuel ∧ 3 < fuel ∧ ∀ ws ∈ seps, ws.length < fuel)
    (hEqn : ParseEqn fuel
      (some ⟨notTokens seps ++ operand, (notTokens seps).length⟩) = .ok ⟨.term e, rest⟩) :
    ParseNot (fuel + 1) (StringToInput (String.mk (notTokens seps ++ operand))) =
      .ok ⟨.term (if seps.length % 2 = 1 then .Not e else e), rest⟩ := by
  have hfail := expectIdent_NOT_fails_where_ParseEqn_succeeds fuel _ e rest hEqn
  have hfold := fold_NOT_tokens (notTokens seps ++ operand) operand fuel hfuel.2.1 seps 0
    false fuel (by simp) hop hws hsep hfuel.2.2 hfuel.1 (by simpa using hfail)
  simp only [Nat.zero_add, Bool.false_bne] at hfold
  simp only [ParseNot, StringToInput, Convert, Parse.AndThen, RepeatAndFoldLeft, hfold, hEqn,
    Any.isNil, Bool.not_false, if_true, notConverter]
  by_cases hn : seps.length % 2 = 1 <;> simp [hn]

end PropLogic

namespace PropLogic

open Parse

/-- The folding of `NOT` tokens at the text of three tokens, the operand x and
a semicolon: `ParseEqn` parses the operand, which starts with the space after
the last token, to the identifier, and `ParseNot` parses the text to one
negation of it; with no token in front, the operand x is parsed to the
identifier itself. -/
theorem ParseNot_folds_NOT_tokens_witness :
    notTokens [[], " ".data, " ".data] ++ " x;".data = "NOT NOT NOT x;".data ∧
    ParseEqn 8 (some (⟨"NOT NOT NOT x;".data, 11⟩ : RuneArrayInput)) =
      .ok ⟨.term (.Identifier "x"), some ⟨"NOT NOT NOT x;".data, 13⟩⟩ ∧
    ParseNot 9 (StringToInput "NOT NOT NOT x;") =
      .ok ⟨.term (.Not (.Identifier "x")), some ⟨"NOT NOT NOT x;".data, 13⟩⟩ ∧
    ParseNot 9 (StringToInput "x;") = .ok ⟨.term (.Identifier "x"), some ⟨"x;".data, 1⟩⟩ := by
  have hEqn : ParseEqn 8 (some (⟨"NOT NOT NOT x;".data, 11⟩ : RuneArrayInput)) =
      .ok ⟨.term (.Identifier "x"), some ⟨"NOT NOT NOT x;".data, 13⟩⟩ := by
    set_option maxRecDepth 100000 in
    set_option smartUnfolding false in
    exact rfl
  have hEqn0 : ParseEqn 8 (some (⟨"x;".data, 0⟩ : RuneArrayInput)) =
      .ok ⟨.term (.Identifier "x"), some ⟨"x;".data, 1⟩⟩ := by
    set_option maxRecDepth 100000 in
    set_option smartUnfolding false in
    exact rfl
  exact ⟨rfl, hEqn,
    ParseNot_folds_NOT_tokens [[], " ".data, " ".data] " x;".data 8
      (.Identifier "x") (some ⟨"NOT NOT NOT x;".data, 13⟩) (by decide) (by decide)
      (fun _ => ⟨Char.ofNat 32, _, rfl, by decide⟩) (by decide) hEqn,
    ParseNot_folds_NOT_tokens [] "x;".data 8 (.Identifier "x") (some ⟨"x;".data, 1⟩)
      (by decide) (by decide) (fun h => absurd rfl h) (by decide) hEqn0⟩

/-- C23: `expectIdent` on the inputs where it leaves its description.  The
whole token is compared: TRUEfoo is not accepted for TRUE, and TRUE after a
space is.  But a failure behind leading whitespace reports the input after
the whitespace: on the text of a space, x and a semicolon the failure for AND
carries the view at position 1; and a token that ends the text makes the
parser panic. -/
theorem expectIdent_failure_keeps_skipped_spaces :
    (∀ n, expectIdent (n + 2) "AND" (StringToInput " x;") =
      .ok ⟨.nil, some ⟨" x;".data, 1⟩⟩) ∧
    StringToInput " x;" = some ⟨" x;".data, 0⟩ ∧
    (∀ n, expectIdent (n + 8) "TRUE" (StringToInput "TRUEfoo;") =
      .ok ⟨.nil, StringToInput "TRUEfoo;"⟩) ∧
    (∀ n, expectIdent (n + 5) "TRUE" (StringToInput " TRUE;") =
      .ok ⟨.str "TRUE", some ⟨" TRUE;".data, 5⟩⟩) ∧
    (∀ n, expectIdent (n + 4) "TRUE" (StringToInput "TRUE") =
      (.error .nilDereference : Except Fault (ParserResult RuneArrayInput))) := by
  set_option maxRecDepth 100000 in
  set_option smartUnfolding false in
  exact ⟨fun _ => rfl, rfl, fun _ => rfl, fun _ => rfl, fun _ => rfl⟩

/-- C24: `ParseIdent` on the inputs where it leaves its description.  An
identifier that is no keyword is returned; but when the token is the keyword
TRUE, the converter turns the success into a failure and the remaining input
stays behind the token, at position 4; a failure behind a space reports the
input after the space; and an identifier that ends the text makes the parser
panic. -/
theorem ParseIdent_failure_keeps_consumed_token :
    (∀ n, ParseIdent (n + 5) (StringToInput "TRUE;") = .ok ⟨.nil, some ⟨"TRUE;".data, 4⟩⟩) ∧
    StringToInput "TRUE;" = some ⟨"TRUE;".data, 0⟩ ∧
    (∀ n, ParseIdent (n + 2) (StringToInput "x;") =
      .ok ⟨.term (.Identifier "x"), some ⟨"x;".data, 1⟩⟩) ∧
    (∀ n, ParseIdent (n + 2) (StringToInput " ;") = .ok ⟨.nil, some ⟨" ;".data, 1⟩⟩) ∧
    (∀ n, ParseIdent (n + 1) (StringToInput "x") =
      (.error .nilDereference : Except Fault (ParserResult RuneArrayInput))) := by
  set_option maxRecDepth 100000 in
  set_option smartUnfolding false in
  exact ⟨fun _ => rfl, rfl, fun _ => rfl, fun _ => rfl, fun _ => rfl⟩

end PropLogic

namespace Parse

/-- C22: the lexical primitives of the exported package panic when the run
they match ends the text.  On the text a `ExpectIdentifier`, on the text 1
`ExpectNumber` and on the text of one space `ExpectSpaces` ask the nil
remaining input for its code point, with any fuel; the same code points
followed by a semicolon are parsed. -/
theorem lexical_primitives_panic_at_end_of_text :
    (∀ n, ExpectIdentifier (n + 1) (StringToInput "a") =
      (.error .nilDereference : Except Fault (ParserResult RuneArrayInput))) ∧
    (∀ n, ExpectNumber (n + 1) (StringToInput "1") =
      (.error .nilDereference : Except Fault (ParserResult RuneArrayInput))) ∧
    (∀ n, ExpectSpaces (n + 1) (StringToInput " ") =
      (.error .nilDereference : Except Fault (ParserResult RuneArrayInput))) ∧
    (∀ n, ExpectIdentifier (n + 2) (StringToInput "a;") =
      .ok ⟨.str "a", some ⟨"a;".data, 1⟩⟩) ∧
    (∀ n, ExpectNumber (n + 2) (StringToInput "1;") = .ok ⟨.str "1", some ⟨"1;".data, 1⟩⟩) ∧
    (∀ n, ExpectSpaces (n + 2) (StringToInput " ;") = .ok ⟨.str " ", some ⟨" ;".data, 1⟩⟩) :=
  ⟨fun _ => rfl, fun _ => rfl, fun _ => rfl, fun _ => rfl, fun _ => rfl, fun _ => rfl⟩

end Parse

namespace PropLogic

/-! ## Leaf rules, structural equality, rendering and termination -/

/-- C31: the leaf rules of `Simplify`.  A literal is returned as it is; an
identifier that is a key of the environment becomes the literal bound to it,
and an identifier that is no key is returned as it is. -/
theorem Simplify_leaf_rules (env : Env) :
    (∀ v : Value, (Term.ValueTerm v).Simplify env = .ValueTerm v) ∧
    (∀ (name : String) (value : Value), env.lookup name = some value →
      (Term.Identifier name).Simplify env = .ValueTerm value) ∧
    (∀ name : String, env.lookup name = none →
      (Term.Identifier name).Simplify env = .Identifier name) := by
  refine ⟨fun v => rfl, fun name value h => ?_, fun name h => ?_⟩
  · simp [Term.Simplify, h]
  · simp [Term.Simplify, h]

theorem Simplify_leaf_rules_witness :
    (∀ v : Value, (Term.ValueTerm v).Simplify [("a", .BoolValue true)] = .ValueTerm v) ∧
    ((Term.Identifier "a").Simplify [("a", .BoolValue true)] =
      .ValueTerm (.BoolValue true)) ∧
    ((Term.Identifier "b").Simplify [("a", .BoolValue true)] = .Identifier "b") :=
  ⟨(Simplify_leaf_rules [("a", .BoolValue true)]).1,
   (Simplify_leaf_rules [("a", .BoolValue true)]).2.1 "a" (.BoolValue true) (by decide),
   (Simplify_leaf_rules [("a", .BoolValue true)]).2.2 "b" (by decide)⟩

/-- C32: `Equals` on terms is structural equality.  Two terms are `Equals`
exactly when they are the same variant with `Equals` children in the same
order and equal payloads, that is, when they are the same term; so `Equals` is
reflexive, symmetric and transitive, `And (a, b)` is `Equals` to `And (b, a)`
only for `a = b`, and a string literal is never `Equals` to a `Bool`
literal. -/
theorem Equals_is_structural_equality :
    (∀ t u : Term, t.Equals u = true ↔ t = u) ∧
    (∀ v o : Value, (Term.ValueTerm v).Equals (.ValueTerm o) = true ↔ v = o) ∧
    (∀ n o : String, (Term.Identifier n).Equals (.Identifier o) = true ↔ n = o) ∧
    (∀ l r ol or : Term, (Term.Equation l r).Equals (.Equation ol or) = true ↔
      l.Equals ol = true ∧ r.Equals or = true) ∧
    (∀ a oa : Term, (Term.Not a).Equals (.Not oa) = true ↔ a.Equals oa = true) ∧
    (∀ l r ol or : Term, (Term.And l r).Equals (.And ol or) = true ↔
      l.Equals ol = true ∧ r.Equals or = true) ∧
    (∀ l r ol or : Term, (Term.Or l r).Equals (.Or ol or) = true ↔
      l.Equals ol = true ∧ r.Equals or = true) ∧
    (∀ t : Term, t.Equals t = true) ∧
    (∀ t u : Term, t.Equals u = u.Equals t) ∧
    (∀ t u w : Term, t.Equals u = true → u.Equals w = true → t.Equals w = true) ∧
    (∀ a b : Term, a ≠ b → (Term.And a b).Equals (.And b a) = false) ∧
    (∀ (s : String) (b : Bool),
      (Term.ValueTerm (.StringValue s)).Equals (.ValueTerm (.BoolValue b)) = false ∧
      (Term.ValueTerm (.BoolValue b)).Equals (.ValueTerm (.StringValue s)) = false) := by
  refine ⟨Term_Equals_iff, ?_, ?_, ?_, ?_, ?_, ?_, ?_, ?_, ?_, ?_, ?_⟩
  · intro v o; simp [Term.Equals, Value_Equals_iff]
  · intro n o; simp [Term.Equals]
  · intro l r ol or; simp [Term.Equals]
  · intro a oa; simp [Term.Equals]
  · intro l r ol or; simp [Term.Equals]
  · intro l r ol or; simp [Term.Equals]
  · intro t; exact (Term_Equals_iff t t).2 rfl
  · intro t u
    by_cases h : t = u
    · subst h; rfl
    · have h1 : t.Equals u = false := by
        cases hh : t.Equals u
        · rfl
        · exact absurd ((Term_Equals_iff t u).1 hh) h
      have h2 : u.Equals t = false := by
        cases hh : u.Equals t
        · rfl
        · exact absurd ((Term_Equals_iff u t).1 hh).symm h
      rw [h1, h2]
  · intro t u w h1 h2
    rw [Term_Equals_iff] at h1 h2 ⊢
    exact h1.trans h2
  · intro a b hab
    cases hh : (Term.And a b).Equals (.And b a)
    · rfl
    · rw [Term_Equals_iff] at hh
      injection hh with h1 h2
      exact absurd h1 hab
  · intro s b; exact ⟨rfl, rfl⟩

theorem Equals_is_structural_equality_witness :
    (Term.Identifier "a").Equals (.Identifier "a") = true ∧
    (Term.Identifier "a").Equals (.Not (.Identifier "a")) = false ∧
    (Term.And (.Identifier "a") (.Identifier "b")).Equals
      (.And (.Identifier "b") (.Identifier "a")) = false :=
  ⟨Equals_is_structural_equality.2.2.2.2.2.2.2.1 (.Identifier "a"),
   by decide,
   Equals_is_structural_equality.2.2.2.2.2.2.2.2.2.2.1
     (.Identifier "a") (.Identifier "b") (by decide)⟩

theorem escapeQuotes_eq_referenceEscape (s : List Char) :
    escapeQuotes s = referenceEscape s := by
  induction s with
  | nil => rfl
  | cons c cs ih =>
    by_cases h : c = quoteChar
    · simp [escapeQuotes, referenceEscape, h] at ih ⊢
      exact ih
    · simp [escapeQuotes, referenceEscape, h] at ih ⊢
      exact ih

/-- C33: the method `String` of every term is the reference rendering: `TRUE`
and `FALSE` for the `Bool` literals; for a string literal a double quote, the
content with every double quote replaced by a backslash and a double quote and
nothing else changed, and a double quote; the name for an identifier;
`l=r` without parentheses for an equation; `(NOT a)`, `(l AND r)` and
`(l OR r)` for the connectives. -/
theorem String_is_reference_rendering (t : Term) : t.String = referenceRendering t := by
  induction t with
  | ValueTerm v =>
    cases v with
    | StringValue s =>
      simp [Term.String, Value.String, referenceRendering, escapeQuotes_eq_referenceEscape]
    | BoolValue b => cases b <;> rfl
  | Identifier n => rfl
  | Equation l r ihl ihr => simp [Term.String, referenceRendering, ihl, ihr]
  | Not a iha => simp [Term.String, referenceRendering, iha]
  | And l r ihl ihr => simp [Term.String, referenceRendering, ihl, ihr]
  | Or l r ihl ihr => simp [Term.String, referenceRendering, ihl, ihr]

theorem SimplifyFuel_of_size_le (env : Env) :
    ∀ (fuel : Nat) (t : Term), t.size ≤ fuel → t.SimplifyFuel fuel env = some (t.Simplify env) := by
  intro fuel
  induction fuel with
  | zero => intro t h; cases t <;> simp [Term.size] at h
  | succ n ih =>
    intro t h
    cases t with
    | ValueTerm v => rfl
    | Identifier name =>
      simp only [Term.SimplifyFuel, Term.Simplify]
      cases env.lookup name <;> rfl
    | Equation l r =>
      simp only [Term.size] at h
      simp only [Term.SimplifyFuel, Term.Simplify, ih l (by omega), ih r (by omega)]
      split
      · rfl
      · split <;> rfl
    | Not a =>
      simp only [Term.size] at h
      simp only [Term.SimplifyFuel, Term.Simplify, ih a (by omega)]
      cases a.Simplify env with
      | ValueTerm v => cases v <;> rfl
      | _ => rfl
    | And l r =>
      simp only [Term.size] at h
      simp only [Term.SimplifyFuel, Term.Simplify, ih l (by omega), ih r (by omega)]
      cases hl : l.Simplify env with
      | ValueTerm v =>
        cases v with
        | BoolValue b => cases b <;> simp
        | StringValue s =>
          cases r.Simplify env with
          | ValueTerm w => cases w with
            | BoolValue b => cases b <;> simp
            | StringValue s2 => simp
          | _ => simp
      | _ =>
        cases r.Simplify env with
        | ValueTerm w => cases w with
          | BoolValue b => cases b <;> simp
          | StringValue s2 => simp
        | _ => simp
    | Or l r =>
      simp only [Term.size] at h
      simp only [Term.SimplifyFuel, Term.Simplify, ih l (by omega), ih r (by omega)]
      cases hl : l.Simplify env with
      | ValueTerm v =>
        cases v with
        | BoolValue b => cases b <;> simp
        | StringValue s =>
          cases r.Simplify env with
          | ValueTerm w => cases w with
            | BoolValue b => cases b <;> simp
            | StringValue s2 => simp
          | _ => simp
      | _ =>
        cases r.Simplify env with
        | ValueTerm w => cases w with
          | BoolValue b => cases b <;> simp
          | StringValue s2 => simp
        | _ => simp

/-- C34: `Simplify` terminates on every term.  With the depth of the recursion
counted, each call of `Simplify` being made on a field of the receiver with
one unit less, a budget of as many units as the term has nodes is never used
up, and the result is the value of the total function `Term.Simplify`; larger
budgets give the same result. -/
theorem Simplify_terminates (t : Term) (env : Env) :
    ∀ fuel, t.size ≤ fuel → t.SimplifyFuel fuel env = some (t.Simplify env) :=
  fun fuel h => SimplifyFuel_of_size_le env fuel t h

theorem Simplify_terminates_witness :
    (Term.Not (.And (.Identifier "a") (.ValueTerm (.BoolValue true)))).SimplifyFuel 4 [] =
      some (.Not (.Identifier "a")) :=
  Simplify_terminates (.Not (.And (.Identifier "a") (.ValueTerm (.BoolValue true)))) [] 4
    (by decide)

end PropLogic

namespace PropLogic

/-! ## Normal forms -/

theorem isNormalForm_Not (env : Env) (a : Term) (h : a.isNormalForm env = true)
    (hb : a.isBoolLiteral = false) (hn : a.isNot = false) :
    (Term.Not a).isNormalForm env = true := by
  simp [Term.isNormalForm, h, hb, hn]

theorem isNormalForm_And (env : Env) (l r : Term) (hl : l.isNormalForm env = true)
    (hr : r.isNormalForm env = true) (hlb : l.isBoolLiteral = false)
    (hrb : r.isBoolLiteral = false) : (Term.And l r).isNormalForm env = true := by
  simp [Term.isNormalForm, hl, hr, hlb, hrb]

theorem isNormalForm_Or (env : Env) (l r : Term) (hl : l.isNormalForm env = true)
    (hr : r.isNormalForm env = true) (hlb : l.isBoolLiteral = false)
    (hrb : r.isBoolLiteral = false) : (Term.Or l r).isNormalForm env = true := by
  simp [Term.isNormalForm, hl, hr, hlb, hrb]

theorem Term_isNormalForm_Simplify (env : Env) (t : Term) :
    (t.Simplify env).isNormalForm env = true := by
  induction t with
  | ValueTerm v => rfl
  | Identifier name =>
    simp only [Term.Simplify]
    cases h : env.lookup name with
    | none => simp [Term.isNormalForm, h]
    | some value => rfl
  | Equation l r ihl ihr =>
    simp only [Term.Simplify]
    split
    · rfl
    · split
      · rfl
      · rename_i h1 h2
        have h3 : ¬ (l.Simplify env = r.Simplify env) := fun h =>
          h1 ((Term_Equals_iff _ _).2 h)
        have h4 : ((l.Simplify env).isValueTerm && (r.Simplify env).isValueTerm) = false := by
          simpa using h2
        simp only [Term.isNormalForm, ihl, ihr, h3, h4]
        rfl
  | Not a iha =>
    simp only [Term.Simplify]
    cases h : a.Simplify env with
    | ValueTerm v =>
      cases v with
      | BoolValue b => rfl
      | StringValue s => rfl
    | Not x =>
      rw [h] at iha
      simp only [Term.isNormalForm, Bool.and_eq_true] at iha
      exact iha.1.1
    | Identifier n => rw [h] at iha; exact isNormalForm_Not _ _ iha rfl rfl
    | Equation x y => rw [h] at iha; exact isNormalForm_Not _ _ iha rfl rfl
    | And x y => rw [h] at iha; exact isNormalForm_Not _ _ iha rfl rfl
    | Or x y => rw [h] at iha; exact isNormalForm_Not _ _ iha rfl rfl
  | And l r ihl ihr =>
    simp only [Term.Simplify]
    cases hl : l.Simplify env with
    | ValueTerm v =>
      cases v with
      | BoolValue b => cases b <;> simp [ihr, Term.isNormalForm]
      | StringValue s =>
        cases hr : r.Simplify env with
        | ValueTerm w =>
          cases w with
          | BoolValue b => cases b <;> simp [Term.isNormalForm]
          | StringValue s2 => exact isNormalForm_And _ _ _ rfl rfl rfl rfl
        | _ => rw [hr] at ihr; exact isNormalForm_And _ _ _ rfl ihr rfl rfl
    | _ =>
      rw [hl] at ihl
      cases hr : r.Simplify env with
      | ValueTerm w =>
        cases w with
        | BoolValue b => cases b <;> first | rfl | exact ihl
        | StringValue s2 => exact isNormalForm_And _ _ _ ihl rfl rfl rfl
      | _ => rw [hr] at ihr; exact isNormalForm_And _ _ _ ihl ihr rfl rfl
  | Or l r ihl ihr =>
    simp only [Term.Simplify]
    cases hl : l.Simplify env with
    | ValueTerm v =>
      cases v with
      | BoolValue b => cases b <;> simp [ihr, Term.isNormalForm]
      | StringValue s =>
        cases hr : r.Simplify env with
        | ValueTerm w =>
          cases w with
          | BoolValue b => cases b <;> simp [Term.isNormalForm]
          | StringValue s2 => exact isNormalForm_Or _ _ _ rfl rfl rfl rfl
        | _ => rw [hr] at ihr; exact isNormalForm_Or _ _ _ rfl ihr rfl rfl
    | _ =>
      rw [hl] at ihl
      cases hr : r.Simplify env with
      | ValueTerm w =>
        cases w with
        | BoolValue b => cases b <;> first | rfl | exact ihl
        | StringValue s2 => exact isNormalForm_Or _ _ _ ihl rfl rfl rfl
      | _ => rw [hr] at ihr; exact isNormalForm_Or _ _ _ ihl ihr rfl rfl

/-- C35: `Simplify` returns a normal form.  In `Simplify (t, env)` no node is
an identifier that is a key of `env`, a `Not` whose argument is a `Bool`
literal or a `Not`, an `And` or `Or` with a `Bool` literal as a direct child,
or an equation whose sides are structurally equal or both literals. -/
theorem Simplify_returns_normal_form (t : Term) (env : Env) :
    (t.Simplify env).isNormalForm env = true :=
  Term_isNormalForm_Simplify env t

end PropLogic

namespace PropLogic

/-! ## Truth values -/

theorem envAllBool_lookup (env : Env) (hall : envAllBool env = true) (name : String)
    (value : Value) (h : env.lookup name = some value) : ∃ b, value = .BoolValue b := by
  induction env with
  | nil => simp [List.lookup] at h
  | cons binding rest ih =>
    obtain ⟨k, v⟩ := binding
    simp only [envAllBool, List.all_cons, Bool.and_eq_true] at hall
    simp only [List.lookup] at h
    split at h
    · cases h
      have hv := hall.1
      cases value with
      | BoolValue b => exact ⟨b, rfl⟩
      | StringValue s => simp [Value.isBool] at hv
    · exact ih hall.2 h

theorem noStringLiteral_And (l r : Term) (hl : l.noStringLiteral = true)
    (hr : r.noStringLiteral = true) : (Term.And l r).noStringLiteral = true := by
  simp [Term.noStringLiteral, hl, hr]

theorem noStringLiteral_Or (l r : Term) (hl : l.noStringLiteral = true)
    (hr : r.noStringLiteral = true) : (Term.Or l r).noStringLiteral = true := by
  simp [Term.noStringLiteral, hl, hr]

theorem noStringLiteral_Simplify (env : Env) (hall : envAllBool env = true) (t : Term)
    (h : t.noStringLiteral = true) : (t.Simplify env).noStringLiteral = true := by
  induction t with
  | ValueTerm v => exact h
  | Identifier name =>
    simp only [Term.Simplify]
    cases hl : env.lookup name with
    | none => rfl
    | some value =>
      obtain ⟨b, hb⟩ := envAllBool_lookup env hall name value hl
      subst hb; rfl
  | Equation l r ihl ihr =>
    simp only [Term.noStringLiteral, Bool.and_eq_true] at h
    simp only [Term.Simplify]
    split
    · rfl
    · split
      · rfl
      · simp [Term.noStringLiteral, ihl h.1, ihr h.2]
  | Not a iha =>
    simp only [Term.noStringLiteral] at h
    have ih := iha h
    simp only [Term.Simplify]
    cases ha : a.Simplify env with
    | ValueTerm v =>
      cases v with
      | BoolValue b => rfl
      | StringValue s => rw [ha] at ih; simp [Term.noStringLiteral] at ih
    | Not x => rw [ha] at ih; exact ih
    | _ => rw [ha] at ih; exact ih
  | And l r ihl ihr =>
    simp only [Term.noStringLiteral, Bool.and_eq_true] at h
    have il := ihl h.1
    have ir := ihr h.2
    simp only [Term.Simplify]
    cases hl : l.Simplify env with
    | ValueTerm v =>
      cases v with
      | BoolValue b => cases b <;> simp [ir, Term.noStringLiteral]
      | StringValue s => rw [hl] at il; simp [Term.noStringLiteral] at il
    | _ =>
      rw [hl] at il
      cases hr : r.Simplify env with
      | ValueTerm w =>
        cases w with
        | BoolValue b => cases b <;> first | rfl | exact il
        | StringValue s => rw [hr] at ir; simp [Term.noStringLiteral] at ir
      | _ => rw [hr] at ir; exact noStringLiteral_And _ _ il ir
  | Or l r ihl ihr =>
    simp only [Term.noStringLiteral, Bool.and_eq_true] at h
    have il := ihl h.1
    have ir := ihr h.2
    simp only [Term.Simplify]
    cases hl : l.Simplify env with
    | ValueTerm v =>
      cases v with
      | BoolValue b => cases b <;> simp [ir, Term.noStringLiteral]
      | StringValue s => rw [hl] at il; simp [Term.noStringLiteral] at il
    | _ =>
      rw [hl] at il
      cases hr : r.Simplify env with
      | ValueTerm w =>
        cases w with
        | BoolValue b => cases b <;> first | rfl | exact il
        | StringValue s => rw [hr] at ir; simp [Term.noStringLiteral] at ir
      | _ => rw [hr] at ir; exact noStringLiteral_Or _ _ il ir

theorem truthValue_Simplify (env : Env) (hall : envAllBool env = true) (rho : String → Bool)
    (hrho : agreesWith rho env) (t : Term) (h : t.noStringLiteral = true) :
    truthValue rho (t.Simplify env) = truthValue rho t := by
  induction t with
  | ValueTerm v => rfl
  | Identifier name =>
    simp only [Term.Simplify]
    cases hl : env.lookup name with
    | none => rfl
    | some value =>
      obtain ⟨b, hb⟩ := envAllBool_lookup env hall name value hl
      subst hb
      simp [truthValue, hrho name b hl]
  | Equation l r ihl ihr =>
    simp only [Term.noStringLiteral, Bool.and_eq_true] at h
    have nl := noStringLiteral_Simplify env hall l h.1
    have nr := noStringLiteral_Simplify env hall r h.2
    have il := ihl h.1
    have ir := ihr h.2
    simp only [Term.Simplify, truthValue]
    rw [← il, ← ir]
    generalize l.Simplify env = l1 at *
    generalize r.Simplify env = r1 at *
    split
    · rename_i he
      rw [Term_Equals_iff] at he
      subst he
      simp [truthValue]
    · rename_i he
      split
      · rename_i hv
        cases l1 with
        | ValueTerm v =>
          cases r1 with
          | ValueTerm w =>
            cases v with
            | StringValue s => simp [Term.noStringLiteral] at nl
            | BoolValue a =>
              cases w with
              | StringValue s => simp [Term.noStringLiteral] at nr
              | BoolValue b =>
                cases a <;> cases b <;> simp [Term.Equals, Value.Equals, truthValue] at he ⊢
          | _ => simp [Term.isValueTerm] at hv
        | _ => simp [Term.isValueTerm] at hv
      · simp [truthValue]
  | Not a iha =>
    simp only [Term.noStringLiteral] at h
    have ia := iha h
    simp only [Term.Simplify, truthValue]
    rw [← ia]
    generalize a.Simplify env = a1
    cases a1 with
    | ValueTerm v => cases v <;> simp [truthValue]
    | _ => simp [truthValue]
  | And l r ihl ihr =>
    simp only [Term.noStringLiteral, Bool.and_eq_true] at h
    have il := ihl h.1
    have ir := ihr h.2
    simp only [Term.Simplify, truthValue]
    rw [← il, ← ir]
    generalize l.Simplify env = l1
    generalize r.Simplify env = r1
    cases l1 with
    | ValueTerm v =>
      cases v with
      | BoolValue b => cases b <;> simp [truthValue]
      | StringValue s =>
        cases r1 with
        | ValueTerm w =>
          cases w with
          | BoolValue b => cases b <;> simp [truthValue]
          | StringValue s2 => simp [truthValue]
        | _ => simp [truthValue]
    | _ =>
      cases r1 with
      | ValueTerm w =>
        cases w with
        | BoolValue b => cases b <;> simp [truthValue]
        | StringValue s2 => simp [truthValue]
      | _ => simp [truthValue]
  | Or l r ihl ihr =>
    simp only [Term.noStringLiteral, Bool.and_eq_true] at h
    have il := ihl h.1
    have ir := ihr h.2
    simp only [Term.Simplify, truthValue]
    rw [← il, ← ir]
    generalize l.Simplify env = l1
    generalize r.Simplify env = r1
    cases l1 with
    | ValueTerm v =>
      cases v with
      | BoolValue b => cases b <;> simp [truthValue]
      | StringValue s =>
        cases r1 with
        | ValueTerm w =>
          cases w with
          | BoolValue b => cases b <;> simp [truthValue]
          | StringValue s2 => simp [truthValue]
        | _ => simp [truthValue]
    | _ =>
      cases r1 with
      | ValueTerm w =>
        cases w with
        | BoolValue b => cases b <;> simp [truthValue]
        | StringValue s2 => simp [truthValue]
      | _ => simp [truthValue]

end PropLogic

namespace PropLogic

/-- C36: `Simplify` is sound for classical logic.  For a term without string
literals, an environment all of whose values are `Bool` and a valuation of the
identifiers that agrees with the environment on its keys, the simplified term
has the truth value of the term (`Not`, `And`, `Or` classical, an equation
true when its sides have the same truth value). -/
theorem Simplify_preserves_truth_value (t : Term) (env : Env) (rho : String → Bool)
    (ht : t.noStringLiteral = true) (henv : envAllBool env = true)
    (hrho : agreesWith rho env) :
    truthValue rho (t.Simplify env) = truthValue rho t :=
  truthValue_Simplify env henv rho hrho t ht

theorem Simplify_preserves_truth_value_witness :
    truthValue (fun name => decide (name = "a"))
        ((Term.Equation (.And (.Identifier "a") (.Identifier "b"))
          (.Not (.Identifier "b"))).Simplify [("a", .BoolValue true)]) =
      truthValue (fun name => decide (name = "a"))
        (Term.Equation (.And (.Identifier "a") (.Identifier "b")) (.Not (.Identifier "b"))) :=
  Simplify_preserves_truth_value
    (Term.Equation (.And (.Identifier "a") (.Identifier "b")) (.Not (.Identifier "b")))
    [("a", .BoolValue true)] (fun name => decide (name = "a")) (by decide) (by decide)
    (by
      intro name b h
      simp only [List.lookup] at h
      split at h
      · rename_i hk
        cases h
        simpa using hk
      · cases h)

theorem Simplify_closed (env : Env) (hall : envAllBool env = true) (t : Term)
    (hc : t.closedIn env = true) (h : t.noStringLiteral = true) :
    t.Simplify env = .ValueTerm (.BoolValue (truthValue (envValuation env) t)) := by
  induction t with
  | ValueTerm v =>
    cases v with
    | BoolValue b => rfl
    | StringValue s => simp [Term.noStringLiteral] at h
  | Identifier name =>
    simp only [Term.closedIn] at hc
    cases hl : env.lookup name with
    | none => simp [hl] at hc
    | some value =>
      obtain ⟨b, hb⟩ := envAllBool_lookup env hall name value hl
      subst hb
      simp [Term.Simplify, truthValue, envValuation, hl]
  | Equation l r ihl ihr =>
    simp only [Term.noStringLiteral, Term.closedIn, Bool.and_eq_true] at h hc
    simp only [Term.Simplify, ihl hc.1 h.1, ihr hc.2 h.2, truthValue]
    cases truthValue (envValuation env) l <;> cases truthValue (envValuation env) r <;>
      simp [Term.Equals, Value.Equals, Term.isValueTerm]
  | Not a iha =>
    simp only [Term.noStringLiteral, Term.closedIn] at h hc
    simp only [Term.Simplify, iha hc h, truthValue]
  | And l r ihl ihr =>
    simp only [Term.noStringLiteral, Term.closedIn, Bool.and_eq_true] at h hc
    simp only [Term.Simplify, ihl hc.1 h.1, ihr hc.2 h.2, truthValue]
    cases truthValue (envValuation env) l <;> simp
  | Or l r ihl ihr =>
    simp only [Term.noStringLiteral, Term.closedIn, Bool.and_eq_true] at h hc
    simp only [Term.Simplify, ihl hc.1 h.1, ihr hc.2 h.2, truthValue]
    cases truthValue (envValuation env) l <;> simp

/-- C37: `Simplify` evaluates closed formulas.  When every identifier of the
term is a key of the environment and neither the term nor the environment
holds a string literal, the simplified term is the single `Bool` literal of
the classical truth value of the term under the environment. -/
theorem Simplify_evaluates_closed_formulas (t : Term) (env : Env)
    (hclosed : t.closedIn env = true) (ht : t.noStringLiteral = true)
    (henv : envAllBool env = true) :
    t.Simplify env = .ValueTerm (.BoolValue (truthValue (envValuation env) t)) :=
  Simplify_closed env henv t hclosed ht

theorem Simplify_evaluates_closed_formulas_witness :
    (Term.Or (.Equation (.Identifier "a") (.Identifier "b"))
        (.Not (.And (.Identifier "a") (.ValueTerm (.BoolValue true))))).Simplify
        [("a", .BoolValue true), ("b", .BoolValue false)] =
      .ValueTerm (.BoolValue false) :=
  Simplify_evaluates_closed_formulas
    (Term.Or (.Equation (.Identifier "a") (.Identifier "b"))
      (.Not (.And (.Identifier "a") (.ValueTerm (.BoolValue true)))))
    [("a", .BoolValue true), ("b", .BoolValue false)] (by decide) (by decide) (by decide)

/-! ## Staging -/

theorem Simplify_And_eq (env : Env) (l r : Term) :
    (Term.And l r).Simplify env =
      if l.Simplify env = .ValueTerm (.BoolValue true) then r.Simplify env
      else if l.Simplify env = .ValueTerm (.BoolValue false) then .ValueTerm (.BoolValue false)
      else if r.Simplify env = .ValueTerm (.BoolValue false) then .ValueTerm (.BoolValue false)
      else if r.Simplify env = .ValueTerm (.BoolValue true) then l.Simplify env
      else .And (l.Simplify env) (r.Simplify env) := by
  simp only [Term.Simplify]
  generalize l.Simplify env = l1
  generalize r.Simplify env = r1
  cases l1 with
  | ValueTerm v =>
    cases v with
    | BoolValue b => cases b <;> simp
    | StringValue s =>
      cases r1 with
      | ValueTerm w =>
        cases w with
        | BoolValue b => cases b <;> simp
        | StringValue s2 => simp
      | _ => simp
  | _ =>
    cases r1 with
    | ValueTerm w =>
      cases w with
      | BoolValue b => cases b <;> simp
      | StringValue s2 => simp
    | _ => simp

theorem Simplify_Or_eq (env : Env) (l r : Term) :
    (Term.Or l r).Simplify env =
      if l.Simplify env = .ValueTerm (.BoolValue false) then r.Simplify env
      else if l.Simplify env = .ValueTerm (.BoolValue true) then .ValueTerm (.BoolValue true)
      else if r.Simplify env = .ValueTerm (.BoolValue true) then .ValueTerm (.BoolValue true)
      else if r.Simplify env = .ValueTerm (.BoolValue false) then l.Simplify env
      else .Or (l.Simplify env) (r.Simplify env) := by
  simp only [Term.Simplify]
  generalize l.Simplify env = l1
  generalize r.Simplify env = r1
  cases l1 with
  | ValueTerm v =>
    cases v with
    | BoolValue b => cases b <;> simp
    | StringValue s =>
      cases r1 with
      | ValueTerm w =>
        cases w with
        | BoolValue b => cases b <;> simp
        | StringValue s2 => simp
      | _ => simp
  | _ =>
    cases r1 with
    | ValueTerm w =>
      cases w with
      | BoolValue b => cases b <;> simp
      | StringValue s2 => simp
    | _ => simp

theorem Simplify_staged (env1 env2 : Env) (hext : envExtends env2 env1) (t : Term) :
    (t.Simplify env1).Simplify env2 = t.Simplify env2 := by
  induction t with
  | ValueTerm v => rfl
  | Identifier name =>
    cases hl : env1.lookup name with
    | none => simp [Term.Simplify, hl]
    | some value => simp [Term.Simplify, hl, hext name value hl]
  | Equation l r ihl ihr =>
    simp only [Term.Simplify]
    rw [← ihl, ← ihr]
    generalize l.Simplify env1 = l1
    generalize r.Simplify env1 = r1
    split
    · rename_i he
      rw [Term_Equals_iff] at he
      subst he
      simp [Term.Simplify, (Term_Equals_iff _ _).2 rfl]
    · rename_i he
      split
      · rename_i hv
        cases l1 with
        | ValueTerm v =>
          cases r1 with
          | ValueTerm w => simp [Term.Simplify, he, Term.isValueTerm]
          | _ => simp [Term.isValueTerm] at hv
        | _ => simp [Term.isValueTerm] at hv
      · simp only [Term.Simplify]
  | Not a iha =>
    simp only [Term.Simplify]
    rw [← iha]
    generalize a.Simplify env1 = a1
    cases a1 with
    | ValueTerm v => cases v <;> simp [Term.Simplify]
    | Not x =>
      have hnf := Term_isNormalForm_Simplify env2 x
      simp only [Term.Simplify]
      generalize x.Simplify env2 = y at hnf
      cases y with
      | ValueTerm v => cases v <;> simp
      | Not z =>
        simp only [Term.isNormalForm, Bool.and_eq_true] at hnf
        cases z with
        | ValueTerm v =>
          cases v with
          | BoolValue b => simp [Term.isBoolLiteral] at hnf
          | StringValue s => simp
        | Not w => simp [Term.isNot] at hnf
        | _ => simp
      | _ => simp
    | _ => simp only [Term.Simplify]
  | And l r ihl ihr =>
    rw [Simplify_And_eq env1 l r, Simplify_And_eq env2 l r, ← ihl, ← ihr]
    generalize l.Simplify env1 = l1
    generalize r.Simplify env1 = r1
    by_cases h1 : l1 = .ValueTerm (.BoolValue true)
    · subst h1; simp [Term.Simplify]
    by_cases h2 : l1 = .ValueTerm (.BoolValue false)
    · subst h2; simp [Term.Simplify]
    by_cases h3 : r1 = .ValueTerm (.BoolValue false)
    · subst h3
      simp only [if_neg h1, if_neg h2, if_true, Term.Simplify]
      split_ifs <;> simp_all
    by_cases h4 : r1 = .ValueTerm (.BoolValue true)
    · subst h4
      simp only [if_neg h1, if_neg h2, if_neg h3, if_true, Term.Simplify]
      split_ifs <;> simp_all
    simp only [if_neg h1, if_neg h2, if_neg h3, if_neg h4]
    exact Simplify_And_eq env2 l1 r1
  | Or l r ihl ihr =>
    rw [Simplify_Or_eq env1 l r, Simplify_Or_eq env2 l r, ← ihl, ← ihr]
    generalize l.Simplify env1 = l1
    generalize r.Simplify env1 = r1
    by_cases h1 : l1 = .ValueTerm (.BoolValue false)
    · subst h1; simp [Term.Simplify]
    by_cases h2 : l1 = .ValueTerm (.BoolValue true)
    · subst h2; simp [Term.Simplify]
    by_cases h3 : r1 = .ValueTerm (.BoolValue true)
    · subst h3
      simp only [if_neg h1, if_neg h2, if_true, Term.Simplify]
      split_ifs <;> simp_all
    by_cases h4 : r1 = .ValueTerm (.BoolValue false)
    · subst h4
      simp only [if_neg h1, if_neg h2, if_neg h3, if_true, Term.Simplify]
      split_ifs <;> simp_all
    simp only [if_neg h1, if_neg h2, if_neg h3, if_neg h4]
    exact Simplify_Or_eq env2 l1 r1

/-- C38: simplification can be staged.  When `env2` contains every binding of
`env1`, simplifying with `env1` first and with `env2` afterwards gives a term
that `Equals` reports equal to the result of simplifying with `env2` at
once. -/
theorem Simplify_in_stages (t : Term) (env1 env2 : Env) (h : envExtends env2 env1) :
    ((t.Simplify env1).Simplify env2).Equals (t.Simplify env2) = true :=
  (Term_Equals_iff _ _).2 (Simplify_staged env1 env2 h t)

theorem Simplify_in_stages_witness :
    (((Term.Not (.And (.Identifier "a") (.Not (.Identifier "b")))).Simplify
        [("a", .BoolValue true)]).Simplify
        [("b", .BoolValue false), ("a", .BoolValue true)]).Equals
      ((Term.Not (.And (.Identifier "a") (.Not (.Identifier "b")))).Simplify
        [("b", .BoolValue false), ("a", .BoolValue true)]) = true :=
  Simplify_in_stages (.Not (.And (.Identifier "a") (.Not (.Identifier "b"))))
    [("a", .BoolValue true)] [("b", .BoolValue false), ("a", .BoolValue true)]
    (by
      intro name value h
      simp only [List.lookup] at h
      split at h
      · rename_i hk
        have hn : name = "a" := by simpa using hk
        subst hn
        cases h
        decide
      · cases h)

end PropLogic

namespace Parse

/-! ## Termination of the repetitions -/

theorem Repeated_loop_none_ok (P : Parser RuneArrayInput) (fuel : Nat) (acc : List Any) :
    Repeated.loop P fuel acc none = .ok ⟨.list acc, none⟩ := by
  cases fuel <;> rfl

theorem RepeatAndFoldLeft_loop_none_ok (P : Parser RuneArrayInput)
    (combine : Any → Any → Except Fault Any) (fuel : Nat) (acc : Any) :
    RepeatAndFoldLeft.loop P combine fuel acc none = .ok ⟨acc, none⟩ := by
  cases fuel <;> rfl

theorem Repeated_loop_progress (P : Parser RuneArrayInput) (text : List Char) (bound : Nat)
    (hprogress : ∀ (p : Nat) (result : Any) (rest : Option RuneArrayInput), p ≤ bound →
      P (some ⟨text, p⟩) = .ok ⟨result, rest⟩ → result.isNil = false →
      rest = none ∨ ∃ q, rest = some ⟨text, q⟩ ∧ p < q ∧ q ≤ bound)
    (hP : ∀ p, P (some ⟨text, p⟩) ≠ .error .outOfFuel) :
    ∀ (fuel p : Nat) (acc : List Any), p ≤ bound → bound - p < fuel →
      Repeated.loop P fuel acc (some ⟨text, p⟩) ≠ .error .outOfFuel ∧
      Repeated.loop P (fuel + 1) acc (some ⟨text, p⟩) =
        Repeated.loop P fuel acc (some ⟨text, p⟩) := by
  intro fuel
  induction fuel with
  | zero => intro p acc _ h; omega
  | succ n ih =>
    intro p acc hp hfuel
    simp only [Repeated.loop]
    cases hr : P (some ⟨text, p⟩) with
    | error e =>
      refine ⟨?_, rfl⟩
      intro h
      apply hP p
      rw [hr]
      simpa using h
    | ok one =>
      obtain ⟨result, rest⟩ := one
      cases hnil : result.isNil with
      | true => simp [hnil]
      | false =>
        simp only [hnil]
        rcases hprogress p result rest hp hr hnil with h | ⟨q, h, hpq, hq⟩
        · subst h
          simp [Repeated_loop_none_ok]
        · subst h
          have := ih q (acc ++ [result]) hq (by omega)
          simpa using this

theorem RepeatAndFoldLeft_loop_progress (P : Parser RuneArrayInput) (text : List Char)
    (bound : Nat) (combine : Any → Any → Except Fault Any)
    (hprogress : ∀ (p : Nat) (result : Any) (rest : Option RuneArrayInput), p ≤ bound →
      P (some ⟨text, p⟩) = .ok ⟨result, rest⟩ → result.isNil = false →
      rest = none ∨ ∃ q, rest = some ⟨text, q⟩ ∧ p < q ∧ q ≤ bound)
    (hP : ∀ p, P (some ⟨text, p⟩) ≠ .error .outOfFuel)
    (hcombine : ∀ x y, combine x y ≠ .error .outOfFuel) :
    ∀ (fuel p : Nat) (acc : Any), p ≤ bound → bound - p < fuel →
      RepeatAndFoldLeft.loop P combine fuel acc (some ⟨text, p⟩) ≠ .error .outOfFuel ∧
      RepeatAndFoldLeft.loop P combine (fuel + 1) acc (some ⟨text, p⟩) =
        RepeatAndFoldLeft.loop P combine fuel acc (some ⟨text, p⟩) := by
  intro fuel
  induction fuel with
  | zero => intro p acc _ h; omega
  | succ n ih =>
    intro p acc hp hfuel
    simp only [RepeatAndFoldLeft.loop]
    cases hr : P (some ⟨text, p⟩) with
    | error e =>
      refine ⟨?_, rfl⟩
      intro h
      apply hP p
      rw [hr]
      simpa using h
    | ok one =>
      obtain ⟨result, rest⟩ := one
      cases hnil : result.isNil with
      | true => simp [hnil]
      | false =>
        simp only [hnil]
        cases hc : combine acc result with
        | error e =>
          refine ⟨?_, rfl⟩
          intro h
          apply hcombine acc result
          rw [hc]
          simpa using h
        | ok next =>
          rcases hprogress p result rest hp hr hnil with h | ⟨q, h, hpq, hq⟩
          · subst h
            simp [RepeatAndFoldLeft_loop_none_ok]
          · subst h
            have := ih q next hq (by omega)
            simpa using this

theorem loop_stable_of_step {α : Type} (f : Nat → α) (start : Nat)
    (h : ∀ fuel, start ≤ fuel → f (fuel + 1) = f fuel) :
    ∀ fuel, start ≤ fuel → f fuel = f start := by
  intro fuel hfuel
  induction fuel with
  | zero =>
    have : start = 0 := by omega
    subst this; rfl
  | succ n ih =>
    by_cases hn : start ≤ n
    · rw [h n hn]; exact ih hn
    · have : start = n + 1 := by omega
      subst this; rfl

/-- C39: repetition terminates when the repeated parser makes progress.  Let
`P` be a parser whose every success on a view of the text at a position `p`
returns nil or a view of the same text at a greater position, positions being
bounded by `bound` (the length of the text for a parser that stays inside the
text, the largest value of the type `int` in any case), and let `P` and
`combine` themselves always return.  Then on `StringToInput (text)` the loops
of `Repeated (P)` and of `RepeatAndFoldLeft (P, seed, combine)` both end after
at most `bound + 1` applications of `P`: no budget above `bound` is used up,
and all such budgets give the same outcome. -/
theorem Repetition_terminates_with_progress (P : Parser RuneArrayInput) (text : String)
    (bound : Nat) (seed : Any) (combine : Any → Any → Except Fault Any)
    (hprogress : ∀ (p : Nat) (result : Any) (rest : Option RuneArrayInput), p ≤ bound →
      P (some ⟨text.data, p⟩) = .ok ⟨result, rest⟩ → result.isNil = false →
      rest = none ∨ ∃ q, rest = some ⟨text.data, q⟩ ∧ p < q ∧ q ≤ bound)
    (hP : ∀ p, P (some ⟨text.data, p⟩) ≠ .error .outOfFuel)
    (hcombine : ∀ x y, combine x y ≠ .error .outOfFuel)
    (fuel : Nat) (hfuel : bound < fuel) :
    Repeated fuel P (StringToInput text) ≠ .error .outOfFuel ∧
    Repeated fuel P (StringToInput text) = Repeated (bound + 1) P (StringToInput text) ∧
    RepeatAndFoldLeft fuel P seed combine (StringToInput text) ≠ .error .outOfFuel ∧
    RepeatAndFoldLeft fuel P seed combine (StringToInput text) =
      RepeatAndFoldLeft (bound + 1) P seed combine (StringToInput text) := by
  refine ⟨?_, ?_, ?_, ?_⟩
  · exact (Repeated_loop_progress P text.data bound hprogress hP fuel 0 []
      (Nat.zero_le _) (by omega)).1
  · exact loop_stable_of_step (fun n => Repeated n P (StringToInput text)) (bound + 1)
      (fun n hn => (Repeated_loop_progress P text.data bound hprogress hP n 0 []
        (Nat.zero_le _) (by omega)).2) fuel hfuel
  · exact (RepeatAndFoldLeft_loop_progress P text.data bound combine hprogress hP hcombine
      fuel 0 seed (Nat.zero_le _) (by omega)).1
  · exact loop_stable_of_step
      (fun n => RepeatAndFoldLeft n P seed combine (StringToInput text)) (bound + 1)
      (fun n hn => (RepeatAndFoldLeft_loop_progress P text.data bound combine hprogress hP
        hcombine n 0 seed (Nat.zero_le _) (by omega)).2) fuel hfuel

theorem ExpectCodePoint_progress (c : Char) (text : List Char) :
    ∀ (p : Nat) (result : Any) (rest : Option RuneArrayInput), p ≤ text.length →
      ExpectCodePoint c (some (⟨text, p⟩ : RuneArrayInput)) = .ok ⟨result, rest⟩ →
      result.isNil = false →
      rest = none ∨ ∃ q, rest = some ⟨text, q⟩ ∧ p < q ∧ q ≤ text.length := by
  intro p result rest _ h hnil
  simp only [ExpectCodePoint] at h
  split at h
  · simp only [Except.ok.injEq, ParserResult.mk.injEq] at h
    obtain ⟨_, h2⟩ := h
    subst h2
    simp only [ParserInput.RemainingInput, RuneArrayInput.RemainingInput]
    split
    · exact Or.inl rfl
    · rename_i hlt
      simp only [ge_iff_le, not_le] at hlt
      exact Or.inr ⟨p + 1, rfl, by omega, by omega⟩
  · simp only [Except.ok.injEq, ParserResult.mk.injEq] at h
    obtain ⟨h1, _⟩ := h
    subst h1
    simp [Any.isNil] at hnil

theorem ExpectCodePoint_returns (c : Char) (text : List Char) (p : Nat) :
    ExpectCodePoint c (some (⟨text, p⟩ : RuneArrayInput)) ≠ .error .outOfFuel := by
  simp only [ExpectCodePoint]
  split <;> simp

theorem Repetition_terminates_with_progress_witness :
    Repeated 7 (ExpectCodePoint 'a') (StringToInput "aab") ≠ .error .outOfFuel ∧
    Repeated 7 (ExpectCodePoint 'a') (StringToInput "aab") =
      Repeated 4 (ExpectCodePoint 'a') (StringToInput "aab") ∧
    RepeatAndFoldLeft 7 (ExpectCodePoint 'a') (.int 0) (fun x _ => .ok x)
      (StringToInput "aab") ≠ .error .outOfFuel ∧
    RepeatAndFoldLeft 7 (ExpectCodePoint 'a') (.int 0) (fun x _ => .ok x)
      (StringToInput "aab") =
      RepeatAndFoldLeft 4 (ExpectCodePoint 'a') (.int 0) (fun x _ => .ok x)
        (StringToInput "aab") :=
  Repetition_terminates_with_progress (ExpectCodePoint 'a') "aab" 3 (.int 0)
    (fun x _ => .ok x) (ExpectCodePoint_progress 'a' "aab".data)
    (ExpectCodePoint_returns 'a' "aab".data) (fun _ _ => by simp) 7 (by decide)

end Parse

namespace PropLogic

open Parse

/-! ## The fold of NOT tokens at the end of the text -/

/-- C25: on the text NOT NOT NOT x, and on every text of `NOT` tokens whose
operand ends the text, `ParseNot` panics instead of returning the folded
negation.  The operand x is the last code point, so the input that remains
after it is nil; already the attempt to read one more token `NOT` takes x for
an identifier and asks the nil input for its code point, and `ParseEqn` would
do the same in front of the equals sign.  Whitespace after the operand does
not help, being read to the end of the text in the same way.  When a code
point that belongs to no token follows, the three tokens are folded into the
one negation of the identifier and the parse stops in front of that code
point. -/
theorem ParseNot_NOT_NOT_NOT_x_panics :
    (∀ n, ParseNot (n + 5) (StringToInput "NOT NOT NOT x") =
      (.error .nilDereference : Except Fault (ParserResult RuneArrayInput))) ∧
    (∀ n, ParseNot (n + 5) (StringToInput "NOT x") =
      (.error .nilDereference : Except Fault (ParserResult RuneArrayInput))) ∧
    (∀ n, ParseNot (n + 5) (StringToInput "x") =
      (.error .nilDereference : Except Fault (ParserResult RuneArrayInput))) ∧
    (∀ n, ParseNot (n + 5) (StringToInput "NOT NOT NOT x ") =
      (.error .nilDereference : Except Fault (ParserResult RuneArrayInput))) ∧
    (∀ n, ParseNot (n + 5) (StringToInput "NOT NOT NOT x;") =
      .ok ⟨.term (.Not (.Identifier "x")), some ⟨"NOT NOT NOT x;".data, 13⟩⟩) ∧
    (∀ n, ParseNot (n + 5) (StringToInput "NOT NOT x;") =
      .ok ⟨.term (.Identifier "x"), some ⟨"NOT NOT x;".data, 9⟩⟩) := by
  set_option maxRecDepth 100000 in
  set_option smartUnfolding false in
  exact ⟨fun _ => rfl, fun _ => rfl, fun _ => rfl, fun _ => rfl, fun _ => rfl, fun _ => rfl⟩

end PropLogic
